import Mathlib

/-!
Y86-64 sequential simulator: embedding of `memory.cpp`, `register.cpp`, `cpu.cpp`
and `loader.cpp`.

Conventions of the embedding.

* `word_t` (`int64_t`), `addr_t` (`uint64_t`) and `byte_t` (`uint8_t`) values are
  represented by their bit pattern as a natural number; a `word_t` is read as a
  signed number through `toInt64`.  Conversions between `word_t` and `addr_t`
  are therefore the identity, and arithmetic is written with an explicit
  `% 2 ^ 64`.
* `Memory::data` (a vector of `MAX_SIZE` bytes) is a function from addresses to
  bytes; only addresses below `MAX_SIZE` are ever read or written.
* `Register::regs` (an array of 16 words) is a function from indices to words.
* The stage functions of `CPU` return the `bool` of the source together with
  the new machine state; `step` drops the `bool`s exactly as the source does.
* A `std::string` is a list of characters; `Loader::load` returns the `bool` of
  the source together with the memory it leaves.
-/

namespace Y86

/-- Signed reading of a 64-bit pattern (`int64_t`). -/
def toInt64 (w : Nat) : Int :=
  if w < 2 ^ 63 then (w : Int) else (w : Int) - 2 ^ 64

/-- Status codes, `enum class Stat` of `global.h`. -/
inductive Stat where
  | AOK
  | HLT
  | ADR
  | INS
  deriving DecidableEq, Repr

/-- Numeric status codes of `global.h`. -/
def Stat.code : Stat → Nat
  | .AOK => 1
  | .HLT => 2
  | .ADR => 3
  | .INS => 4

namespace Reg
def RAX : Nat := 0
def RCX : Nat := 1
def RDX : Nat := 2
def RBX : Nat := 3
def RSP : Nat := 4
def RBP : Nat := 5
def RSI : Nat := 6
def RDI : Nat := 7
def R8 : Nat := 8
def R9 : Nat := 9
def R10 : Nat := 10
def R11 : Nat := 11
def R12 : Nat := 12
def R13 : Nat := 13
def R14 : Nat := 14
def NONE : Nat := 15
end Reg

namespace ICode
def HALT : Nat := 0
def NOP : Nat := 1
def RRMOVQ : Nat := 2
def IRMOVQ : Nat := 3
def RMMOVQ : Nat := 4
def MRMOVQ : Nat := 5
def OPQ : Nat := 6
def JXX : Nat := 7
def CALL : Nat := 8
def RET : Nat := 9
def PUSHQ : Nat := 0xA
def POPQ : Nat := 0xB
end ICode

namespace ALU
def ADD : Nat := 0
def SUB : Nat := 1
def AND : Nat := 2
def XOR : Nat := 3
end ALU

/-! ## memory.cpp -/

/-- Capacity of the memory, `Memory::MAX_SIZE`. -/
def MAX_SIZE : Nat := 0x2000

/-- The memory, `class Memory`: the byte stored at each address. -/
structure Memory where
  data : Nat → Nat

/-- The zero-filled memory of `Memory::Memory` and `Memory::reset`. -/
def Memory.reset (_m : Memory) : Memory := ⟨fun _ => 0⟩

/-- One assignment `data[addr] = val`. -/
def Memory.store (m : Memory) (addr val : Nat) : Memory :=
  ⟨fun a => if a = addr then val else m.data a⟩

/-- `Memory::writeByte`: the returned flag is `true` on an out-of-bounds address. -/
def Memory.writeByte (m : Memory) (addr val : Nat) : Bool × Memory :=
  if addr ≥ MAX_SIZE then (true, m)
  else (false, m.store addr val)

/-- `Memory::readByte`: the value read and the error flag. -/
def Memory.readByte (m : Memory) (addr : Nat) : Nat × Bool :=
  if addr ≥ MAX_SIZE then (0, true)
  else (m.data addr, false)

/-- The loop of `Memory::writeWord`, for `i` running over `is`. -/
def Memory.writeLoop (m : Memory) (addr val : Nat) : List Nat → Memory
  | [] => m
  | i :: is => (m.store (addr + i) ((val >>> (8 * i)) &&& 0xFF)).writeLoop addr val is

/-- `Memory::writeWord`: little-endian store of 8 bytes, `true` on out of bounds. -/
def Memory.writeWord (m : Memory) (addr val : Nat) : Bool × Memory :=
  if addr > MAX_SIZE - 8 then (true, m)
  else (false, m.writeLoop addr val (List.range 8))

/-- The loop of `Memory::readWord`, accumulating into `value`. -/
def Memory.readLoop (m : Memory) (addr : Nat) (value : Nat) : List Nat → Nat
  | [] => value
  | i :: is => m.readLoop addr (value ||| ((m.data (addr + i) <<< (8 * i)) % 2 ^ 64)) is

/-- `Memory::readWord`: little-endian load of 8 bytes and the error flag. -/
def Memory.readWord (m : Memory) (addr : Nat) : Nat × Bool :=
  if addr > MAX_SIZE - 8 then (0, true)
  else (m.readLoop addr 0 (List.range 8), false)

/-! ## register.cpp -/

/-- The register file, `class Register`. -/
structure Register where
  regs : Nat → Nat

/-- `Register::reset`. -/
def Register.reset (_r : Register) : Register := ⟨fun _ => 0⟩

/-- `Register::setReg`: a write to `Reg::NONE` is dropped. -/
def Register.setReg (r : Register) (id val : Nat) : Register :=
  if id = Reg.NONE then r
  else ⟨fun i => if i = id then val else r.regs i⟩

/-- `Register::getReg`: reading `Reg::NONE` gives zero. -/
def Register.getReg (r : Register) (id : Nat) : Nat :=
  if id = Reg.NONE then 0 else r.regs id

/-! ## cpu.h / cpu.cpp -/

/-- The condition codes, `struct ConditionCode`. -/
structure ConditionCode where
  zf : Bool
  sf : Bool
  of : Bool
  deriving DecidableEq, Repr

/-- The machine, `class CPU`: architectural state and the per-step signals. -/
structure CPU where
  mem : Memory
  reg : Register
  cc : ConditionCode
  PC : Nat
  stat : Stat
  icode : Nat
  ifunc : Nat
  rA : Nat
  rB : Nat
  valA : Nat
  valB : Nat
  valC : Nat
  valE : Nat
  valM : Nat
  valP : Nat
  Cnd : Bool

/-- `CPU::reset`. -/
def CPU.reset (s : CPU) : CPU :=
  { s with reg := s.reg.reset, cc := ⟨true, false, false⟩, PC := 0, stat := Stat.AOK }

/-- `setAddrError`, the helper of the `CHECK_ERR` macro. -/
def setAddrError (s : CPU) : Bool × CPU := (false, { s with stat := Stat.ADR })

/-- Whether fetch reads a register byte (`needReg` in `CPU::fetch`). -/
def needReg (icode : Nat) : Bool :=
  icode = ICode.RRMOVQ || icode = ICode.IRMOVQ || icode = ICode.RMMOVQ
    || icode = ICode.MRMOVQ || icode = ICode.OPQ || icode = ICode.PUSHQ
    || icode = ICode.POPQ

/-- Whether fetch reads an 8-byte constant (`needValC` in `CPU::fetch`). -/
def needValC (icode : Nat) : Bool :=
  icode = ICode.IRMOVQ || icode = ICode.MRMOVQ || icode = ICode.RMMOVQ
    || icode = ICode.JXX || icode = ICode.CALL

/-- The last part of `CPU::fetch`: the optional read of `valC`. -/
def fetchValC (s : CPU) : Bool × CPU :=
  if needValC s.icode then
    let r := s.mem.readWord s.valP
    let s1 := { s with valC := r.1 }
    if r.2 then setAddrError s1
    else (true, { s1 with valP := (s1.valP + 8) % 2 ^ 64 })
  else (true, s)

/-- The middle part of `CPU::fetch`: the optional read of the register byte. -/
def fetchRegs (s : CPU) : Bool × CPU :=
  if needReg s.icode then
    let r := s.mem.readByte s.valP
    if r.2 then setAddrError s
    else
      fetchValC { s with rA := (r.1 >>> 4) &&& 0xF, rB := r.1 &&& 0xF,
                          valP := (s.valP + 1) % 2 ^ 64 }
  else
    fetchValC { s with rA := Reg.NONE, rB := Reg.NONE }

/-- `CPU::fetch`. -/
def fetch (s : CPU) : Bool × CPU :=
  let r := s.mem.readByte s.PC
  if r.2 then setAddrError s
  else
    let s1 := { s with icode := (r.1 >>> 4) &&& 0xF, ifunc := r.1 &&& 0xF,
                       valP := (s.PC + 1) % 2 ^ 64 }
    if s1.icode = ICode.HALT then
      (true, { s1 with stat := Stat.HLT, valP := s1.PC })
    else fetchRegs s1

/-- `CPU::decode`. -/
def decode (s : CPU) : Bool × CPU :=
  let src : Nat × Nat :=
    if s.icode = ICode.HALT || s.icode = ICode.NOP || s.icode = ICode.RRMOVQ
        || s.icode = ICode.IRMOVQ || s.icode = ICode.RMMOVQ
        || s.icode = ICode.MRMOVQ || s.icode = ICode.OPQ then
      (s.rA, s.rB)
    else if s.icode = ICode.PUSHQ || s.icode = ICode.POPQ
        || s.icode = ICode.CALL || s.icode = ICode.RET then
      (s.rA, Reg.RSP)
    else (Reg.NONE, Reg.NONE)
  (true, { s with valA := s.reg.getReg src.1, valB := s.reg.getReg src.2 })

/-- `CPU::setALU`: the triple `(aluA, aluB, op)`, starting from `(0, 0, ADD)`
as `CPU::execute` initialises them. -/
def setALU (s : CPU) : Nat × Nat × Nat :=
  if s.icode = ICode.RRMOVQ then (s.valA, 0, ALU.ADD)
  else if s.icode = ICode.IRMOVQ then (s.valC, 0, ALU.ADD)
  else if s.icode = ICode.RMMOVQ then (s.valC, s.valB, ALU.ADD)
  else if s.icode = ICode.MRMOVQ then (s.valC, s.valB, ALU.ADD)
  else if s.icode = ICode.OPQ then (s.valA, s.valB, s.ifunc)
  else if s.icode = ICode.PUSHQ then (2 ^ 64 - 8, s.valB, ALU.ADD)
  else if s.icode = ICode.POPQ then (8, s.valB, ALU.ADD)
  else if s.icode = ICode.CALL then (2 ^ 64 - 8, s.valB, ALU.ADD)
  else if s.icode = ICode.RET then (8, s.valB, ALU.ADD)
  else (0, 0, ALU.ADD)

/-- `CPU::execALU`: `b op a` on 64-bit words. -/
def execALU (aluA aluB op : Nat) : Nat :=
  if op = ALU.ADD then (aluB + aluA) % 2 ^ 64
  else if op = ALU.SUB then (aluB + (2 ^ 64 - aluA % 2 ^ 64)) % 2 ^ 64
  else if op = ALU.AND then aluB &&& aluA
  else if op = ALU.XOR then aluB ^^^ aluA
  else 0

/-- `CPU::setCC`: the flags computed from the ALU inputs and `valE`. -/
def setCC (s : CPU) (aluA aluB op : Nat) : CPU :=
  let a := toInt64 aluA
  let b := toInt64 aluB
  let e := toInt64 s.valE
  let zf := decide (e = 0)
  let sf := decide (e < 0)
  let of :=
    if op = ALU.ADD then
      (decide (a > 0) && decide (b > 0) && decide (e < 0))
        || (decide (a < 0) && decide (b < 0) && decide (e > 0))
    else if op = ALU.SUB then
      (decide (a < 0) && decide (b > 0) && decide (e < 0))
        || (decide (a > 0) && decide (b < 0) && decide (e > 0))
    else if op = ALU.AND || op = ALU.XOR then false
    else s.cc.of
  { s with cc := ⟨zf, sf, of⟩ }

/-- `CPU::execute`. -/
def execute (s : CPU) : Bool × CPU :=
  if s.icode = ICode.JXX then (true, s)
  else
    let alu := setALU s
    let s1 := { s with valE := execALU alu.1 alu.2.1 alu.2.2 }
    if s1.icode = ICode.OPQ then (true, setCC s1 alu.1 alu.2.1 alu.2.2)
    else (true, s1)

/-- `CPU::memory_stage`. -/
def memory_stage (s : CPU) : Bool × CPU :=
  if s.icode = ICode.RMMOVQ then
    let w := s.mem.writeWord s.valE s.valA
    if w.1 then (false, { s with mem := w.2 }) else (true, { s with mem := w.2 })
  else if s.icode = ICode.MRMOVQ then
    let r := s.mem.readWord s.valE
    let s1 := { s with valM := r.1 }
    if r.2 then setAddrError s1 else (true, s1)
  else if s.icode = ICode.PUSHQ then
    let w := s.mem.writeWord s.valE s.valA
    if w.1 then setAddrError { s with mem := w.2 } else (true, { s with mem := w.2 })
  else if s.icode = ICode.POPQ then
    let r := s.mem.readWord s.valB
    let s1 := { s with valM := r.1 }
    if r.2 then setAddrError s1 else (true, s1)
  else if s.icode = ICode.CALL then
    let w := s.mem.writeWord s.valE s.valP
    if w.1 then setAddrError { s with mem := w.2 } else (true, { s with mem := w.2 })
  else if s.icode = ICode.RET then
    let r := s.mem.readWord s.valB
    let s1 := { s with valM := r.1 }
    if r.2 then setAddrError s1 else (true, s1)
  else (true, s)

/-- `CPU::cond`: the condition selected by `ifunc` on the current flags. -/
def cond (s : CPU) : Bool :=
  if s.ifunc = 0 then true
  else if s.ifunc = 1 then (s.cc.sf != s.cc.of) || s.cc.zf
  else if s.ifunc = 2 then s.cc.sf != s.cc.of
  else if s.ifunc = 3 then s.cc.zf
  else if s.ifunc = 4 then !s.cc.zf
  else if s.ifunc = 5 then !(s.cc.sf != s.cc.of)
  else if s.ifunc = 6 then !(s.cc.sf != s.cc.of) && !s.cc.zf
  else false

/-- `CPU::writeback`. -/
def writeback (s : CPU) : Bool × CPU :=
  if s.stat = Stat.INS || s.stat = Stat.HLT then (false, s)
  else if s.icode = ICode.RRMOVQ then
    if cond s then (true, { s with reg := s.reg.setReg s.rB s.valE }) else (true, s)
  else if s.icode = ICode.IRMOVQ || s.icode = ICode.OPQ then
    (true, { s with reg := s.reg.setReg s.rB s.valE })
  else if s.icode = ICode.MRMOVQ then
    (true, { s with reg := s.reg.setReg s.rA s.valM })
  else if s.icode = ICode.PUSHQ then
    (true, { s with reg := s.reg.setReg Reg.RSP s.valE })
  else if s.icode = ICode.POPQ then
    (true, { s with reg := (s.reg.setReg Reg.RSP s.valE).setReg s.rA s.valM })
  else if s.icode = ICode.CALL then
    (true, { s with reg := s.reg.setReg Reg.RSP s.valE })
  else if s.icode = ICode.RET then
    (true, { s with reg := s.reg.setReg Reg.RSP s.valE })
  else (true, s)

/-- `CPU::updatePC`. -/
def updatePC (s : CPU) : CPU :=
  if s.stat ≠ Stat.AOK then s
  else if s.icode = ICode.JXX then
    if cond s then { s with PC := s.valC } else { s with PC := s.valP }
  else if s.icode = ICode.CALL then { s with PC := s.valC }
  else if s.icode = ICode.RET then { s with PC := s.valM }
  else { s with PC := s.valP }

/-- `CPU::step`: the six stages in order, their `bool` results dropped. -/
def step (s : CPU) : CPU :=
  if s.stat = Stat.AOK then
    updatePC (writeback (memory_stage (execute (decode (fetch s).2).2).2).2).2
  else s

/-- Repeated `step`: `n` invocations. -/
def stepN : Nat → CPU → CPU
  | 0, s => s
  | n + 1, s => stepN n (step s)

/-! ## loader.cpp

Strings are lists of characters.  The standard-library calls of the loader
(`std::getline`, `std::string::find`, `substr`, `std::stoull`, `std::stoi`)
are written out with their documented behaviour; an exception of `stoull` or
`stoi` is the result `none`. -/

/-- The characters `trim` removes at both ends: space and tab. -/
def isBlank (c : Char) : Bool := c = ' ' || c = '\t'

/-- `trim` of `loader.cpp`: the string without its leading and trailing
spaces and tabs (`substr(start, end - start + 1)` between the first and the
last character that is neither; empty when there is none). -/
def trim (s : List Char) : List Char :=
  ((s.dropWhile isBlank).reverse.dropWhile isBlank).reverse

/-- `std::string::find(c)`: the position of the first `c`, `none` for `npos`. -/
def strFind (c : Char) : List Char → Option Nat
  | [] => none
  | x :: xs => if x = c then some 0 else (strFind c xs).map (· + 1)

/-- `std::string::substr(pos, count)` for `pos` within the string. -/
def substr (s : List Char) (pos count : Nat) : List Char := (s.drop pos).take count

/-- The lines `std::getline` yields in turn: the text up to each newline, and
the text after the last newline when it is not empty.  `cur` is the line read
so far, reversed. -/
def getlinesFrom (cur : List Char) : List Char → List (List Char)
  | [] => if cur = [] then [] else [cur.reverse]
  | c :: cs => if c = '\n' then cur.reverse :: getlinesFrom [] cs else getlinesFrom (c :: cur) cs

/-- The lines of a text, as the `while (std::getline(ss, line))` loop sees them. -/
def getlines (content : List Char) : List (List Char) := getlinesFrom [] content

/-- The value of a hexadecimal digit, `none` for any other character. -/
def hexDigit (c : Char) : Option Nat :=
  if 48 ≤ c.toNat ∧ c.toNat ≤ 57 then some (c.toNat - 48)
  else if 97 ≤ c.toNat ∧ c.toNat ≤ 102 then some (c.toNat - 87)
  else if 65 ≤ c.toNat ∧ c.toNat ≤ 70 then some (c.toNat - 55)
  else none

/-- The white space `strtol` and `strtoull` skip (`isspace` in the C locale). -/
def isSpaceC (c : Char) : Bool :=
  c = ' ' || c = '\t' || c = '\n' || c = '\x0b' || c = '\x0c' || c = '\r'

/-- The longest run of hexadecimal digits at the start of a string: its value
(continuing from `acc`) and the number of digits (continuing from `n`). -/
def hexRun (acc n : Nat) : List Char → Nat × Nat
  | [] => (acc, n)
  | c :: cs =>
    match hexDigit c with
    | some d => hexRun (16 * acc + d) (n + 1) cs
    | none => (acc, n)

/-- The subject sequence `strtol`/`strtoull` convert in base 16: leading white
space is skipped, then an optional sign, an optional `0x`/`0X` (when a digit
follows it) and the longest run of hexadecimal digits; what follows is
ignored.  The result is the sign and the magnitude, `none` when there is no
digit to convert. -/
def strtoHex (s : List Char) : Option (Bool × Nat) :=
  let s1 := s.dropWhile isSpaceC
  let signed : Bool × List Char :=
    match s1 with
    | [] => (false, [])
    | c :: r => if c = '-' then (true, r) else if c = '+' then (false, r) else (false, c :: r)
  let s3 : List Char :=
    match signed.2 with
    | c0 :: x :: h :: r =>
      if c0 = '0' ∧ (x = 'x' ∨ x = 'X') ∧ (hexDigit h).isSome then h :: r else signed.2
    | _ => signed.2
  let run := hexRun 0 0 s3
  if run.2 = 0 then none else some (signed.1, run.1)

/-- `std::stoull(s, nullptr, 16)`: `none` when it throws (no conversion, or a
magnitude that does not fit 64 bits); a minus sign negates modulo `2^64`. -/
def stoull16 (s : List Char) : Option Nat :=
  match strtoHex s with
  | none => none
  | some (neg, v) =>
    if v ≥ 2 ^ 64 then none
    else some (if neg then (2 ^ 64 - v) % 2 ^ 64 else v)

/-- `static_cast<uint8_t>(std::stoi(s, nullptr, 16))`: `none` when `stoi`
throws (no conversion, or a value outside `int`); otherwise the value modulo
256. -/
def stoiByte16 (s : List Char) : Option Nat :=
  match strtoHex s with
  | none => none
  | some (neg, v) =>
    if neg then (if v > 2 ^ 31 then none else some ((256 - v % 256) % 256))
    else (if v ≥ 2 ^ 31 then none else some (v % 256))

/-- One conversion-and-write of the byte loop of `Loader::load`, on the token
`tok` (`hexStr.substr(i, 2)`): `none` when `stoi` throws (the loop is left),
otherwise the flag of `writeByte` and the memory after it. -/
def loadToken (m : Memory) (addr : Nat) (tok : List Char) : Option (Bool × Memory) :=
  match stoiByte16 tok with
  | none => none
  | some b => some (m.writeByte addr b)

/-- The byte loop of `Loader::load` over `hexStr`, two characters at a time
from address `addr` on.  The flag is `true` when a `writeByte` reported out of
bounds (`load` returns `false` at once); the memory is the one reached. -/
def loadBytes (m : Memory) (addr : Nat) : List Char → Bool × Memory
  | [] => (false, m)
  | [c] =>
    match loadToken m addr [c] with
    | none => (false, m)
    | some r => r
  | c1 :: c2 :: rest =>
    match loadToken m addr [c1, c2] with
    | none => (false, m)
    | some r => if r.1 then (true, r.2) else loadBytes r.2 ((addr + 1) % 2 ^ 64) rest

/-- The body of the `while` loop of `Loader::load` on one line.  The flag is
`true` when `load` returns `false` in this line. -/
def loadLine (m : Memory) (line : List Char) : Bool × Memory :=
  match strFind ':' line with
  | none => (false, m)
  | some colonPos =>
    let endPos := match strFind '|' line with
      | none => line.length
      | some pipePos => pipePos
    let addrStr := trim (substr line 0 colonPos)
    if addrStr = [] then (false, m)
    else
      match stoull16 addrStr with
      | none => (false, m)
      | some addr =>
        let hexStr := trim (substr line (colonPos + 1) ((endPos + 2 ^ 64 - colonPos - 1) % 2 ^ 64))
        if hexStr = [] then (false, m)
        else loadBytes m addr hexStr

/-- The `while` loop of `Loader::load` over the lines: the result of `load`
and the memory it leaves. -/
def loadLines (m : Memory) : List (List Char) → Bool × Memory
  | [] => (true, m)
  | line :: rest =>
    let r := loadLine m line
    if r.1 then (false, r.2) else loadLines r.2 rest

/-- `Loader::load`: the memory is reset, then the lines are loaded. -/
def load (content : List Char) (m : Memory) : Bool × Memory :=
  loadLines m.reset (getlines content)

/-! ## The conditions as the specification lists them -/

/-- The condition of function code `fn` on the flags, as the specification
lists the seven of them: 0 always; 1 `(sign ≠ overflow) or zero`;
2 `sign ≠ overflow`; 3 `zero`; 4 `not zero`; 5 `sign = overflow`;
6 `sign = overflow and not zero`. -/
def condHolds (fn : Nat) (cc : ConditionCode) : Prop :=
  (fn = 0)
    ∨ (fn = 1 ∧ (cc.sf ≠ cc.of ∨ cc.zf = true))
    ∨ (fn = 2 ∧ cc.sf ≠ cc.of)
    ∨ (fn = 3 ∧ cc.zf = true)
    ∨ (fn = 4 ∧ cc.zf = false)
    ∨ (fn = 5 ∧ cc.sf = cc.of)
    ∨ (fn = 6 ∧ cc.sf = cc.of ∧ cc.zf = false)

instance (fn : Nat) (cc : ConditionCode) : Decidable (condHolds fn cc) := by
  unfold condHolds
  infer_instance

/-! ## Little-endian words as the specification reads them -/

/-- The value whose little-endian bytes are the 8 bytes of `m` from `addr` on. -/
def Memory.leWord (m : Memory) (addr : Nat) : Nat :=
  m.data addr + 2 ^ 8 * m.data (addr + 1) + 2 ^ 16 * m.data (addr + 2)
    + 2 ^ 24 * m.data (addr + 3) + 2 ^ 32 * m.data (addr + 4) + 2 ^ 40 * m.data (addr + 5)
    + 2 ^ 48 * m.data (addr + 6) + 2 ^ 56 * m.data (addr + 7)

/-- The 8 cells of `m` from `addr` on hold bytes (values below 256), as every
cell of a `byte_t` vector does. -/
def Memory.bytesAt (m : Memory) (addr : Nat) : Prop :=
  ∀ i, i < 8 → m.data (addr + i) < 256

instance (m : Memory) (addr : Nat) : Decidable (m.bytesAt addr) := by
  unfold Memory.bytesAt
  infer_instance

/-! ## What a listing asks to write -/

/-- The bytes the byte loop converts from `hexStr`, two characters at a time,
up to the first token on which `stoi` throws. -/
def tokenBytes : List Char → List Nat
  | [] => []
  | [c] =>
    match stoiByte16 [c] with
    | none => []
    | some b => [b]
  | c1 :: c2 :: rest =>
    match stoiByte16 [c1, c2] with
    | none => []
    | some b => b :: tokenBytes rest

/-- The address a line names and the bytes it asks to write from there on;
`none` for a line the loader skips. -/
def lineTarget (line : List Char) : Option (Nat × List Nat) :=
  match strFind ':' line with
  | none => none
  | some colonPos =>
    let endPos := match strFind '|' line with
      | none => line.length
      | some pipePos => pipePos
    let addrStr := trim (substr line 0 colonPos)
    if addrStr = [] then none
    else
      match stoull16 addrStr with
      | none => none
      | some addr =>
        let hexStr := trim (substr line (colonPos + 1) ((endPos + 2 ^ 64 - colonPos - 1) % 2 ^ 64))
        if hexStr = [] then none
        else some (addr, tokenBytes hexStr)

/-- The memory after the bytes `bs` are stored at `addr`, `addr + 1`, ... -/
def Memory.storeBytes (m : Memory) (addr : Nat) : List Nat → Memory
  | [] => m
  | b :: bs => (m.store addr b).storeBytes (addr + 1) bs

/-- A hexadecimal digit pair as text, and the text of a list of pairs. -/
def pairText : List (Char × Char) → List Char
  | [] => []
  | p :: ps => p.1 :: p.2 :: pairText ps

/-- The value of a pair of hexadecimal digits. -/
def pairValue (p : Char × Char) : Nat :=
  16 * (hexDigit p.1).getD 0 + (hexDigit p.2).getD 0

/-- Both characters of a pair are hexadecimal digits. -/
def isHexPair (p : Char × Char) : Prop :=
  (hexDigit p.1).isSome = true ∧ (hexDigit p.2).isSome = true

instance (p : Char × Char) : Decidable (isHexPair p) := by
  unfold isHexPair
  infer_instance

/-- The text of a listing: every line followed by a newline. -/
def listingText : List (List Char) → List Char
  | [] => []
  | l :: ls => l ++ '\n' :: listingText ls

/-- A line cut off at its first `|`. -/
def cutComment (line : List Char) : List Char := line.takeWhile (fun c => c ≠ '|')

/-- The value of a run of hexadecimal digits, most significant first. -/
def hexValue (ds : List Char) : Nat :=
  ds.foldl (fun acc c => 16 * acc + (hexDigit c).getD 0) 0

/-- The listing line
`<blanks><pfx><digits><blanks>:<blanks><pairs><blanks><tail>`: `pfx` is the
optional `0x` in front of the address digits, `tail` the optional `|` with the
comment after it. -/
def listingLine (sp0 pfx ds spA sp1 : List Char) (pairs : List (Char × Char))
    (sp2 tail : List Char) : List Char :=
  (sp0 ++ ((pfx ++ ds) ++ spA)) ++ ':' :: ((sp1 ++ (pairText pairs ++ sp2)) ++ tail)

/-- The bytes a line asks to write all go below the capacity. -/
def lineFits (line : List Char) : Prop :=
  match lineTarget line with
  | none => True
  | some (b, bs) => bs.length ≤ 8192 - b

instance (line : List Char) : Decidable (lineFits line) := by
  unfold lineFits
  cases lineTarget line with
  | none => exact isTrue trivial
  | some p => exact inferInstanceAs (Decidable (p.2.length ≤ 8192 - p.1))

/-- A line asks for no write at an address in `[a, a + n)`. -/
def lineClearOf (a n : Nat) (line : List Char) : Prop :=
  match lineTarget line with
  | none => True
  | some (b, bs) => bs.length = 0 ∨ b + bs.length ≤ a ∨ a + n ≤ b

instance (a n : Nat) (line : List Char) : Decidable (lineClearOf a n line) := by
  unfold lineClearOf
  cases lineTarget line with
  | none => exact isTrue trivial
  | some p =>
    exact inferInstanceAs (Decidable (p.2.length = 0 ∨ p.1 + p.2.length ≤ a ∨ a + n ≤ p.1))

/-- The listing with every line cut off at its first `|`. -/
def cutListing (content : List Char) : List Char :=
  listingText ((getlines content).map cutComment)

/-! ## Concrete machines used to evaluate the code -/

/-- The memory that is zero except for `bytes`, stored from address `base` on
(what `Memory::reset` followed by `writeByte` calls produces). -/
def Memory.ofBytes (base : Nat) (bytes : List Nat) : Memory :=
  ⟨fun a => if base ≤ a then bytes.getD (a - base) 0 else 0⟩

/-- The register file whose first slots hold `vals`, the others zero. -/
def Register.ofList (vals : List Nat) : Register :=
  ⟨fun i => vals.getD i 0⟩

/-- The machine as `CPU::CPU` and `CPU::reset` leave it (the default member
initialisers of `cpu.h`; the uninitialised `ifunc` is taken as 0), over the
given memory, with the registers and the program counter then set directly,
as the self tests do. -/
def CPU.init (m : Memory) (r : Register) (pc : Nat) : CPU :=
  { mem := m, reg := r, cc := ⟨true, false, false⟩, PC := pc, stat := Stat.AOK,
    icode := ICode.NOP, ifunc := 0, rA := Reg.NONE, rB := Reg.NONE,
    valA := 0, valB := 0, valC := 0, valE := 0, valM := 0, valP := 0, Cnd := false }

/-- A halted machine: `halt` at address 0 has been executed. -/
def haltedCPU : CPU := step (CPU.init (Memory.ofBytes 0 [0x00]) (Register.ofList [1, 2, 3]) 0)

/-- Program `irmovq $5,%rbx ; jmp 0x1FFE` at address 0 and `addq %rbx,%rbx` in
the last two bytes of memory (addresses 0x1FFE, 0x1FFF). -/
def fallOffProgram : Memory :=
  ⟨fun a => if 0x1FFE ≤ a then [0x60, 0x33].getD (a - 0x1FFE) 0
            else [0x30, 0xF3, 5, 0, 0, 0, 0, 0, 0, 0,
                  0x70, 0xFE, 0x1F, 0, 0, 0, 0, 0, 0].getD a 0⟩

/-- The machine after reset with `fallOffProgram` loaded. -/
def fallOffCPU : CPU := CPU.init fallOffProgram (Register.ofList []) 0

/-- `rmmovq %rax, 0x2000(%rbx)` at address 0, all registers zero: the store
address is `0x2000`, beyond the last valid word address `0x1FF8`. -/
def storeOutCPU : CPU :=
  CPU.init (Memory.ofBytes 0 [0x40, 0x03, 0x00, 0x20, 0, 0, 0, 0, 0, 0]) (Register.ofList []) 0

/-- `pushq %rax` at address 0 with `%rsp = 0`: the push address is `2^64 - 8`. -/
def pushOutCPU : CPU :=
  CPU.init (Memory.ofBytes 0 [0xA0, 0x0F]) (Register.ofList []) 0

/-- `mrmovq 0x2000(%rbx), %rax` at address 0 with `%rax = 7`, `%rbx = 0`. -/
def loadOutCPU : CPU :=
  CPU.init (Memory.ofBytes 0 [0x50, 0x03, 0x00, 0x20, 0, 0, 0, 0, 0, 0]) (Register.ofList [7]) 0

/-- `addq %rax,%rcx` at address 0 with `%rax = %rcx = INT64_MIN`. -/
def addMinMinCPU : CPU :=
  CPU.init (Memory.ofBytes 0 [0x60, 0x01]) (Register.ofList [2 ^ 63, 2 ^ 63]) 0

/-- `subq %rax,%rcx` at address 0 with `%rax = INT64_MIN`, `%rcx = 0`. -/
def subZeroMinCPU : CPU :=
  CPU.init (Memory.ofBytes 0 [0x61, 0x01]) (Register.ofList [2 ^ 63, 0]) 0

/-- `subq %rax,%rcx` at address 0 with `%rax = 3`, `%rcx = 10`. -/
def subCPU : CPU :=
  CPU.init (Memory.ofBytes 0 [0x61, 0x01]) (Register.ofList [3, 10]) 0

/-- `xorq %rdx,%rdx` at address 0 with `%rdx = 0xFF`, entered with all three
flags set. -/
def xorCPU : CPU :=
  { CPU.init (Memory.ofBytes 0 [0x63, 0x22]) (Register.ofList [0, 0, 0xFF]) 0 with
    cc := ⟨true, true, true⟩ }

/-- `andq %rax,%rcx` at address 0x10 with `%rax = 12`, `%rcx = 10`. -/
def andCPU : CPU :=
  CPU.init (Memory.ofBytes 0x10 [0x62, 0x01]) (Register.ofList [12, 10]) 0x10

/-- `cmovl %rax,%rcx` at address 0 with `%rax = 7`, `%rcx = 9`, entered with
the sign flag set and the other two clear. -/
def cmovlCPU : CPU :=
  { CPU.init (Memory.ofBytes 0 [0x22, 0x01]) (Register.ofList [7, 9]) 0 with
    cc := ⟨false, true, false⟩ }

/-- `jl 0x100` at address 0 (target bytes `00 01 00 ...`), entered with the
sign flag set and the other two clear. -/
def jlCPU : CPU :=
  { CPU.init (Memory.ofBytes 0 [0x72, 0x00, 0x01, 0, 0, 0, 0, 0, 0]) (Register.ofList []) 0 with
    cc := ⟨false, true, false⟩ }

/-- `irmovq $5,%rbx ; jmp 0x1FFE` at address 0, `addq %rax,%rbx ; jmp 0x2000`
at address 0x100, and `addq %rbx,%rbx` in the last two bytes of memory. -/
def twoPathProgram : Memory :=
  ⟨fun a => if 0x1FFE ≤ a then [0x60, 0x33].getD (a - 0x1FFE) 0
            else if 0x100 ≤ a then
              [0x60, 0x03, 0x70, 0x00, 0x20, 0, 0, 0, 0, 0, 0].getD (a - 0x100) 0
            else [0x30, 0xF3, 5, 0, 0, 0, 0, 0, 0, 0,
                  0x70, 0xFE, 0x1F, 0, 0, 0, 0, 0, 0].getD a 0⟩

/-- The machine that ran `twoPathProgram` from address 0 for three steps: it
has just executed `addq %rbx,%rbx` and stands at `PC = 0x2000`. -/
def afterAddCPU : CPU := stepN 3 (CPU.init twoPathProgram (Register.ofList []) 0)

/-- The machine that ran `twoPathProgram` from address 0x100 with `%rbx = 10`
for two steps: it has just executed `jmp 0x2000` and stands at `PC = 0x2000`. -/
def afterJmpCPU : CPU := stepN 2 (CPU.init twoPathProgram (Register.ofList [0, 0, 0, 10]) 0x100)

/-- `rmmovq %rax, 8(%rbx) ; mrmovq 8(%rbx), %rcx` at address 0 with
`%rax = 2^64 - 1` and `%rbx = 0x100`. -/
def storeLoadCPU : CPU :=
  CPU.init (Memory.ofBytes 0 [0x40, 0x03, 8, 0, 0, 0, 0, 0, 0, 0,
                              0x50, 0x13, 8, 0, 0, 0, 0, 0, 0, 0])
    (Register.ofList [2 ^ 64 - 1, 0, 0, 0x100]) 0

/-- `pushq %rax ; popq %rbx` at address 0 with `%rax = 0x123456789ABCDEF0` and
`%rsp = 0x300`. -/
def pushPopCPU : CPU :=
  CPU.init (Memory.ofBytes 0 [0xA0, 0x0F, 0xB0, 0x3F])
    (Register.ofList [0x123456789ABCDEF0, 0, 0, 0, 0x300]) 0

/-- `call 0x20` at address 0 and `ret` at address 0x20, with `%rsp = 0x200`
and `%rax = 7`. -/
def callRetCPU : CPU :=
  CPU.init (Memory.ofBytes 0 [0x80, 0x20, 0, 0, 0, 0, 0, 0, 0,
                              0, 0, 0, 0, 0, 0, 0, 0, 0, 0, 0, 0, 0, 0, 0,
                              0, 0, 0, 0, 0, 0, 0, 0, 0x90])
    (Register.ofList [7, 0, 0, 0, 0x200]) 0

/-- `ret` at address 0 with `%rsp = 0x10`, where the word `0x123456789A` (an
address beyond the memory) is stored. -/
def retCPU : CPU :=
  CPU.init (Memory.ofBytes 0 [0x90, 0, 0, 0, 0, 0, 0, 0, 0, 0, 0, 0, 0, 0, 0, 0,
                              0x9A, 0x78, 0x56, 0x34, 0x12, 0, 0, 0])
    (Register.ofList [7, 0, 0, 0, 0x10]) 0

/-- `popq %rax` at address 0 with `%rsp = 0x10`, where the word
`0xAABBCCDDEEFF0011` is stored, and `%rax = 0x1234`. -/
def popCPU : CPU :=
  CPU.init (Memory.ofBytes 0 [0xB0, 0x0F, 0, 0, 0, 0, 0, 0, 0, 0, 0, 0, 0, 0, 0, 0,
                              0x11, 0x00, 0xFF, 0xEE, 0xDD, 0xCC, 0xBB, 0xAA])
    (Register.ofList [0x1234, 0, 0, 0, 0x10]) 0

/-- `halt` (byte `0x00`) at address 0x40 of a running machine with registers
`1, 2, 3` and the flags as after reset. -/
def haltCPU : CPU :=
  CPU.init (Memory.ofBytes 0x40 [0x00]) (Register.ofList [1, 2, 3]) 0x40

/-- `nop` (byte `0x10`) at address 0 with `%rax = 5`. -/
def nopCPU : CPU :=
  CPU.init (Memory.ofBytes 0 [0x10]) (Register.ofList [5]) 0

/-- `rrmovq %rax,%rcx` at address 0 with `%rax = 7`, `%rcx = 9`. -/
def rrmovqCPU : CPU :=
  CPU.init (Memory.ofBytes 0 [0x20, 0x01]) (Register.ofList [7, 9]) 0

/-- `irmovq $0x1122334455667788,%rbx` at address 0. -/
def irmovqCPU : CPU :=
  CPU.init (Memory.ofBytes 0 [0x30, 0xF3, 0x88, 0x77, 0x66, 0x55, 0x44, 0x33, 0x22, 0x11])
    (Register.ofList []) 0

/-- A three-line listing: `halt` at 0, two bytes at 0x00a (the address written
without `0x`), one byte at 0x010. -/
def threeLineListing : List Char :=
  "0x000: 00 | halt\n00a: 30f4 | irmovq\n0X010: 11\n".toList

/-- A listing whose second line writes the address the first line wrote. -/
def overwriteListing : List Char := "0x000: 30 | a\n0x000: 40 | b\n".toList

/-- A listing whose second line writes at the capacity. -/
def laterFailListing : List Char := "0x000: 30 | a\n0x2000: 11 | b\n".toList

/-- A listing whose second line starts at the last address and holds two bytes. -/
def overflowListing : List Char :=
  "0x000: 30 | first\n0x1fff: 1122 | crosses\n".toList

/-- A payload of one pair, then the token `3g`, then the pair `11`. -/
def badTokenListing : List Char := "0x000: 303g11\n".toList

/-- A payload of one pair and a single trailing digit. -/
def oddTokenListing : List Char := "0x000: 30f\n".toList

/-- A line whose `|` comes before its first `:`. -/
def pipeFirstListing : List Char := "12 | a: 30\n".toList

/-- The move `0x27` (function code 7) from `%rax` to `%rcx` at address 0, with
`%rax = 7`, `%rcx = 9`. -/
def cmov7CPU : CPU :=
  CPU.init (Memory.ofBytes 0 [0x27, 0x01]) (Register.ofList [7, 9]) 0

/-- The branch `0x77` (function code 7) to `0x20` at address 0. -/
def jxx7CPU : CPU :=
  CPU.init (Memory.ofBytes 0 [0x77, 0x20, 0, 0, 0, 0, 0, 0, 0]) (Register.ofList []) 0

/-- The byte `0xC5` (instruction class 0xC) at address 0. -/
def classCCPU : CPU :=
  CPU.init (Memory.ofBytes 0 [0xC5]) (Register.ofList [5]) 0

/-- The arithmetic/logic byte `0x64` (function code 4) on `%rax`, `%rcx` at
address 0, with `%rax = 7`, `%rcx = 9`. -/
def opq4CPU : CPU :=
  CPU.init (Memory.ofBytes 0 [0x64, 0x01]) (Register.ofList [7, 9]) 0

/-- `pushq %rsp` at address 0 with `%rsp = 0x300`. -/
def pushRspCPU : CPU :=
  CPU.init (Memory.ofBytes 0 [0xA0, 0x4F]) (Register.ofList [0, 0, 0, 0, 0x300]) 0

/-- `popq %rsp` at address 0 with `%rsp = 0x10`, where the word `0x0123` is
stored. -/
def popRspCPU : CPU :=
  CPU.init (Memory.ofBytes 0 [0xB0, 0x4F, 0, 0, 0, 0, 0, 0, 0, 0, 0, 0, 0, 0, 0, 0,
                              0x23, 0x01, 0, 0, 0, 0, 0, 0])
    (Register.ofList [0, 0, 0, 0, 0x10]) 0

/-! ## What each stage leaves alone -/

theorem fetchValC_PC (s : CPU) : (fetchValC s).2.PC = s.PC := by
  simp only [fetchValC, setAddrError]
  split_ifs <;> rfl

theorem fetchValC_fail (s : CPU) (h : (fetchValC s).1 = false) :
    (fetchValC s).2.stat = Stat.ADR := by
  simp only [fetchValC, setAddrError] at h ⊢
  split_ifs at h ⊢
  rfl

theorem fetchRegs_PC (s : CPU) : (fetchRegs s).2.PC = s.PC := by
  simp only [fetchRegs, setAddrError]
  split_ifs <;> first | rfl | exact fetchValC_PC _

theorem fetchRegs_fail (s : CPU) (h : (fetchRegs s).1 = false) :
    (fetchRegs s).2.stat = Stat.ADR := by
  simp only [fetchRegs, setAddrError] at h ⊢
  split_ifs at h ⊢ <;> first | rfl | exact fetchValC_fail _ h

theorem fetch_PC (s : CPU) : (fetch s).2.PC = s.PC := by
  simp only [fetch, setAddrError]
  split_ifs <;> first | rfl | exact fetchRegs_PC _

theorem fetch_fail (s : CPU) (h : (fetch s).1 = false) : (fetch s).2.stat = Stat.ADR := by
  simp only [fetch, setAddrError] at h ⊢
  split_ifs at h ⊢ <;> first | rfl | exact fetchRegs_fail _ h

theorem decode_stat_PC (s : CPU) : (decode s).2.stat = s.stat ∧ (decode s).2.PC = s.PC :=
  ⟨rfl, rfl⟩

theorem execute_stat_PC (s : CPU) : (execute s).2.stat = s.stat ∧ (execute s).2.PC = s.PC := by
  simp only [execute, setCC]
  split_ifs <;> exact ⟨rfl, rfl⟩

theorem memory_stage_PC (s : CPU) : (memory_stage s).2.PC = s.PC := by
  simp only [memory_stage, setAddrError]
  split_ifs <;> rfl

theorem memory_stage_stat (s : CPU) :
    (memory_stage s).2.stat = s.stat ∨ (memory_stage s).2.stat = Stat.ADR := by
  simp only [memory_stage, setAddrError]
  split_ifs <;> first | exact Or.inl rfl | exact Or.inr rfl

theorem writeback_stat_PC (s : CPU) :
    (writeback s).2.stat = s.stat ∧ (writeback s).2.PC = s.PC := by
  simp only [writeback]
  split_ifs <;> exact ⟨rfl, rfl⟩

theorem updatePC_of_not_running (s : CPU) (h : s.stat ≠ Stat.AOK) : updatePC s = s := by
  unfold updatePC
  rw [if_pos h]

/-! ## Terminal states -/

theorem step_of_not_running (s : CPU) (h : s.stat ≠ Stat.AOK) : step s = s := by
  unfold step
  rw [if_neg h]

theorem stepN_of_not_running (n : Nat) (s : CPU) (h : s.stat ≠ Stat.AOK) :
    stepN n s = s := by
  induction n with
  | zero => rfl
  | succ k ih =>
    show stepN k (step s) = s
    rw [step_of_not_running s h]
    exact ih

/-- C1: in a state whose status is not running, any number of `step`
invocations leaves the program counter, the status, every register slot, the
three flags and every memory byte as they were. -/
theorem terminal_state_steps_change_nothing (s : CPU) (n : Nat) (h : s.stat ≠ Stat.AOK) :
    (stepN n s).PC = s.PC ∧ (stepN n s).stat = s.stat
      ∧ (∀ i, (stepN n s).reg.regs i = s.reg.regs i)
      ∧ (stepN n s).cc = s.cc
      ∧ (∀ a, (stepN n s).mem.data a = s.mem.data a) := by
  rw [stepN_of_not_running n s h]
  exact ⟨rfl, rfl, fun _ => rfl, rfl, fun _ => rfl⟩

theorem terminal_state_steps_change_nothing_witness :
    haltedCPU.stat = Stat.HLT
      ∧ ((stepN 3 haltedCPU).PC = haltedCPU.PC ∧ (stepN 3 haltedCPU).stat = haltedCPU.stat
        ∧ (∀ i, (stepN 3 haltedCPU).reg.regs i = haltedCPU.reg.regs i)
        ∧ (stepN 3 haltedCPU).cc = haltedCPU.cc
        ∧ (∀ a, (stepN 3 haltedCPU).mem.data a = haltedCPU.mem.data a)) :=
  ⟨by decide, terminal_state_steps_change_nothing haltedCPU 3 (by decide)⟩

/-! ## Out-of-bounds reads during fetch -/

/-- What does hold when fetch reads out of bounds: the status after the step is
address-error and the program counter is unchanged. -/
theorem fetch_error_sets_ADR_keeps_PC (s : CPU) (hrun : s.stat = Stat.AOK)
    (hfail : (fetch s).1 = false) :
    (step s).stat = Stat.ADR ∧ (step s).PC = s.PC := by
  have h1 := fetch_fail s hfail
  have h2 := fetch_PC s
  have hd := decode_stat_PC (fetch s).2
  have he := execute_stat_PC (decode (fetch s).2).2
  have hmP := memory_stage_PC (execute (decode (fetch s).2).2).2
  have hmS := memory_stage_stat (execute (decode (fetch s).2).2).2
  have hw := writeback_stat_PC (memory_stage (execute (decode (fetch s).2).2).2).2
  have hstat : (writeback (memory_stage (execute (decode (fetch s).2).2).2).2).2.stat
      = Stat.ADR := by
    rw [hw.1]
    rcases hmS with h | h
    · rw [h, he.1, hd.1, h1]
    · exact h
  have hnr : (writeback (memory_stage (execute (decode (fetch s).2).2).2).2).2.stat
      ≠ Stat.AOK := by rw [hstat]; decide
  unfold step
  rw [if_pos hrun, updatePC_of_not_running _ hnr]
  exact ⟨hstat, by rw [hw.2, hmP, he.2, hd.2, h2]⟩

/-- C2: evaluation of the code where fetch reads out of bounds.  After three
steps of `fallOffProgram` the machine is running with `PC = 0x2000` and
`%rbx = 10`; the fourth step fails its first fetch read and sets the status to
address-error, yet the later stages still run on the signals of the previous
`addq`: `%rbx` becomes 20. -/
theorem fetch_error_still_runs_later_stages :
    (stepN 3 fallOffCPU).stat = Stat.AOK
      ∧ (stepN 3 fallOffCPU).PC = 0x2000
      ∧ (stepN 3 fallOffCPU).reg.regs Reg.RBX = 10
      ∧ (fetch (stepN 3 fallOffCPU)).1 = false
      ∧ (step (stepN 3 fallOffCPU)).stat = Stat.ADR
      ∧ (step (stepN 3 fallOffCPU)).PC = 0x2000
      ∧ (step (stepN 3 fallOffCPU)).reg.regs Reg.RBX = 20 := by
  decide

/-! ## Out-of-bounds accesses in the memory stage -/

/-- What does hold when the memory stage fails on an instruction other than a
memory-store: the status after the step is address-error and the program
counter is unchanged. -/
theorem memory_error_sets_ADR_unless_store (s : CPU) (hrun : s.stat = Stat.AOK)
    (hic : (execute (decode (fetch s).2).2).2.icode ≠ ICode.RMMOVQ)
    (hfail : (memory_stage (execute (decode (fetch s).2).2).2).1 = false) :
    (step s).stat = Stat.ADR ∧ (step s).PC = s.PC := by
  have h2 := fetch_PC s
  have hd := decode_stat_PC (fetch s).2
  have he := execute_stat_PC (decode (fetch s).2).2
  have hmP := memory_stage_PC (execute (decode (fetch s).2).2).2
  have hw := writeback_stat_PC (memory_stage (execute (decode (fetch s).2).2).2).2
  have hmS : (memory_stage (execute (decode (fetch s).2).2).2).2.stat = Stat.ADR := by
    generalize (execute (decode (fetch s).2).2).2 = t at hic hfail
    simp only [memory_stage, setAddrError] at hfail ⊢
    split_ifs at hfail ⊢ <;> first | rfl | contradiction
  have hnr : (writeback (memory_stage (execute (decode (fetch s).2).2).2).2).2.stat
      ≠ Stat.AOK := by rw [hw.1, hmS]; decide
  unfold step
  rw [if_pos hrun, updatePC_of_not_running _ hnr]
  exact ⟨by rw [hw.1, hmS], by rw [hw.2, hmP, he.2, hd.2, h2]⟩

/-- C3: evaluation of the code on a memory-store whose address is out of
bounds: the instruction fetches, the store is rejected by the memory stage,
but the status stays running and the program counter moves on to the next
instruction. -/
theorem store_out_of_bounds_keeps_running :
    storeOutCPU.stat = Stat.AOK
      ∧ (fetch storeOutCPU).1 = true
      ∧ (fetch storeOutCPU).2.icode = ICode.RMMOVQ
      ∧ (execute (decode (fetch storeOutCPU).2).2).2.valE = 0x2000
      ∧ (memory_stage (execute (decode (fetch storeOutCPU).2).2).2).1 = false
      ∧ (step storeOutCPU).stat = Stat.AOK
      ∧ (step storeOutCPU).PC = 10 := by
  decide

/-- C4: evaluation of the code on memory-stage accesses that are out of
bounds, each on an instruction that fetches.  A rejected push still writes the
decremented stack pointer, a rejected load still overwrites its destination
register (with 0), and a rejected store still advances the program counter. -/
theorem memory_error_still_writes_back :
    ((fetch pushOutCPU).1 = true
        ∧ (memory_stage (execute (decode (fetch pushOutCPU).2).2).2).1 = false
        ∧ (step pushOutCPU).stat = Stat.ADR
        ∧ pushOutCPU.reg.regs Reg.RSP = 0
        ∧ (step pushOutCPU).reg.regs Reg.RSP = 2 ^ 64 - 8)
      ∧ ((fetch loadOutCPU).1 = true
        ∧ (memory_stage (execute (decode (fetch loadOutCPU).2).2).2).1 = false
        ∧ (step loadOutCPU).stat = Stat.ADR
        ∧ loadOutCPU.reg.regs Reg.RAX = 7
        ∧ (step loadOutCPU).reg.regs Reg.RAX = 0)
      ∧ ((fetch storeOutCPU).1 = true
        ∧ (memory_stage (execute (decode (fetch storeOutCPU).2).2).2).1 = false
        ∧ storeOutCPU.PC = 0
        ∧ (step storeOutCPU).PC = 10) := by
  decide

/-! ## Fetch of two-byte instructions -/

theorem nibbles (a b : Nat) (ha : a < 16) (hb : b < 16) :
    ((16 * a + b) >>> 4) &&& 0xF = a ∧ (16 * a + b) &&& 0xF = b := by
  have h15 : (0xF : Nat) = 2 ^ 4 - 1 := by norm_num
  rw [h15, Nat.and_pow_two_sub_one_eq_mod, Nat.and_pow_two_sub_one_eq_mod,
    Nat.shiftRight_eq_div_pow]
  omega

/-- Fetch of an instruction made of an opcode byte and a register byte, both
readable: the signals it leaves. -/
theorem fetch_two_byte (s : CPU) (ic fn ra rb : Nat)
    (hpc : s.PC + 1 < MAX_SIZE)
    (hop : s.mem.data s.PC = 16 * ic + fn) (hfn : fn < 16)
    (hic : ic = ICode.RRMOVQ ∨ ic = ICode.OPQ ∨ ic = ICode.PUSHQ ∨ ic = ICode.POPQ)
    (hreg : s.mem.data (s.PC + 1) = 16 * ra + rb) (hra : ra < 16) (hrb : rb < 16) :
    fetch s = (true, { s with icode := ic, ifunc := fn, rA := ra, rB := rb,
                              valP := s.PC + 2 }) := by
  have hic16 : ic < 16 := by rcases hic with h | h | h | h <;> subst h <;> decide
  obtain ⟨h1, h2⟩ := nibbles ic fn hic16 hfn
  obtain ⟨h3, h4⟩ := nibbles ra rb hra hrb
  have hm : MAX_SIZE = 8192 := rfl
  have hp0 : ¬ s.PC ≥ MAX_SIZE := by omega
  have hp1 : ¬ (s.PC + 1) % 2 ^ 64 ≥ MAX_SIZE := by omega
  have hp2 : ¬ MAX_SIZE ≤ s.PC + 1 := by omega
  have hv1 : (s.PC + 1) % 2 ^ 64 = s.PC + 1 := by omega
  have hv2 : (s.PC + 1 + 1) % 2 ^ 64 = s.PC + 2 := by omega
  have hnh : ic ≠ ICode.HALT := by rcases hic with h | h | h | h <;> subst h <;> decide
  have hnr : needReg ic = true := by rcases hic with h | h | h | h <;> subst h <;> decide
  have hnc : needValC ic = false := by rcases hic with h | h | h | h <;> subst h <;> decide
  simp only [fetch, Memory.readByte, if_neg hp0, hop, h1, h2, if_neg hnh, fetchRegs, hnr, hv1,
    if_neg hp1, hreg, h3, h4, fetchValC, hnc, hv2]
  simp [hp2, h3, h4]

/-! ## Register file and word arithmetic -/

theorem setReg_regs_self (r : Register) (id val : Nat) (hid : id ≠ Reg.NONE) :
    (r.setReg id val).regs id = val := by
  simp [Register.setReg, hid]

theorem getReg_eq_regs (r : Register) (id : Nat) (hid : id ≠ Reg.NONE) :
    r.getReg id = r.regs id := by
  simp [Register.getReg, hid]

theorem execALU_lt (a b fn : Nat) (ha : a < 2 ^ 64) (hb : b < 2 ^ 64) :
    execALU a b fn < 2 ^ 64 := by
  unfold execALU
  split_ifs
  · exact Nat.mod_lt _ (by norm_num)
  · exact Nat.mod_lt _ (by norm_num)
  · exact Nat.and_lt_two_pow _ ha
  · exact Nat.xor_lt_two_pow hb ha
  · norm_num

theorem toInt64_eq_zero (w : Nat) (hw : w < 2 ^ 64) : toInt64 w = 0 ↔ w = 0 := by
  unfold toInt64
  split_ifs with h <;> constructor <;> intro h0 <;> omega

/-! ## Arithmetic/logic instructions -/

/-- One step on an arithmetic/logic instruction `0x6fn rA rB`: the registers,
the flags, the program counter, the status and the ALU result slot after it. -/
theorem step_opq (s : CPU) (fn ra rb : Nat) (hrun : s.stat = Stat.AOK)
    (hpc : s.PC + 1 < MAX_SIZE)
    (hop : s.mem.data s.PC = 0x60 + fn) (hfn : fn < 16)
    (hreg : s.mem.data (s.PC + 1) = 16 * ra + rb) (hra : ra < 16) (hrb : rb < 16) :
    (step s).reg = s.reg.setReg rb (execALU (s.reg.getReg ra) (s.reg.getReg rb) fn)
      ∧ (step s).valE = execALU (s.reg.getReg ra) (s.reg.getReg rb) fn
      ∧ (step s).cc = (setCC { s with valE := execALU (s.reg.getReg ra) (s.reg.getReg rb) fn }
          (s.reg.getReg ra) (s.reg.getReg rb) fn).cc
      ∧ (step s).PC = s.PC + 2 ∧ (step s).stat = Stat.AOK ∧ (step s).mem = s.mem := by
  have hf := fetch_two_byte s ICode.OPQ fn ra rb hpc hop hfn (by simp) hreg hra hrb
  simp [step, hrun, hf, decode, execute, setALU, setCC, memory_stage, writeback, updatePC,
    ICode.OPQ, ICode.HALT, ICode.NOP, ICode.RRMOVQ, ICode.IRMOVQ, ICode.RMMOVQ, ICode.MRMOVQ,
    ICode.JXX, ICode.CALL, ICode.RET, ICode.PUSHQ, ICode.POPQ]

/-- The overflow flag `CPU::setCC` computes for an addition: set exactly when
the signed sum is out of range, except for `INT64_MIN + INT64_MIN`. -/
theorem setCC_add_of (s : CPU) (a b : Nat) (ha : a < 2 ^ 64) (hb : b < 2 ^ 64) :
    (setCC { s with valE := execALU a b ALU.ADD } a b ALU.ADD).cc.of = true
      ↔ ((toInt64 b + toInt64 a < -2 ^ 63 ∨ 2 ^ 63 ≤ toInt64 b + toInt64 a)
          ∧ ¬ (a = 2 ^ 63 ∧ b = 2 ^ 63)) := by
  simp only [setCC, execALU, ALU.ADD, if_true, Bool.or_eq_true, Bool.and_eq_true,
    decide_eq_true_eq]
  unfold toInt64
  split_ifs <;> omega

/-- The overflow flag `CPU::setCC` computes for a subtraction `b - a`: set
exactly when the signed difference is out of range, except when `b = 0`. -/
theorem setCC_sub_of (s : CPU) (a b : Nat) (ha : a < 2 ^ 64) (hb : b < 2 ^ 64) :
    (setCC { s with valE := execALU a b ALU.SUB } a b ALU.SUB).cc.of = true
      ↔ ((toInt64 b - toInt64 a < -2 ^ 63 ∨ 2 ^ 63 ≤ toInt64 b - toInt64 a)
          ∧ b ≠ 0) := by
  simp only [setCC, execALU, ALU.ADD, ALU.SUB, show ¬ ((1 : Nat) = 0) by decide, if_false,
    if_true, Bool.or_eq_true, Bool.and_eq_true, decide_eq_true_eq]
  have e64 : (2 : Nat) ^ 64 = 18446744073709551616 := by norm_num
  rw [Nat.mod_eq_of_lt ha, e64]
  rw [e64] at ha hb
  have hk : 18446744073709551616 - a + a = 18446744073709551616 :=
    Nat.sub_add_cancel (Nat.le_of_lt ha)
  generalize 18446744073709551616 - a = k at hk ⊢
  unfold toInt64
  split_ifs <;> omega

/-- What does hold for the overflow flag of an addition `0x60 rA rB`: after the
step it is set exactly when the signed sum of the two operands is out of the
64-bit range, except when both operands are `INT64_MIN`. -/
theorem add_overflow_flag_unless_min_min (s : CPU) (ra rb : Nat) (hrun : s.stat = Stat.AOK)
    (hpc : s.PC + 1 < MAX_SIZE) (hop : s.mem.data s.PC = 0x60)
    (hreg : s.mem.data (s.PC + 1) = 16 * ra + rb) (hra : ra < 16) (hrb : rb < 16)
    (hA : s.reg.getReg ra < 2 ^ 64) (hB : s.reg.getReg rb < 2 ^ 64) :
    (step s).cc.of = true
      ↔ ((toInt64 (s.reg.getReg rb) + toInt64 (s.reg.getReg ra) < -2 ^ 63
            ∨ 2 ^ 63 ≤ toInt64 (s.reg.getReg rb) + toInt64 (s.reg.getReg ra))
          ∧ ¬ (s.reg.getReg ra = 2 ^ 63 ∧ s.reg.getReg rb = 2 ^ 63)) := by
  obtain ⟨-, -, h3, -, -, -⟩ := step_opq s 0 ra rb hrun hpc hop (by decide) hreg hra hrb
  rw [h3]
  exact setCC_add_of s _ _ hA hB

/-- What does hold for the overflow flag of a subtraction `0x61 rA rB`: after
the step it is set exactly when the signed difference `B - A` is out of the
64-bit range, except when `B = 0`. -/
theorem sub_overflow_flag_unless_zero (s : CPU) (ra rb : Nat) (hrun : s.stat = Stat.AOK)
    (hpc : s.PC + 1 < MAX_SIZE) (hop : s.mem.data s.PC = 0x61)
    (hreg : s.mem.data (s.PC + 1) = 16 * ra + rb) (hra : ra < 16) (hrb : rb < 16)
    (hA : s.reg.getReg ra < 2 ^ 64) (hB : s.reg.getReg rb < 2 ^ 64) :
    (step s).cc.of = true
      ↔ ((toInt64 (s.reg.getReg rb) - toInt64 (s.reg.getReg ra) < -2 ^ 63
            ∨ 2 ^ 63 ≤ toInt64 (s.reg.getReg rb) - toInt64 (s.reg.getReg ra))
          ∧ s.reg.getReg rb ≠ 0) := by
  obtain ⟨-, -, h3, -, -, -⟩ := step_opq s 1 ra rb hrun hpc hop (by decide) hreg hra hrb
  rw [h3]
  exact setCC_sub_of s _ _ hA hB

/-- C5: evaluation of the code on `INT64_MIN + INT64_MIN`: both operands are
negative, the wrapped result is 0 (sign bit clear) and the mathematical sum
`-2^64` is outside the signed range, yet the overflow flag is false. -/
theorem add_overflow_flag_missed :
    addMinMinCPU.reg.getReg 0 = 2 ^ 63 ∧ addMinMinCPU.reg.getReg 1 = 2 ^ 63
      ∧ toInt64 (2 ^ 63) + toInt64 (2 ^ 63) < -2 ^ 63
      ∧ (step addMinMinCPU).reg.regs 1 = 0
      ∧ (step addMinMinCPU).cc.of = false := by
  decide

/-- C6: evaluation of the code on `0 - INT64_MIN`: the operands have different
sign bits, the wrapped result `INT64_MIN` has a sign bit different from the
second operand's, and the mathematical difference `2^63` is outside the signed
range, yet the overflow flag is false. -/
theorem sub_overflow_flag_missed :
    subZeroMinCPU.reg.getReg 0 = 2 ^ 63 ∧ subZeroMinCPU.reg.getReg 1 = 0
      ∧ toInt64 0 - toInt64 (2 ^ 63) > 2 ^ 63 - 1
      ∧ (step subZeroMinCPU).reg.regs 1 = 2 ^ 63
      ∧ (step subZeroMinCPU).cc.of = false := by
  decide

/-- C7: after a step on an arithmetic/logic instruction with function code
0..3, the zero flag equals (result == 0) and the sign flag equals (result < 0
as a signed 64-bit value), where result is the ALU result, a 64-bit value,
which is the value the destination register holds after the step. -/
theorem opq_zero_and_sign_flags (s : CPU) (fn ra rb : Nat) (hrun : s.stat = Stat.AOK)
    (hpc : s.PC + 1 < MAX_SIZE)
    (hop : s.mem.data s.PC = 0x60 + fn) (hfn : fn ≤ 3)
    (hreg : s.mem.data (s.PC + 1) = 16 * ra + rb) (hra : ra < 16) (hrb : rb < 16)
    (hA : s.reg.getReg ra < 2 ^ 64) (hB : s.reg.getReg rb < 2 ^ 64) :
    (rb ≠ Reg.NONE → (step s).reg.regs rb = (step s).valE)
      ∧ (step s).valE < 2 ^ 64
      ∧ (step s).cc.zf = decide ((step s).valE = 0)
      ∧ (step s).cc.sf = decide (toInt64 (step s).valE < 0) := by
  obtain ⟨h1, h2, h3, -, -, -⟩ := step_opq s fn ra rb hrun hpc hop (by omega) hreg hra hrb
  have hlt := execALU_lt (s.reg.getReg ra) (s.reg.getReg rb) fn hA hB
  refine ⟨fun hne => ?_, ?_, ?_, ?_⟩
  · rw [h1, h2, setReg_regs_self _ _ _ hne]
  · rw [h2]; exact hlt
  · rw [h3, h2]
    simp only [setCC]
    exact decide_eq_decide.mpr (toInt64_eq_zero _ hlt)
  · rw [h3, h2]
    simp only [setCC]

theorem opq_zero_and_sign_flags_witness :
    (Reg.RCX ≠ Reg.NONE → (step andCPU).reg.regs Reg.RCX = (step andCPU).valE)
      ∧ (step andCPU).valE < 2 ^ 64
      ∧ (step andCPU).cc.zf = decide ((step andCPU).valE = 0)
      ∧ (step andCPU).cc.sf = decide (toInt64 (step andCPU).valE < 0) :=
  opq_zero_and_sign_flags andCPU 2 0 1 (by decide) (by decide) (by decide) (by decide)
    (by decide) (by decide) (by decide) (by decide) (by decide)

/-- C8: after a step on an arithmetic/logic instruction `0x6fn rA rB` with
`fn` in 0..3 and both register ids in 0..14, register `rB` holds `B + A`,
`B - A`, `B AND A`, `B XOR A` (for `fn` = 0, 1, 2, 3) computed modulo `2^64`
from the prior values `A` of `rA` and `B` of `rB`; the program counter has
advanced by 2 and the status is still running. -/
theorem opq_result_written_to_rB (s : CPU) (fn ra rb : Nat) (hrun : s.stat = Stat.AOK)
    (hpc : s.PC + 1 < MAX_SIZE)
    (hop : s.mem.data s.PC = 0x60 + fn) (hfn : fn ≤ 3)
    (hreg : s.mem.data (s.PC + 1) = 16 * ra + rb) (hra : ra ≤ 14) (hrb : rb ≤ 14) :
    (fn = 0 → (step s).reg.regs rb = (s.reg.regs rb + s.reg.regs ra) % 2 ^ 64)
      ∧ (fn = 1 → ((step s).reg.regs rb : Int)
            = ((s.reg.regs rb : Int) - (s.reg.regs ra : Int)) % 2 ^ 64)
      ∧ (fn = 2 → (step s).reg.regs rb = s.reg.regs rb &&& s.reg.regs ra)
      ∧ (fn = 3 → (step s).reg.regs rb = s.reg.regs rb ^^^ s.reg.regs ra)
      ∧ (step s).PC = s.PC + 2 ∧ (step s).stat = Stat.AOK := by
  have hra15 : ra ≠ Reg.NONE := by unfold Reg.NONE; omega
  have hrb15 : rb ≠ Reg.NONE := by unfold Reg.NONE; omega
  obtain ⟨h1, -, -, h4, h5, -⟩ :=
    step_opq s fn ra rb hrun hpc hop (by omega) hreg (by omega) (by omega)
  rw [h1, setReg_regs_self _ _ _ hrb15, getReg_eq_regs _ _ hra15, getReg_eq_regs _ _ hrb15]
  refine ⟨?_, ?_, ?_, ?_, h4, h5⟩
  · intro h; subst h; simp [execALU, ALU.ADD]
  · intro h; subst h
    simp only [execALU, ALU.ADD, ALU.SUB]
    norm_num
    omega
  · intro h; subst h; simp [execALU, ALU.ADD, ALU.SUB, ALU.AND]
  · intro h; subst h; simp [execALU, ALU.ADD, ALU.SUB, ALU.AND, ALU.XOR]

theorem opq_result_written_to_rB_witness :
    subCPU.reg.regs 0 = 3 ∧ subCPU.reg.regs 1 = 10
      ∧ (step subCPU).reg.regs 1 = 7 ∧ (step subCPU).PC = 2
      ∧ (step subCPU).stat = Stat.AOK :=
  have h := opq_result_written_to_rB subCPU 1 0 1 (by decide) (by decide) (by decide)
    (by decide) (by decide) (by decide) (by decide)
  ⟨by decide, by decide, by decide, h.2.2.2.2.1, h.2.2.2.2.2⟩

/-- C9: after a step on a bitwise AND (`0x62`) or XOR (`0x63`) instruction the
overflow flag is false, whatever the operands and the prior flags. -/
theorem and_xor_clear_overflow (s : CPU) (fn ra rb : Nat) (hrun : s.stat = Stat.AOK)
    (hpc : s.PC + 1 < MAX_SIZE)
    (hop : s.mem.data s.PC = 0x60 + fn) (hfn : fn = 2 ∨ fn = 3)
    (hreg : s.mem.data (s.PC + 1) = 16 * ra + rb) (hra : ra < 16) (hrb : rb < 16) :
    (step s).cc.of = false := by
  obtain ⟨-, -, h3, -, -, -⟩ :=
    step_opq s fn ra rb hrun hpc hop (by omega) hreg hra hrb
  rw [h3]
  rcases hfn with h | h <;> subst h <;> simp [setCC, ALU.ADD, ALU.SUB, ALU.AND, ALU.XOR]

theorem and_xor_clear_overflow_witness :
    xorCPU.cc.of = true ∧ (step xorCPU).cc.of = false :=
  ⟨by decide, and_xor_clear_overflow xorCPU 3 2 2 (by decide) (by decide) (by decide)
    (by decide) (by decide) (by decide) (by decide)⟩

/-! ## Conditional moves -/

/-- On function codes 0..6 `CPU::cond` computes the listed condition. -/
theorem cond_iff_condHolds (s : CPU) (hfn : s.ifunc ≤ 6) :
    cond s = true ↔ condHolds s.ifunc s.cc := by
  rcases hcc : s.cc with ⟨zf, sf, of⟩
  have h : s.ifunc = 0 ∨ s.ifunc = 1 ∨ s.ifunc = 2 ∨ s.ifunc = 3 ∨ s.ifunc = 4
      ∨ s.ifunc = 5 ∨ s.ifunc = 6 := by omega
  rcases h with h | h | h | h | h | h | h <;> simp [cond, condHolds, h, hcc]

/-- `CPU::cond` reads only the function code and the flags. -/
theorem cond_congr (s t : CPU) (h1 : t.ifunc = s.ifunc) (h2 : t.cc = s.cc) :
    cond t = cond s := by
  unfold cond
  rw [h1, h2]

/-- One step on a register move `0x2fn rA rB`. -/
theorem step_cmov (s : CPU) (fn ra rb : Nat) (hrun : s.stat = Stat.AOK)
    (hpc : s.PC + 1 < MAX_SIZE)
    (hop : s.mem.data s.PC = 0x20 + fn) (hfn : fn < 16)
    (hreg : s.mem.data (s.PC + 1) = 16 * ra + rb) (hra : ra < 16) (hrb : rb < 16) :
    (step s).reg = (if cond { s with ifunc := fn } then
          s.reg.setReg rb ((0 + s.reg.getReg ra) % 2 ^ 64) else s.reg)
      ∧ (step s).cc = s.cc
      ∧ (step s).PC = s.PC + 2 ∧ (step s).stat = Stat.AOK ∧ (step s).mem = s.mem := by
  have hf := fetch_two_byte s ICode.RRMOVQ fn ra rb hpc hop hfn (by simp) hreg hra hrb
  cases hc : cond { s with ifunc := fn }
  · have hc2 : ∀ t : CPU, t.ifunc = fn → t.cc = s.cc → cond t = false := by
      intro t h1 h2
      rw [cond_congr { s with ifunc := fn } t h1 h2, hc]
    simp [step, hrun, hf, decode, execute, setALU, memory_stage, writeback, updatePC,
      ICode.OPQ, ICode.HALT, ICode.NOP, ICode.RRMOVQ, ICode.IRMOVQ, ICode.RMMOVQ,
      ICode.MRMOVQ, ICode.JXX, ICode.CALL, ICode.RET, ICode.PUSHQ, ICode.POPQ, hc2]
  · have hc2 : ∀ t : CPU, t.ifunc = fn → t.cc = s.cc → cond t = true := by
      intro t h1 h2
      rw [cond_congr { s with ifunc := fn } t h1 h2, hc]
    simp [step, hrun, hf, decode, execute, setALU, memory_stage, writeback, updatePC,
      ICode.OPQ, ICode.HALT, ICode.NOP, ICode.RRMOVQ, ICode.IRMOVQ, ICode.RMMOVQ,
      ICode.MRMOVQ, ICode.JXX, ICode.CALL, ICode.RET, ICode.PUSHQ, ICode.POPQ, hc2,
      execALU, ALU.ADD]

/-- C10: after a step on a register move `0x2fn rA rB` with `fn` in
0..6 and both register ids in 0..14, `rB` holds the prior value of `rA` when
the condition of `fn` holds on the flags and its own prior value otherwise
(so, whenever the two values differ, `rB` holds the prior value of `rA` if and
only if the condition holds); in both cases the program counter has advanced
by 2. -/
theorem cmov_moves_iff_condition (s : CPU) (fn ra rb : Nat) (hrun : s.stat = Stat.AOK)
    (hpc : s.PC + 1 < MAX_SIZE)
    (hop : s.mem.data s.PC = 0x20 + fn) (hfn : fn ≤ 6)
    (hreg : s.mem.data (s.PC + 1) = 16 * ra + rb) (hra : ra ≤ 14) (hrb : rb ≤ 14)
    (hA : s.reg.regs ra < 2 ^ 64) :
    (condHolds fn s.cc → (step s).reg.regs rb = s.reg.regs ra)
      ∧ (¬ condHolds fn s.cc → (step s).reg.regs rb = s.reg.regs rb)
      ∧ (s.reg.regs ra ≠ s.reg.regs rb →
          ((step s).reg.regs rb = s.reg.regs ra ↔ condHolds fn s.cc))
      ∧ (step s).PC = s.PC + 2 := by
  have hra15 : ra ≠ Reg.NONE := by unfold Reg.NONE; omega
  have hrb15 : rb ≠ Reg.NONE := by unfold Reg.NONE; omega
  obtain ⟨h1, -, h3, -, -⟩ :=
    step_cmov s fn ra rb hrun hpc hop (by omega) hreg (by omega) (by omega)
  have hiff := cond_iff_condHolds { s with ifunc := fn } hfn
  have hval : (0 + s.reg.getReg ra) % 2 ^ 64 = s.reg.regs ra := by
    rw [getReg_eq_regs _ _ hra15, Nat.zero_add, Nat.mod_eq_of_lt hA]
  have hyes : condHolds fn s.cc → (step s).reg.regs rb = s.reg.regs ra := by
    intro hc
    rw [h1, if_pos (hiff.mpr hc), setReg_regs_self _ _ _ hrb15, hval]
  have hno : ¬ condHolds fn s.cc → (step s).reg.regs rb = s.reg.regs rb := by
    intro hc
    rw [h1, if_neg (fun h => hc (hiff.mp h))]
  refine ⟨hyes, hno, fun hne => ⟨fun h => ?_, hyes⟩, h3⟩
  by_contra hc
  exact hne (h.symm.trans (hno hc))

theorem cmov_moves_iff_condition_witness :
    condHolds 2 cmovlCPU.cc ∧ cmovlCPU.reg.regs 1 = 9
      ∧ (step cmovlCPU).reg.regs 1 = cmovlCPU.reg.regs 0
      ∧ (step cmovlCPU).PC = cmovlCPU.PC + 2 :=
  have h := cmov_moves_iff_condition cmovlCPU 2 0 1 (by decide) (by decide) (by decide)
    (by decide) (by decide) (by decide) (by decide) (by decide)
  ⟨by decide, by decide, h.1 (by decide), h.2.2.2⟩

/-! ## Words in memory -/

theorem range_eight : List.range 8 = [0, 1, 2, 3, 4, 5, 6, 7] := rfl

theorem or_shifted_byte (acc d k : Nat) (hacc : acc < 2 ^ k) (hd : d < 256) (hk : k + 8 ≤ 64) :
    acc ||| (d <<< k) % 2 ^ 64 = acc + 2 ^ k * d ∧ acc + 2 ^ k * d < 2 ^ (k + 8) := by
  have h1 : d <<< k = 2 ^ k * d := by rw [Nat.shiftLeft_eq, Nat.mul_comm]
  have h2 : 2 ^ k * d < 2 ^ (k + 8) := by
    rw [Nat.pow_add]
    exact Nat.mul_lt_mul_of_pos_left hd (Nat.pow_pos (by norm_num))
  have h3 : 2 ^ (k + 8) ≤ 2 ^ 64 := Nat.pow_le_pow_right (by norm_num) hk
  have h4 : 2 ^ k * (d + 1) ≤ 2 ^ (k + 8) := by
    rw [Nat.pow_add]
    exact Nat.mul_le_mul_left _ hd
  constructor
  · rw [h1, Nat.mod_eq_of_lt (lt_of_lt_of_le h2 h3), Nat.or_comm, ← Nat.mul_add_lt_is_or hacc d,
      Nat.add_comm]
  · have : 2 ^ k * (d + 1) = 2 ^ k * d + 2 ^ k := by ring
    omega

/-- A word read in bounds is the little-endian value of the 8 bytes read. -/
theorem readWord_eq_leWord (m : Memory) (addr : Nat) (h : addr ≤ 8184)
    (hb : m.bytesAt addr) :
    m.readWord addr = (m.leWord addr, false) := by
  have hm : ¬ addr > MAX_SIZE - 8 := by unfold MAX_SIZE; omega
  have b0 := hb 0 (by norm_num)
  have b1 := hb 1 (by norm_num)
  have b2 := hb 2 (by norm_num)
  have b3 := hb 3 (by norm_num)
  have b4 := hb 4 (by norm_num)
  have b5 := hb 5 (by norm_num)
  have b6 := hb 6 (by norm_num)
  have b7 := hb 7 (by norm_num)
  obtain ⟨e0, l0⟩ := or_shifted_byte 0 _ 0 (by norm_num) b0 (by norm_num)
  obtain ⟨e1, l1⟩ := or_shifted_byte _ _ 8 l0 b1 (by norm_num)
  obtain ⟨e2, l2⟩ := or_shifted_byte _ _ 16 l1 b2 (by norm_num)
  obtain ⟨e3, l3⟩ := or_shifted_byte _ _ 24 l2 b3 (by norm_num)
  obtain ⟨e4, l4⟩ := or_shifted_byte _ _ 32 l3 b4 (by norm_num)
  obtain ⟨e5, l5⟩ := or_shifted_byte _ _ 40 l4 b5 (by norm_num)
  obtain ⟨e6, l6⟩ := or_shifted_byte _ _ 48 l5 b6 (by norm_num)
  obtain ⟨e7, -⟩ := or_shifted_byte _ _ 56 l6 b7 (by norm_num)
  simp only [Memory.readWord, if_neg hm, range_eight, Memory.readLoop, Memory.leWord]
  simp only [Nat.mul_zero, Nat.mul_one, Nat.reduceMul] at *
  rw [e0, e1, e2, e3, e4, e5, e6, e7]
  simp

/-- A word read at an address of at most 8184 reports no error. -/
theorem readWord_ok (m : Memory) (addr : Nat) (h : addr ≤ 8184) : (m.readWord addr).2 = false := by
  have hm : ¬ addr > MAX_SIZE - 8 := by unfold MAX_SIZE; omega
  simp only [Memory.readWord, if_neg hm]

/-- A word read depends only on the 8 bytes it reads. -/
theorem readWord_congr (m n : Memory) (addr : Nat)
    (h : ∀ i, i < 8 → n.data (addr + i) = m.data (addr + i)) :
    n.readWord addr = m.readWord addr := by
  simp only [Memory.readWord, range_eight, Memory.readLoop, h 0 (by norm_num),
    h 1 (by norm_num), h 2 (by norm_num), h 3 (by norm_num), h 4 (by norm_num),
    h 5 (by norm_num), h 6 (by norm_num), h 7 (by norm_num)]

theorem writeLoop_data (m : Memory) (addr val a : Nat) :
    (m.writeLoop addr val (List.range 8)).data a
      = if addr ≤ a ∧ a < addr + 8 then (val >>> (8 * (a - addr))) &&& 0xFF else m.data a := by
  simp only [range_eight, Memory.writeLoop, Memory.store]
  by_cases h : addr ≤ a ∧ a < addr + 8
  · rw [if_pos h]
    have hc : a = addr + 0 ∨ a = addr + 1 ∨ a = addr + 2 ∨ a = addr + 3 ∨ a = addr + 4
        ∨ a = addr + 5 ∨ a = addr + 6 ∨ a = addr + 7 := by omega
    rcases hc with hc | hc | hc | hc | hc | hc | hc | hc <;> subst hc <;> simp
  · rw [if_neg h]
    have h0 : ¬ a = addr + 0 := by omega
    have h1 : ¬ a = addr + 1 := by omega
    have h2 : ¬ a = addr + 2 := by omega
    have h3 : ¬ a = addr + 3 := by omega
    have h4 : ¬ a = addr + 4 := by omega
    have h5 : ¬ a = addr + 5 := by omega
    have h6 : ¬ a = addr + 6 := by omega
    have h7 : ¬ a = addr + 7 := by omega
    simp only [if_neg h0, if_neg h1, if_neg h2, if_neg h3, if_neg h4, if_neg h5, if_neg h6,
      if_neg h7]

theorem byte_of_word (val k : Nat) : (val >>> k) &&& 0xFF = val / 2 ^ k % 256 := by
  have h : (0xFF : Nat) = 2 ^ 8 - 1 := by norm_num
  rw [h, Nat.and_pow_two_sub_one_eq_mod, Nat.shiftRight_eq_div_pow]

/-- A word write in bounds succeeds and stores byte `i` of the value at
`addr + i`, leaving every other address alone. -/
theorem writeWord_data (m : Memory) (addr val a : Nat) (h : addr ≤ 8184) :
    (m.writeWord addr val).1 = false
      ∧ (m.writeWord addr val).2.data a
        = if addr ≤ a ∧ a < addr + 8 then val / 2 ^ (8 * (a - addr)) % 256 else m.data a := by
  have hm : ¬ addr > MAX_SIZE - 8 := by unfold MAX_SIZE; omega
  simp only [Memory.writeWord, if_neg hm, writeLoop_data, byte_of_word, true_and]

theorem writeWord_data_outside (m : Memory) (addr val a : Nat) (h : addr ≤ 8184)
    (ha : a < addr ∨ addr + 8 ≤ a) : (m.writeWord addr val).2.data a = m.data a := by
  rw [(writeWord_data m addr val a h).2, if_neg (by omega)]

theorem writeWord_leWord (m : Memory) (addr val : Nat) (h : addr ≤ 8184) (hv : val < 2 ^ 64) :
    (m.writeWord addr val).2.leWord addr = val := by
  have hd := fun a => (writeWord_data m addr val a h).2
  simp only [Memory.leWord, hd]
  simp
  omega

theorem writeWord_bytes (m : Memory) (addr val : Nat) (h : addr ≤ 8184) :
    (m.writeWord addr val).2.bytesAt addr := by
  intro i hi
  rw [(writeWord_data m addr val _ h).2, if_pos (by omega)]
  exact Nat.mod_lt _ (by norm_num)

theorem readWord_writeWord (m : Memory) (addr val : Nat) (h : addr ≤ 8184) (hv : val < 2 ^ 64) :
    (m.writeWord addr val).2.readWord addr = (val, false) := by
  rw [readWord_eq_leWord _ addr h (writeWord_bytes m addr val h), writeWord_leWord m addr val h hv]

theorem leWord_lt (m : Memory) (addr : Nat) (hb : m.bytesAt addr) : m.leWord addr < 2 ^ 64 := by
  have b0 := hb 0 (by norm_num)
  have b1 := hb 1 (by norm_num)
  have b2 := hb 2 (by norm_num)
  have b3 := hb 3 (by norm_num)
  have b4 := hb 4 (by norm_num)
  have b5 := hb 5 (by norm_num)
  have b6 := hb 6 (by norm_num)
  have b7 := hb 7 (by norm_num)
  simp only [Memory.leWord, Nat.add_zero] at *
  omega

/-! ## Fetch of the other instruction formats -/

/-- Fetch of a one-byte instruction (no register byte, no constant). -/
theorem fetch_one_byte (s : CPU) (ic fn : Nat)
    (hpc : s.PC < MAX_SIZE)
    (hop : s.mem.data s.PC = 16 * ic + fn) (hfn : fn < 16)
    (hic : ic = ICode.NOP ∨ ic = ICode.RET) :
    fetch s = (true, { s with icode := ic, ifunc := fn, rA := Reg.NONE, rB := Reg.NONE,
                              valP := s.PC + 1 }) := by
  have hic16 : ic < 16 := by rcases hic with h | h <;> subst h <;> decide
  obtain ⟨h1, h2⟩ := nibbles ic fn hic16 hfn
  have hm : MAX_SIZE = 8192 := rfl
  have hp0 : ¬ s.PC ≥ MAX_SIZE := by omega
  have hv1 : (s.PC + 1) % 2 ^ 64 = s.PC + 1 := by omega
  have hnh : ic ≠ ICode.HALT := by rcases hic with h | h <;> subst h <;> decide
  have hnr : needReg ic = false := by rcases hic with h | h <;> subst h <;> decide
  have hnc : needValC ic = false := by rcases hic with h | h <;> subst h <;> decide
  simp only [fetch, Memory.readByte, if_neg hp0, hop, h1, h2, if_neg hnh, fetchRegs, hnr, hv1,
    fetchValC, hnc]
  simp

/-- Fetch of a branch or call: an opcode byte and an 8-byte target, all
readable. -/
theorem fetch_target (s : CPU) (ic fn : Nat)
    (hpc : s.PC + 8 < MAX_SIZE)
    (hop : s.mem.data s.PC = 16 * ic + fn) (hfn : fn < 16)
    (hic : ic = ICode.JXX ∨ ic = ICode.CALL) :
    fetch s = (true, { s with icode := ic, ifunc := fn, rA := Reg.NONE, rB := Reg.NONE,
                              valC := (s.mem.readWord (s.PC + 1)).1, valP := s.PC + 9 }) := by
  have hic16 : ic < 16 := by rcases hic with h | h <;> subst h <;> decide
  obtain ⟨h1, h2⟩ := nibbles ic fn hic16 hfn
  have hm : MAX_SIZE = 8192 := rfl
  have hp0 : ¬ s.PC ≥ MAX_SIZE := by omega
  have hv1 : (s.PC + 1) % 2 ^ 64 = s.PC + 1 := by omega
  have hv2 : (s.PC + 1 + 8) % 2 ^ 64 = s.PC + 9 := by omega
  have hnh : ic ≠ ICode.HALT := by rcases hic with h | h <;> subst h <;> decide
  have hnr : needReg ic = false := by rcases hic with h | h <;> subst h <;> decide
  have hnc : needValC ic = true := by rcases hic with h | h <;> subst h <;> decide
  have hrw : (s.mem.readWord (s.PC + 1)).2 = false := readWord_ok _ _ (by omega)
  simp only [fetch, Memory.readByte, if_neg hp0, hop, h1, h2, if_neg hnh, fetchRegs, hnr, hv1,
    fetchValC, hnc, hrw, hv2]
  simp

/-- Fetch of an instruction made of an opcode byte, a register byte and an
8-byte constant, all readable. -/
theorem fetch_ten_byte (s : CPU) (ic fn ra rb : Nat)
    (hpc : s.PC + 9 < MAX_SIZE)
    (hop : s.mem.data s.PC = 16 * ic + fn) (hfn : fn < 16)
    (hic : ic = ICode.IRMOVQ ∨ ic = ICode.RMMOVQ ∨ ic = ICode.MRMOVQ)
    (hreg : s.mem.data (s.PC + 1) = 16 * ra + rb) (hra : ra < 16) (hrb : rb < 16) :
    fetch s = (true, { s with icode := ic, ifunc := fn, rA := ra, rB := rb,
                              valC := (s.mem.readWord (s.PC + 2)).1, valP := s.PC + 10 }) := by
  have hic16 : ic < 16 := by rcases hic with h | h | h <;> subst h <;> decide
  obtain ⟨h1, h2⟩ := nibbles ic fn hic16 hfn
  obtain ⟨h3, h4⟩ := nibbles ra rb hra hrb
  have hm : MAX_SIZE = 8192 := rfl
  have hp0 : ¬ s.PC ≥ MAX_SIZE := by omega
  have hp1 : ¬ (s.PC + 1) % 2 ^ 64 ≥ MAX_SIZE := by omega
  have hp2 : ¬ MAX_SIZE ≤ s.PC + 1 := by omega
  have hv1 : (s.PC + 1) % 2 ^ 64 = s.PC + 1 := by omega
  have hv2 : (s.PC + 1 + 1) % 2 ^ 64 = s.PC + 2 := by omega
  have hv3 : (s.PC + 2 + 8) % 2 ^ 64 = s.PC + 10 := by omega
  have hnh : ic ≠ ICode.HALT := by rcases hic with h | h | h <;> subst h <;> decide
  have hnr : needReg ic = true := by rcases hic with h | h | h <;> subst h <;> decide
  have hnc : needValC ic = true := by rcases hic with h | h | h <;> subst h <;> decide
  have hrw : (s.mem.readWord (s.PC + 2)).2 = false := readWord_ok _ _ (by omega)
  simp only [fetch, Memory.readByte, if_neg hp0, hop, h1, h2, if_neg hnh, fetchRegs, hnr, hv1,
    if_neg hp1, hreg, h3, h4, fetchValC, hnc, hv2, hrw, hv3]
  simp [hp2, h3, h4, hrw, hv3]

/-! ## One step on branch, call, return, push and pop -/

/-- One step on a branch `0x7fn` with a readable target. -/
theorem step_jxx (s : CPU) (fn : Nat) (hrun : s.stat = Stat.AOK)
    (hpc : s.PC + 8 < MAX_SIZE)
    (hop : s.mem.data s.PC = 0x70 + fn) (hfn : fn < 16) :
    (step s).PC = (if cond { s with ifunc := fn } then (s.mem.readWord (s.PC + 1)).1
          else s.PC + 9)
      ∧ (step s).reg = s.reg ∧ (step s).cc = s.cc
      ∧ (step s).stat = Stat.AOK ∧ (step s).mem = s.mem := by
  have hf := fetch_target s ICode.JXX fn hpc hop hfn (by simp)
  cases hc : cond { s with ifunc := fn }
  · have hc2 : ∀ t : CPU, t.ifunc = fn → t.cc = s.cc → cond t = false := by
      intro t h1 h2
      rw [cond_congr { s with ifunc := fn } t h1 h2, hc]
    simp [step, hrun, hf, decode, execute, setALU, memory_stage, writeback, updatePC,
      ICode.OPQ, ICode.HALT, ICode.NOP, ICode.RRMOVQ, ICode.IRMOVQ, ICode.RMMOVQ,
      ICode.MRMOVQ, ICode.JXX, ICode.CALL, ICode.RET, ICode.PUSHQ, ICode.POPQ, hc2]
  · have hc2 : ∀ t : CPU, t.ifunc = fn → t.cc = s.cc → cond t = true := by
      intro t h1 h2
      rw [cond_congr { s with ifunc := fn } t h1 h2, hc]
    simp [step, hrun, hf, decode, execute, setALU, memory_stage, writeback, updatePC,
      ICode.OPQ, ICode.HALT, ICode.NOP, ICode.RRMOVQ, ICode.IRMOVQ, ICode.RMMOVQ,
      ICode.MRMOVQ, ICode.JXX, ICode.CALL, ICode.RET, ICode.PUSHQ, ICode.POPQ, hc2]

theorem sp_minus_eight (sp : Nat) (h8 : 8 ≤ sp) (hs : sp ≤ 8192) :
    execALU 18446744073709551608 sp ALU.ADD = sp - 8 := by
  simp only [execALU, if_true]
  omega

theorem sp_plus_eight (sp : Nat) (hs : sp ≤ 8184) :
    execALU 8 sp ALU.ADD = sp + 8 := by
  simp only [execALU, if_true]
  omega

/-- One step on a call `0x8fn` with a readable target and a stack pointer in
`8..8192`. -/
theorem step_call (s : CPU) (fn : Nat) (hrun : s.stat = Stat.AOK)
    (hpc : s.PC + 8 < MAX_SIZE)
    (hop : s.mem.data s.PC = 0x80 + fn) (hfn : fn < 16)
    (h8 : 8 ≤ s.reg.regs Reg.RSP) (hs : s.reg.regs Reg.RSP ≤ 8192) :
    (step s).PC = (s.mem.readWord (s.PC + 1)).1
      ∧ (step s).reg = s.reg.setReg Reg.RSP (s.reg.regs Reg.RSP - 8)
      ∧ (step s).mem = (s.mem.writeWord (s.reg.regs Reg.RSP - 8) (s.PC + 9)).2
      ∧ (step s).cc = s.cc ∧ (step s).stat = Stat.AOK := by
  have hf := fetch_target s ICode.CALL fn hpc hop hfn (by simp)
  have hE := sp_minus_eight _ h8 hs
  have hw : (s.mem.writeWord (s.reg.regs Reg.RSP - 8) (s.PC + 9)).1 = false :=
    (writeWord_data s.mem _ _ 0 (by omega)).1
  have hg : s.reg.getReg Reg.RSP = s.reg.regs Reg.RSP := getReg_eq_regs _ _ (by decide)
  simp [step, hrun, hf, decode, execute, setALU, memory_stage, writeback, updatePC,
      ICode.OPQ, ICode.HALT, ICode.NOP, ICode.RRMOVQ, ICode.IRMOVQ, ICode.RMMOVQ,
      ICode.MRMOVQ, ICode.JXX, ICode.CALL, ICode.RET, ICode.PUSHQ, ICode.POPQ,
      hg, hE, hw]

/-- One step on a return `0x9fn` with a stack pointer of at most 8184. -/
theorem step_ret (s : CPU) (fn : Nat) (hrun : s.stat = Stat.AOK)
    (hpc : s.PC < MAX_SIZE)
    (hop : s.mem.data s.PC = 0x90 + fn) (hfn : fn < 16)
    (hs : s.reg.regs Reg.RSP ≤ 8184) :
    (step s).PC = (s.mem.readWord (s.reg.regs Reg.RSP)).1
      ∧ (step s).reg = s.reg.setReg Reg.RSP (s.reg.regs Reg.RSP + 8)
      ∧ (step s).mem = s.mem
      ∧ (step s).cc = s.cc ∧ (step s).stat = Stat.AOK := by
  have hf := fetch_one_byte s ICode.RET fn hpc hop hfn (by simp)
  have hE := sp_plus_eight _ hs
  have hr : (s.mem.readWord (s.reg.regs Reg.RSP)).2 = false := readWord_ok _ _ hs
  have hg : s.reg.getReg Reg.RSP = s.reg.regs Reg.RSP := getReg_eq_regs _ _ (by decide)
  simp [step, hrun, hf, decode, execute, setALU, memory_stage, writeback, updatePC,
      ICode.OPQ, ICode.HALT, ICode.NOP, ICode.RRMOVQ, ICode.IRMOVQ, ICode.RMMOVQ,
      ICode.MRMOVQ, ICode.JXX, ICode.CALL, ICode.RET, ICode.PUSHQ, ICode.POPQ,
      hg, hE, hr]

/-- One step on a push `0xAfn rA rB` with a stack pointer in `8..8192`. -/
theorem step_push (s : CPU) (fn ra rb : Nat) (hrun : s.stat = Stat.AOK)
    (hpc : s.PC + 1 < MAX_SIZE)
    (hop : s.mem.data s.PC = 0xA0 + fn) (hfn : fn < 16)
    (hreg : s.mem.data (s.PC + 1) = 16 * ra + rb) (hra : ra < 16) (hrb : rb < 16)
    (h8 : 8 ≤ s.reg.regs Reg.RSP) (hs : s.reg.regs Reg.RSP ≤ 8192) :
    (step s).PC = s.PC + 2
      ∧ (step s).reg = s.reg.setReg Reg.RSP (s.reg.regs Reg.RSP - 8)
      ∧ (step s).mem = (s.mem.writeWord (s.reg.regs Reg.RSP - 8) (s.reg.getReg ra)).2
      ∧ (step s).cc = s.cc ∧ (step s).stat = Stat.AOK := by
  have hf := fetch_two_byte s ICode.PUSHQ fn ra rb hpc hop hfn (by simp) hreg hra hrb
  have hE := sp_minus_eight _ h8 hs
  have hw : (s.mem.writeWord (s.reg.regs Reg.RSP - 8) (s.reg.getReg ra)).1 = false :=
    (writeWord_data s.mem _ _ 0 (by omega)).1
  have hg : s.reg.getReg Reg.RSP = s.reg.regs Reg.RSP := getReg_eq_regs _ _ (by decide)
  simp [step, hrun, hf, decode, execute, setALU, memory_stage, writeback, updatePC,
      ICode.OPQ, ICode.HALT, ICode.NOP, ICode.RRMOVQ, ICode.IRMOVQ, ICode.RMMOVQ,
      ICode.MRMOVQ, ICode.JXX, ICode.CALL, ICode.RET, ICode.PUSHQ, ICode.POPQ,
      hg, hE, hw]

/-- One step on a pop `0xBfn rA rB` with a stack pointer of at most 8184. -/
theorem step_pop (s : CPU) (fn ra rb : Nat) (hrun : s.stat = Stat.AOK)
    (hpc : s.PC + 1 < MAX_SIZE)
    (hop : s.mem.data s.PC = 0xB0 + fn) (hfn : fn < 16)
    (hreg : s.mem.data (s.PC + 1) = 16 * ra + rb) (hra : ra < 16) (hrb : rb < 16)
    (hs : s.reg.regs Reg.RSP ≤ 8184) :
    (step s).PC = s.PC + 2
      ∧ (step s).reg = (s.reg.setReg Reg.RSP (s.reg.regs Reg.RSP + 8)).setReg ra
          (s.mem.readWord (s.reg.regs Reg.RSP)).1
      ∧ (step s).mem = s.mem
      ∧ (step s).cc = s.cc ∧ (step s).stat = Stat.AOK := by
  have hf := fetch_two_byte s ICode.POPQ fn ra rb hpc hop hfn (by simp) hreg hra hrb
  have hE := sp_plus_eight _ hs
  have hr : (s.mem.readWord (s.reg.regs Reg.RSP)).2 = false := readWord_ok _ _ hs
  have hg : s.reg.getReg Reg.RSP = s.reg.regs Reg.RSP := getReg_eq_regs _ _ (by decide)
  simp [step, hrun, hf, decode, execute, setALU, memory_stage, writeback, updatePC,
      ICode.OPQ, ICode.HALT, ICode.NOP, ICode.RRMOVQ, ICode.IRMOVQ, ICode.RMMOVQ,
      ICode.MRMOVQ, ICode.JXX, ICode.CALL, ICode.RET, ICode.PUSHQ, ICode.POPQ,
      hg, hE, hr]

/-! ## One step on memory-store and memory-load -/

/-- One step on a memory-store `0x4fn rA rB D` whose address is in bounds. -/
theorem step_rmmovq (s : CPU) (fn ra rb : Nat) (hrun : s.stat = Stat.AOK)
    (hpc : s.PC + 9 < MAX_SIZE)
    (hop : s.mem.data s.PC = 0x40 + fn) (hfn : fn < 16)
    (hreg : s.mem.data (s.PC + 1) = 16 * ra + rb) (hra : ra < 16) (hrb : rb < 16)
    (haddr : (s.reg.getReg rb + (s.mem.readWord (s.PC + 2)).1) % 2 ^ 64 ≤ 8184) :
    (step s).PC = s.PC + 10
      ∧ (step s).reg = s.reg
      ∧ (step s).mem = (s.mem.writeWord
          ((s.reg.getReg rb + (s.mem.readWord (s.PC + 2)).1) % 2 ^ 64) (s.reg.getReg ra)).2
      ∧ (step s).cc = s.cc ∧ (step s).stat = Stat.AOK := by
  have hf := fetch_ten_byte s ICode.RMMOVQ fn ra rb hpc hop hfn (by simp) hreg hra hrb
  have hw : (s.mem.writeWord ((s.reg.getReg rb + (s.mem.readWord (s.PC + 2)).1) % 2 ^ 64)
      (s.reg.getReg ra)).1 = false := (writeWord_data s.mem _ _ 0 haddr).1
  rw [show (2 : Nat) ^ 64 = 18446744073709551616 by norm_num] at hw
  simp [step, hrun, hf, decode, execute, setALU, memory_stage, writeback, updatePC,
      ICode.OPQ, ICode.HALT, ICode.NOP, ICode.RRMOVQ, ICode.IRMOVQ, ICode.RMMOVQ,
      ICode.MRMOVQ, ICode.JXX, ICode.CALL, ICode.RET, ICode.PUSHQ, ICode.POPQ, execALU,
      ALU.ADD,
      hw]

/-- One step on a memory-load `0x5fn rA rB D` whose address is in bounds. -/
theorem step_mrmovq (s : CPU) (fn ra rb : Nat) (hrun : s.stat = Stat.AOK)
    (hpc : s.PC + 9 < MAX_SIZE)
    (hop : s.mem.data s.PC = 0x50 + fn) (hfn : fn < 16)
    (hreg : s.mem.data (s.PC + 1) = 16 * ra + rb) (hra : ra < 16) (hrb : rb < 16)
    (haddr : (s.reg.getReg rb + (s.mem.readWord (s.PC + 2)).1) % 2 ^ 64 ≤ 8184) :
    (step s).PC = s.PC + 10
      ∧ (step s).reg = s.reg.setReg ra (s.mem.readWord
          ((s.reg.getReg rb + (s.mem.readWord (s.PC + 2)).1) % 2 ^ 64)).1
      ∧ (step s).mem = s.mem
      ∧ (step s).cc = s.cc ∧ (step s).stat = Stat.AOK := by
  have hf := fetch_ten_byte s ICode.MRMOVQ fn ra rb hpc hop hfn (by simp) hreg hra hrb
  have hr : (s.mem.readWord ((s.reg.getReg rb + (s.mem.readWord (s.PC + 2)).1) % 2 ^ 64)).2
      = false := readWord_ok _ _ haddr
  rw [show (2 : Nat) ^ 64 = 18446744073709551616 by norm_num] at hr
  simp [step, hrun, hf, decode, execute, setALU, memory_stage, writeback, updatePC,
      ICode.OPQ, ICode.HALT, ICode.NOP, ICode.RRMOVQ, ICode.IRMOVQ, ICode.RMMOVQ,
      ICode.MRMOVQ, ICode.JXX, ICode.CALL, ICode.RET, ICode.PUSHQ, ICode.POPQ, execALU,
      ALU.ADD,
      hr]

/-! ## The flags outside arithmetic/logic instructions -/

theorem fetchValC_icode_cc (s : CPU) :
    (fetchValC s).2.icode = s.icode ∧ (fetchValC s).2.cc = s.cc := by
  simp only [fetchValC, setAddrError]
  split_ifs <;> exact ⟨rfl, rfl⟩

theorem fetchRegs_icode_cc (s : CPU) :
    (fetchRegs s).2.icode = s.icode ∧ (fetchRegs s).2.cc = s.cc := by
  simp only [fetchRegs, setAddrError]
  split_ifs <;> first | exact ⟨rfl, rfl⟩ | exact fetchValC_icode_cc _

/-- When the opcode byte is readable, fetch leaves its class code in `icode`,
whatever happens afterwards, and does not touch the flags. -/
theorem fetch_icode_cc (s : CPU) (hpc : s.PC < MAX_SIZE) :
    (fetch s).2.icode = (s.mem.data s.PC >>> 4) &&& 0xF ∧ (fetch s).2.cc = s.cc := by
  have hp0 : ¬ s.PC ≥ MAX_SIZE := by omega
  simp only [fetch, Memory.readByte, if_neg hp0, Bool.false_eq_true, if_false]
  split_ifs
  · exact ⟨rfl, rfl⟩
  · exact fetchRegs_icode_cc _

theorem execute_cc (s : CPU) (h : s.icode ≠ ICode.OPQ) : (execute s).2.cc = s.cc := by
  simp only [execute, if_neg h]
  split_ifs <;> rfl

theorem execute_icode (s : CPU) : (execute s).2.icode = s.icode := by
  simp only [execute, setCC]
  split_ifs <;> rfl

theorem memory_stage_cc (s : CPU) : (memory_stage s).2.cc = s.cc := by
  simp only [memory_stage, setAddrError]
  split_ifs <;> rfl

theorem writeback_cc (s : CPU) : (writeback s).2.cc = s.cc := by
  simp only [writeback]
  split_ifs <;> rfl

theorem updatePC_cc (s : CPU) : (updatePC s).cc = s.cc := by
  simp only [updatePC]
  split_ifs <;> rfl

/-- C12: in a running state whose opcode byte at `PC` is readable and whose
instruction-class code is not 6, `step` leaves the zero, sign and overflow
flags as they were. -/
theorem flags_unchanged_unless_opq (s : CPU) (hrun : s.stat = Stat.AOK)
    (hpc : s.PC < MAX_SIZE) (hic : (s.mem.data s.PC >>> 4) &&& 0xF ≠ 6) :
    (step s).cc.zf = s.cc.zf ∧ (step s).cc.sf = s.cc.sf ∧ (step s).cc.of = s.cc.of := by
  obtain ⟨hi, hc⟩ := fetch_icode_cc s hpc
  have hne : (decode (fetch s).2).2.icode ≠ ICode.OPQ := by
    show (fetch s).2.icode ≠ ICode.OPQ
    rw [hi]
    exact hic
  have hcc : (step s).cc = s.cc := by
    unfold step
    rw [if_pos hrun, updatePC_cc, writeback_cc, memory_stage_cc, execute_cc _ hne]
    exact hc
  rw [hcc]
  exact ⟨rfl, rfl, rfl⟩

theorem flags_unchanged_unless_opq_witness :
    (step jlCPU).cc.zf = jlCPU.cc.zf ∧ (step jlCPU).cc.sf = jlCPU.cc.sf
      ∧ (step jlCPU).cc.of = jlCPU.cc.of :=
  flags_unchanged_unless_opq jlCPU (by decide) (by decide) (by decide)

/-! ## Branches -/

/-- C11: after a step on a branch `0x7fn` (`fn` in 0..6) whose 8-byte target
is readable, the program counter is the little-endian target stored at
`PC + 1` when the condition of `fn` holds on the flags, and `PC + 9`
otherwise. -/
theorem branch_taken_iff_condition (s : CPU) (fn : Nat) (hrun : s.stat = Stat.AOK)
    (hpc : s.PC + 8 < MAX_SIZE)
    (hop : s.mem.data s.PC = 0x70 + fn) (hfn : fn ≤ 6)
    (hbytes : s.mem.bytesAt (s.PC + 1)) :
    (condHolds fn s.cc → (step s).PC = s.mem.leWord (s.PC + 1))
      ∧ (¬ condHolds fn s.cc → (step s).PC = s.PC + 9) := by
  have hm : MAX_SIZE = 8192 := rfl
  obtain ⟨h1, -, -, -, -⟩ := step_jxx s fn hrun hpc hop (by omega)
  have hiff := cond_iff_condHolds { s with ifunc := fn } hfn
  have hT := readWord_eq_leWord s.mem (s.PC + 1) (by omega) hbytes
  constructor
  · intro hc
    rw [h1, if_pos (hiff.mpr hc), hT]
  · intro hc
    rw [h1, if_neg (fun h => hc (hiff.mp h))]

theorem branch_taken_iff_condition_witness :
    condHolds 2 jlCPU.cc ∧ (step jlCPU).PC = 0x100 :=
  have h := branch_taken_iff_condition jlCPU 2 (by decide) (by decide) (by decide)
    (by decide) (by decide)
  ⟨by decide, h.1 (by decide)⟩

/-! ## Transient signals -/

/-- C13: evaluation of the code on two machines that agree on the program
counter, the status, the 16 register slots, the flags and the memory, and
differ only in the per-step signals (one has just executed `addq %rbx,%rbx`,
the other `jmp 0x2000`).  Both stand at `PC = 0x2000`, where fetch fails; the
later stages still run on the signals left behind, so after one step `%rbx`
is 20 in the first machine and 10 in the second. -/
theorem stale_signals_leak_into_next_step :
    afterAddCPU.PC = afterJmpCPU.PC
      ∧ afterAddCPU.stat = afterJmpCPU.stat
      ∧ (∀ i, i < 16 → afterAddCPU.reg.regs i = afterJmpCPU.reg.regs i)
      ∧ afterAddCPU.cc = afterJmpCPU.cc
      ∧ afterAddCPU.mem = afterJmpCPU.mem
      ∧ afterAddCPU.stat = Stat.AOK
      ∧ afterAddCPU.icode = ICode.OPQ ∧ afterJmpCPU.icode = ICode.JXX
      ∧ (step afterAddCPU).reg.regs Reg.RBX = 20
      ∧ (step afterJmpCPU).reg.regs Reg.RBX = 10 := by
  refine ⟨by decide, by decide, by decide, by decide, rfl, by decide, by decide, by decide,
    by decide, by decide⟩

/-! ## Call, return, push and pop -/

theorem setReg_regs_other (r : Register) (id val i : Nat) (h : i ≠ id) :
    (r.setReg id val).regs i = r.regs i := by
  unfold Register.setReg
  split_ifs
  · rfl
  · simp [h]

/-- C17: after a step on a call (opcode `0x80`) whose 8-byte target is
readable, with the stack pointer `s` in `8..8192`: the little-endian word at
`s - 8` is `PC + 9`, the stack pointer is `s - 8`, the program counter is the
target, the status is running, and the flags and every other register are
unchanged. -/
theorem call_pushes_return_address (s : CPU) (hrun : s.stat = Stat.AOK)
    (hpc : s.PC + 8 < MAX_SIZE) (hop : s.mem.data s.PC = 0x80)
    (hbytes : s.mem.bytesAt (s.PC + 1))
    (h8 : 8 ≤ s.reg.regs Reg.RSP) (hs : s.reg.regs Reg.RSP ≤ 8192) :
    (step s).mem.leWord (s.reg.regs Reg.RSP - 8) = s.PC + 9
      ∧ (step s).reg.regs Reg.RSP = s.reg.regs Reg.RSP - 8
      ∧ (step s).PC = s.mem.leWord (s.PC + 1)
      ∧ (step s).stat = Stat.AOK
      ∧ (step s).cc = s.cc
      ∧ (∀ i, i ≠ Reg.RSP → (step s).reg.regs i = s.reg.regs i) := by
  have hm : MAX_SIZE = 8192 := rfl
  obtain ⟨h1, h2, h3, h4, h5⟩ := step_call s 0 hrun hpc hop (by decide) h8 hs
  have hT := readWord_eq_leWord s.mem (s.PC + 1) (by omega) hbytes
  refine ⟨?_, ?_, ?_, h5, h4, ?_⟩
  · rw [h3]
    exact writeWord_leWord _ _ _ (by omega) (by omega)
  · rw [h2]
    exact setReg_regs_self _ _ _ (by decide)
  · rw [h1, hT]
  · intro i hi
    rw [h2]
    exact setReg_regs_other _ _ _ _ hi

theorem call_pushes_return_address_witness :
    (step callRetCPU).mem.leWord (0x200 - 8) = 9
      ∧ (step callRetCPU).reg.regs Reg.RSP = 0x200 - 8
      ∧ (step callRetCPU).PC = 0x20
      ∧ (step callRetCPU).stat = Stat.AOK :=
  have h := call_pushes_return_address callRetCPU (by decide) (by decide) (by decide)
    (by decide) (by decide) (by decide)
  ⟨h.1, h.2.1, by decide, h.2.2.2.1⟩

/-- C18: after a step on a return (opcode `0x90`) with the stack pointer `s`
at most 8184: the program counter is the little-endian word stored at `s`
(whatever 64-bit value it is), the stack pointer is `s + 8`, and the flags,
the memory and every other register are unchanged. -/
theorem ret_pops_return_address (s : CPU) (hrun : s.stat = Stat.AOK)
    (hpc : s.PC < MAX_SIZE) (hop : s.mem.data s.PC = 0x90)
    (hs : s.reg.regs Reg.RSP ≤ 8184)
    (hbytes : s.mem.bytesAt (s.reg.regs Reg.RSP)) :
    (step s).PC = s.mem.leWord (s.reg.regs Reg.RSP)
      ∧ (step s).reg.regs Reg.RSP = s.reg.regs Reg.RSP + 8
      ∧ (step s).cc = s.cc
      ∧ (∀ a, (step s).mem.data a = s.mem.data a)
      ∧ (∀ i, i ≠ Reg.RSP → (step s).reg.regs i = s.reg.regs i) := by
  obtain ⟨h1, h2, h3, h4, -⟩ := step_ret s 0 hrun hpc hop (by decide) hs
  have hT := readWord_eq_leWord s.mem _ hs hbytes
  refine ⟨?_, ?_, h4, ?_, ?_⟩
  · rw [h1, hT]
  · rw [h2]
    exact setReg_regs_self _ _ _ (by decide)
  · intro a
    rw [h3]
  · intro i hi
    rw [h2]
    exact setReg_regs_other _ _ _ _ hi

theorem ret_pops_return_address_witness :
    (step retCPU).PC = 0x123456789A ∧ 0x123456789A ≥ MAX_SIZE
      ∧ (step retCPU).reg.regs Reg.RSP = 0x10 + 8 :=
  have h := ret_pops_return_address retCPU (by decide) (by decide) (by decide)
    (by decide) (by decide)
  ⟨by decide, by decide, h.2.1⟩

/-- C19: after a step on a push (opcode `0xA0`) of register `rA` (in 0..14)
with the stack pointer `s` in `8..8192`: the little-endian word at `s - 8` is
the value `rA` had, the stack pointer is `s - 8`, the program counter has
advanced by 2, no other register has changed and no memory byte outside
`[s - 8, s)` has changed.  (This holds for the stack pointer as `rA` too: its
old value is what is pushed.) -/
theorem push_stores_register (s : CPU) (ra rb : Nat) (hrun : s.stat = Stat.AOK)
    (hpc : s.PC + 1 < MAX_SIZE) (hop : s.mem.data s.PC = 0xA0)
    (hreg : s.mem.data (s.PC + 1) = 16 * ra + rb)
    (hra : ra ≤ 14) (hrb : rb < 16)
    (hv : s.reg.regs ra < 2 ^ 64)
    (h8 : 8 ≤ s.reg.regs Reg.RSP) (hs : s.reg.regs Reg.RSP ≤ 8192) :
    (step s).mem.leWord (s.reg.regs Reg.RSP - 8) = s.reg.regs ra
      ∧ (step s).reg.regs Reg.RSP = s.reg.regs Reg.RSP - 8
      ∧ (step s).PC = s.PC + 2
      ∧ (∀ i, i ≠ Reg.RSP → (step s).reg.regs i = s.reg.regs i)
      ∧ (∀ a, a < s.reg.regs Reg.RSP - 8 ∨ s.reg.regs Reg.RSP ≤ a →
          (step s).mem.data a = s.mem.data a) := by
  have hra15 : ra ≠ Reg.NONE := by unfold Reg.NONE; omega
  obtain ⟨h1, h2, h3, -, -⟩ :=
    step_push s 0 ra rb hrun hpc hop (by decide) hreg (by omega) hrb h8 hs
  rw [getReg_eq_regs _ _ hra15] at h3
  refine ⟨?_, ?_, h1, ?_, ?_⟩
  · rw [h3]
    exact writeWord_leWord _ _ _ (by omega) hv
  · rw [h2]
    exact setReg_regs_self _ _ _ (by decide)
  · intro i hi
    rw [h2]
    exact setReg_regs_other _ _ _ _ hi
  · intro a ha
    rw [h3]
    exact writeWord_data_outside _ _ _ _ (by omega) (by omega)

theorem push_stores_register_witness :
    (step pushPopCPU).mem.leWord (0x300 - 8) = 0x123456789ABCDEF0
      ∧ (step pushPopCPU).reg.regs Reg.RSP = 0x300 - 8
      ∧ (step pushPopCPU).PC = 2 :=
  have h := push_stores_register pushPopCPU 0 15 (by decide) (by decide) (by decide)
    (by decide) (by decide) (by decide) (by decide) (by decide) (by decide)
  ⟨h.1, h.2.1, h.2.2.1⟩

/-- C20: after a step on a pop (opcode `0xB0`) into register `rA` (in 0..14,
not the stack pointer) with the stack pointer `s` at most 8184: `rA` holds the
little-endian word stored at `s`, the stack pointer is `s + 8`, the program
counter has advanced by 2 and the memory is unchanged. -/
theorem pop_loads_register (s : CPU) (ra rb : Nat) (hrun : s.stat = Stat.AOK)
    (hpc : s.PC + 1 < MAX_SIZE) (hop : s.mem.data s.PC = 0xB0)
    (hreg : s.mem.data (s.PC + 1) = 16 * ra + rb)
    (hra : ra ≤ 14) (hrsp : ra ≠ Reg.RSP) (hrb : rb < 16)
    (hs : s.reg.regs Reg.RSP ≤ 8184)
    (hbytes : s.mem.bytesAt (s.reg.regs Reg.RSP)) :
    (step s).reg.regs ra = s.mem.leWord (s.reg.regs Reg.RSP)
      ∧ (step s).reg.regs Reg.RSP = s.reg.regs Reg.RSP + 8
      ∧ (step s).PC = s.PC + 2
      ∧ (∀ a, (step s).mem.data a = s.mem.data a) := by
  have hra15 : ra ≠ Reg.NONE := by unfold Reg.NONE; omega
  obtain ⟨h1, h2, h3, -, -⟩ :=
    step_pop s 0 ra rb hrun hpc hop (by decide) hreg (by omega) hrb hs
  have hT := readWord_eq_leWord s.mem _ hs hbytes
  refine ⟨?_, ?_, h1, ?_⟩
  · rw [h2, setReg_regs_self _ _ _ hra15, hT]
  · rw [h2, setReg_regs_other _ _ _ _ (Ne.symm hrsp)]
    exact setReg_regs_self _ _ _ (by decide)
  · intro a
    rw [h3]

theorem pop_loads_register_witness :
    (step popCPU).reg.regs Reg.RAX = 0xAABBCCDDEEFF0011
      ∧ (step popCPU).reg.regs Reg.RSP = 0x10 + 8
      ∧ (step popCPU).PC = 2 :=
  have h := pop_loads_register popCPU 0 15 (by decide) (by decide) (by decide)
    (by decide) (by decide) (by decide) (by decide) (by decide) (by decide)
  ⟨by decide, h.2.1, h.2.2.1⟩

/-! ## Round trips over two steps -/

theorem stepN_two (s : CPU) : stepN 2 s = step (step s) := rfl

/-- C14: store/load round trip.  A memory-store `rmmovq rA, D(rB)` at `PC`
followed at `PC + 10` by a memory-load `mrmovq D(rB), rC`, with the address
`rB + D` (mod `2^64`) at most 8184 and the 8 stored bytes clear of the load
instruction: after two steps `rC` holds the value `rA` held, and the status is
running. -/
theorem store_load_round_trip (s : CPU) (ra rb rc : Nat) (hrun : s.stat = Stat.AOK)
    (hpc : s.PC + 19 < MAX_SIZE)
    (hop1 : s.mem.data s.PC = 0x40) (hreg1 : s.mem.data (s.PC + 1) = 16 * ra + rb)
    (hop2 : s.mem.data (s.PC + 10) = 0x50) (hreg2 : s.mem.data (s.PC + 11) = 16 * rc + rb)
    (hb1 : s.mem.bytesAt (s.PC + 2)) (hb2 : s.mem.bytesAt (s.PC + 12))
    (hD : s.mem.leWord (s.PC + 12) = s.mem.leWord (s.PC + 2))
    (hra : ra < 16) (hrb : rb < 16) (hrc : rc ≤ 14)
    (hv : s.reg.getReg ra < 2 ^ 64)
    (haddr : (s.reg.getReg rb + s.mem.leWord (s.PC + 2)) % 2 ^ 64 ≤ 8184)
    (hclear : (s.reg.getReg rb + s.mem.leWord (s.PC + 2)) % 2 ^ 64 + 8 ≤ s.PC + 10
      ∨ s.PC + 20 ≤ (s.reg.getReg rb + s.mem.leWord (s.PC + 2)) % 2 ^ 64) :
    (stepN 2 s).reg.regs rc = s.reg.getReg ra ∧ (stepN 2 s).stat = Stat.AOK := by
  have hm : MAX_SIZE = 8192 := rfl
  have hrc15 : rc ≠ Reg.NONE := by unfold Reg.NONE; omega
  have hD1 := readWord_eq_leWord s.mem (s.PC + 2) (by omega) hb1
  have hD2 := readWord_eq_leWord s.mem (s.PC + 12) (by omega) hb2
  have haddr1 : (s.reg.getReg rb + (s.mem.readWord (s.PC + 2)).1) % 2 ^ 64 ≤ 8184 := by
    rw [hD1]; exact haddr
  obtain ⟨p1, r1, m1, -, a1⟩ :=
    step_rmmovq s 0 ra rb hrun (by omega) hop1 (by decide) hreg1 hra hrb haddr1
  rw [hD1] at m1
  generalize hA : (s.reg.getReg rb + s.mem.leWord (s.PC + 2)) % 2 ^ 64 = addr at *
  -- the load instruction is intact after the store
  have hout : ∀ a, s.PC + 10 ≤ a → a < s.PC + 20 → (step s).mem.data a = s.mem.data a := by
    intro a h1 h2
    rw [m1]
    exact writeWord_data_outside _ _ _ _ haddr (by omega)
  have hop2' : (step s).mem.data ((step s).PC) = 0x50 := by
    rw [p1, hout _ (by omega) (by omega), hop2]
  have hreg2' : (step s).mem.data ((step s).PC + 1) = 16 * rc + rb := by
    rw [p1, hout _ (by omega) (by omega)]
    exact hreg2
  have hrd : (step s).mem.readWord ((step s).PC + 2) = (s.mem.leWord (s.PC + 2), false) := by
    rw [p1, readWord_congr s.mem (step s).mem (s.PC + 10 + 2)
      (fun i hi => hout _ (by omega) (by omega))]
    rw [show s.PC + 10 + 2 = s.PC + 12 by omega, hD2, hD]
  have haddr2 : ((step s).reg.getReg rb + ((step s).mem.readWord ((step s).PC + 2)).1) % 2 ^ 64
      ≤ 8184 := by
    rw [hrd, r1, hA]; exact haddr
  obtain ⟨-, r2, -, -, a2⟩ :=
    step_mrmovq (step s) 0 rc rb a1 (by rw [p1]; omega) hop2' (by decide) hreg2' (by omega)
      hrb haddr2
  rw [hrd, r1, hA, m1, readWord_writeWord _ _ _ haddr hv] at r2
  rw [stepN_two]
  exact ⟨by rw [r2]; exact setReg_regs_self _ _ _ hrc15, a2⟩

theorem store_load_round_trip_witness :
    storeLoadCPU.reg.getReg 0 = 2 ^ 64 - 1
      ∧ (stepN 2 storeLoadCPU).reg.regs 1 = storeLoadCPU.reg.getReg 0
      ∧ (stepN 2 storeLoadCPU).stat = Stat.AOK :=
  ⟨by decide, store_load_round_trip storeLoadCPU 0 3 1 (by decide) (by decide) (by decide)
    (by decide) (by decide) (by decide) (by decide) (by decide) (by decide) (by decide)
    (by decide) (by decide) (by decide) (by decide) (by decide)⟩

/-- C15: push/pop round trip.  A push of `rA` at `PC` followed at `PC + 2` by a
pop into `rC` (neither the stack pointer nor the sentinel), with the stack
pointer `s` in `8..8192` and the slot `[s - 8, s)` clear of the two bytes of
the pop: after two steps the stack pointer is `s` again, `rC` holds the value
`rA` had before the push, and the program counter has advanced by 4. -/
theorem push_pop_round_trip (s : CPU) (ra rb rc rd : Nat) (hrun : s.stat = Stat.AOK)
    (hpc : s.PC + 3 < MAX_SIZE)
    (hop1 : s.mem.data s.PC = 0xA0) (hreg1 : s.mem.data (s.PC + 1) = 16 * ra + rb)
    (hop2 : s.mem.data (s.PC + 2) = 0xB0) (hreg2 : s.mem.data (s.PC + 3) = 16 * rc + rd)
    (hra : ra < 16) (hrb : rb < 16) (hrc : rc ≤ 14) (hrsp : rc ≠ Reg.RSP) (hrd : rd < 16)
    (hv : s.reg.getReg ra < 2 ^ 64)
    (h8 : 8 ≤ s.reg.regs Reg.RSP) (hs : s.reg.regs Reg.RSP ≤ 8192)
    (hclear : s.reg.regs Reg.RSP ≤ s.PC + 2 ∨ s.PC + 4 ≤ s.reg.regs Reg.RSP - 8) :
    (stepN 2 s).reg.regs Reg.RSP = s.reg.regs Reg.RSP
      ∧ (stepN 2 s).reg.regs rc = s.reg.getReg ra
      ∧ (stepN 2 s).PC = s.PC + 4 := by
  have hm : MAX_SIZE = 8192 := rfl
  have hrc15 : rc ≠ Reg.NONE := by unfold Reg.NONE; omega
  obtain ⟨p1, r1, m1, -, a1⟩ := step_push s 0 ra rb hrun (by omega) hop1 (by decide) hreg1
    hra hrb h8 hs
  have hsp1 : (step s).reg.regs Reg.RSP = s.reg.regs Reg.RSP - 8 := by
    rw [r1]; exact setReg_regs_self _ _ _ (by decide)
  have hout : ∀ a, s.PC + 2 ≤ a → a < s.PC + 4 → (step s).mem.data a = s.mem.data a := by
    intro a h1 h2
    rw [m1]
    exact writeWord_data_outside _ _ _ _ (by omega) (by omega)
  have hop2' : (step s).mem.data ((step s).PC) = 0xB0 := by
    rw [p1, hout _ (by omega) (by omega), hop2]
  have hreg2' : (step s).mem.data ((step s).PC + 1) = 16 * rc + rd := by
    rw [p1, hout _ (by omega) (by omega)]
    exact hreg2
  obtain ⟨p2, r2, -, -, -⟩ := step_pop (step s) 0 rc rd a1 (by rw [p1]; omega) hop2'
    (by decide) hreg2' (by omega) hrd (by rw [hsp1]; omega)
  rw [hsp1, m1, readWord_writeWord _ _ _ (by omega) hv] at r2
  rw [stepN_two]
  refine ⟨?_, ?_, ?_⟩
  · rw [r2, setReg_regs_other _ _ _ _ (Ne.symm hrsp), setReg_regs_self _ _ _ (by decide)]
    omega
  · rw [r2, setReg_regs_self _ _ _ hrc15]
  · rw [p2, p1]

theorem push_pop_round_trip_witness :
    pushPopCPU.reg.getReg 0 = 0x123456789ABCDEF0
      ∧ ((stepN 2 pushPopCPU).reg.regs Reg.RSP = pushPopCPU.reg.regs Reg.RSP
        ∧ (stepN 2 pushPopCPU).reg.regs 3 = pushPopCPU.reg.getReg 0
        ∧ (stepN 2 pushPopCPU).PC = pushPopCPU.PC + 4) :=
  ⟨by decide, push_pop_round_trip pushPopCPU 0 15 3 15 (by decide) (by decide) (by decide)
    (by decide) (by decide) (by decide) (by decide) (by decide) (by decide) (by decide)
    (by decide) (by decide) (by decide) (by decide) (by decide)⟩

/-- C16: call/return round trip.  A call to `T` at `PC` and a return at `T`,
with the stack pointer `s` in `8..8192` and byte `T` outside the slot
`[s - 8, s)`: the first step stores `PC + 9` at `s - 8` and sets the program
counter to `T`; the second step sets it to `PC + 9` and the stack pointer back
to `s`; every register other than the stack pointer is unchanged by both
steps. -/
theorem call_ret_round_trip (s : CPU) (hrun : s.stat = Stat.AOK)
    (hpc : s.PC + 8 < MAX_SIZE) (hop : s.mem.data s.PC = 0x80)
    (hbytes : s.mem.bytesAt (s.PC + 1))
    (hT : s.mem.leWord (s.PC + 1) < MAX_SIZE)
    (hret : s.mem.data (s.mem.leWord (s.PC + 1)) = 0x90)
    (h8 : 8 ≤ s.reg.regs Reg.RSP) (hs : s.reg.regs Reg.RSP ≤ 8192)
    (hclear : s.mem.leWord (s.PC + 1) < s.reg.regs Reg.RSP - 8
      ∨ s.reg.regs Reg.RSP ≤ s.mem.leWord (s.PC + 1)) :
    (step s).mem.leWord (s.reg.regs Reg.RSP - 8) = s.PC + 9
      ∧ (step s).PC = s.mem.leWord (s.PC + 1)
      ∧ (stepN 2 s).PC = s.PC + 9
      ∧ (stepN 2 s).reg.regs Reg.RSP = s.reg.regs Reg.RSP
      ∧ (∀ i, i ≠ Reg.RSP →
          (step s).reg.regs i = s.reg.regs i ∧ (stepN 2 s).reg.regs i = s.reg.regs i) := by
  have hm : MAX_SIZE = 8192 := rfl
  obtain ⟨p1, r1, m1, -, a1⟩ := step_call s 0 hrun hpc hop (by decide) h8 hs
  rw [readWord_eq_leWord s.mem (s.PC + 1) (by omega) hbytes] at p1
  have hsp1 : (step s).reg.regs Reg.RSP = s.reg.regs Reg.RSP - 8 := by
    rw [r1]; exact setReg_regs_self _ _ _ (by decide)
  have hret' : (step s).mem.data ((step s).PC) = 0x90 := by
    rw [p1, m1, writeWord_data_outside _ _ _ _ (by omega) (by omega), hret]
  obtain ⟨p2, r2, -, -, -⟩ := step_ret (step s) 0 a1 (by rw [p1]; exact hT) hret'
    (by decide) (by rw [hsp1]; omega)
  rw [hsp1, m1, readWord_writeWord _ _ _ (by omega) (by omega)] at p2
  rw [hsp1] at r2
  rw [stepN_two]
  refine ⟨?_, p1, p2, ?_, ?_⟩
  · rw [m1]
    exact writeWord_leWord _ _ _ (by omega) (by omega)
  · rw [r2, setReg_regs_self _ _ _ (by decide)]
    omega
  · intro i hi
    have e1 : (step s).reg.regs i = s.reg.regs i := by
      rw [r1]; exact setReg_regs_other _ _ _ _ hi
    exact ⟨e1, by rw [r2, setReg_regs_other _ _ _ _ hi]; exact e1⟩

theorem call_ret_round_trip_witness :
    (step callRetCPU).mem.leWord (0x200 - 8) = 9
      ∧ (step callRetCPU).PC = 0x20
      ∧ (stepN 2 callRetCPU).PC = 9
      ∧ (stepN 2 callRetCPU).reg.regs Reg.RSP = 0x200 :=
  have h := call_ret_round_trip callRetCPU (by decide) (by decide) (by decide) (by decide)
    (by decide) (by decide) (by decide) (by decide) (by decide)
  ⟨h.1, by decide, h.2.2.1, h.2.2.2.1⟩

/-! ## Halt, no-operation and the two moves into a register -/

/-- One step on a byte of class 0 (halt). -/
theorem step_halt (s : CPU) (hrun : s.stat = Stat.AOK) (hpc : s.PC < MAX_SIZE)
    (hic : (s.mem.data s.PC >>> 4) &&& 0xF = 0) :
    (step s).stat = Stat.HLT ∧ (step s).PC = s.PC ∧ (step s).reg = s.reg
      ∧ (step s).cc = s.cc ∧ (step s).mem = s.mem := by
  have hp0 : ¬ s.PC ≥ MAX_SIZE := by omega
  have hp1 : ¬ MAX_SIZE ≤ s.PC := by omega
  simp [step, hrun, fetch, Memory.readByte, hp0, hp1, hic, decode, execute, setALU,
    memory_stage, writeback, updatePC,
    ICode.OPQ, ICode.HALT, ICode.NOP, ICode.RRMOVQ, ICode.IRMOVQ, ICode.RMMOVQ, ICode.MRMOVQ,
    ICode.JXX, ICode.CALL, ICode.RET, ICode.PUSHQ, ICode.POPQ]

/-- One step on a byte of class 1 (no-operation). -/
theorem step_nop (s : CPU) (hrun : s.stat = Stat.AOK) (hpc : s.PC < MAX_SIZE)
    (hic : (s.mem.data s.PC >>> 4) &&& 0xF = 1) :
    (step s).stat = Stat.AOK ∧ (step s).PC = s.PC + 1 ∧ (step s).reg = s.reg
      ∧ (step s).cc = s.cc ∧ (step s).mem = s.mem := by
  have hm : MAX_SIZE = 8192 := rfl
  have hp0 : ¬ s.PC ≥ MAX_SIZE := by omega
  have hp1 : ¬ MAX_SIZE ≤ s.PC := by omega
  have hv1 : (s.PC + 1) % 18446744073709551616 = s.PC + 1 := by omega
  simp [step, hrun, fetch, Memory.readByte, hp0, hp1, hic, fetchRegs, needReg, fetchValC,
    needValC, decode, execute, setALU, memory_stage, writeback, updatePC, hv1,
    ICode.OPQ, ICode.HALT, ICode.NOP, ICode.RRMOVQ, ICode.IRMOVQ, ICode.RMMOVQ, ICode.MRMOVQ,
    ICode.JXX, ICode.CALL, ICode.RET, ICode.PUSHQ, ICode.POPQ]

/-- One step on an immediate move `0x3fn rA rB V` with all ten bytes readable. -/
theorem step_irmovq (s : CPU) (fn ra rb : Nat) (hrun : s.stat = Stat.AOK)
    (hpc : s.PC + 9 < MAX_SIZE)
    (hop : s.mem.data s.PC = 0x30 + fn) (hfn : fn < 16)
    (hreg : s.mem.data (s.PC + 1) = 16 * ra + rb) (hra : ra < 16) (hrb : rb < 16) :
    (step s).PC = s.PC + 10
      ∧ (step s).reg = s.reg.setReg rb (execALU (s.mem.readWord (s.PC + 2)).1 0 ALU.ADD)
      ∧ (step s).mem = s.mem
      ∧ (step s).cc = s.cc ∧ (step s).stat = Stat.AOK := by
  have hf := fetch_ten_byte s ICode.IRMOVQ fn ra rb hpc hop hfn (by simp) hreg hra hrb
  simp [step, hrun, hf, decode, execute, setALU, memory_stage, writeback, updatePC,
    ICode.OPQ, ICode.HALT, ICode.NOP, ICode.RRMOVQ, ICode.IRMOVQ, ICode.RMMOVQ, ICode.MRMOVQ,
    ICode.JXX, ICode.CALL, ICode.RET, ICode.PUSHQ, ICode.POPQ]

/-- C21: in a running state whose byte at `PC` has instruction-class code 0
(halt), after one step, and after any further number of steps, the status is
halted and the program counter, every register, the three flags and every
memory byte are as before the first step. -/
theorem halt_stops_and_changes_nothing (s : CPU) (n : Nat) (hrun : s.stat = Stat.AOK)
    (hpc : s.PC < MAX_SIZE) (hic : (s.mem.data s.PC >>> 4) &&& 0xF = 0) :
    (stepN (n + 1) s).stat = Stat.HLT
      ∧ (stepN (n + 1) s).PC = s.PC
      ∧ (∀ i, (stepN (n + 1) s).reg.regs i = s.reg.regs i)
      ∧ (stepN (n + 1) s).cc = s.cc
      ∧ (∀ a, (stepN (n + 1) s).mem.data a = s.mem.data a) := by
  obtain ⟨h1, h2, h3, h4, h5⟩ := step_halt s hrun hpc hic
  have hn : stepN (n + 1) s = step s :=
    stepN_of_not_running n (step s) (by rw [h1]; decide)
  rw [hn]
  exact ⟨h1, h2, fun i => by rw [h3], h4, fun a => by rw [h5]⟩

theorem halt_stops_and_changes_nothing_witness :
    (stepN (2 + 1) haltCPU).stat = Stat.HLT
      ∧ (stepN (2 + 1) haltCPU).PC = haltCPU.PC
      ∧ (∀ i, (stepN (2 + 1) haltCPU).reg.regs i = haltCPU.reg.regs i)
      ∧ (stepN (2 + 1) haltCPU).cc = haltCPU.cc
      ∧ (∀ a, (stepN (2 + 1) haltCPU).mem.data a = haltCPU.mem.data a) :=
  halt_stops_and_changes_nothing haltCPU 2 (by decide) (by decide) (by decide)

/-- C22: in a running state whose byte at `PC` has instruction-class code 1
(no-operation), after a step the program counter has advanced by exactly 1,
the status is running, and every register, every memory byte and the three
flags are unchanged. -/
theorem nop_only_advances_PC (s : CPU) (hrun : s.stat = Stat.AOK)
    (hpc : s.PC < MAX_SIZE) (hic : (s.mem.data s.PC >>> 4) &&& 0xF = 1) :
    (step s).PC = s.PC + 1
      ∧ (step s).stat = Stat.AOK
      ∧ (∀ i, (step s).reg.regs i = s.reg.regs i)
      ∧ (∀ a, (step s).mem.data a = s.mem.data a)
      ∧ (step s).cc = s.cc := by
  obtain ⟨h1, h2, h3, h4, h5⟩ := step_nop s hrun hpc hic
  exact ⟨h2, h1, fun i => by rw [h3], fun a => by rw [h5], h4⟩

theorem nop_only_advances_PC_witness :
    (step nopCPU).PC = nopCPU.PC + 1
      ∧ (step nopCPU).stat = Stat.AOK
      ∧ (∀ i, (step nopCPU).reg.regs i = nopCPU.reg.regs i)
      ∧ (∀ a, (step nopCPU).mem.data a = nopCPU.mem.data a)
      ∧ (step nopCPU).cc = nopCPU.cc :=
  nop_only_advances_PC nopCPU (by decide) (by decide) (by decide)

/-- C23: after a step on an unconditional register move (opcode `0x20`) from
`rA` to `rB`, two distinct ids in 0..14, with the register byte readable:
`rB` holds the prior value of `rA`, `rA` is unchanged, the flags are unchanged
and the program counter has advanced by 2. -/
theorem rrmovq_copies_register (s : CPU) (ra rb : Nat) (hrun : s.stat = Stat.AOK)
    (hpc : s.PC + 1 < MAX_SIZE) (hop : s.mem.data s.PC = 0x20)
    (hreg : s.mem.data (s.PC + 1) = 16 * ra + rb)
    (hra : ra ≤ 14) (hrb : rb ≤ 14) (hne : ra ≠ rb)
    (hA : s.reg.regs ra < 2 ^ 64) :
    (step s).reg.regs rb = s.reg.regs ra
      ∧ (step s).reg.regs ra = s.reg.regs ra
      ∧ (step s).cc = s.cc
      ∧ (step s).PC = s.PC + 2 := by
  have hra15 : ra ≠ Reg.NONE := by unfold Reg.NONE; omega
  have hrb15 : rb ≠ Reg.NONE := by unfold Reg.NONE; omega
  obtain ⟨h1, h2, h3, -, -⟩ :=
    step_cmov s 0 ra rb hrun hpc hop (by decide) hreg (by omega) (by omega)
  have hc : cond { s with ifunc := 0 } = true := by simp [cond]
  rw [if_pos hc, getReg_eq_regs _ _ hra15, Nat.zero_add, Nat.mod_eq_of_lt hA] at h1
  refine ⟨?_, ?_, h2, h3⟩
  · rw [h1]
    exact setReg_regs_self _ _ _ hrb15
  · rw [h1]
    exact setReg_regs_other _ _ _ _ hne

theorem rrmovq_copies_register_witness :
    rrmovqCPU.reg.regs 0 = 7 ∧ rrmovqCPU.reg.regs 1 = 9
      ∧ ((step rrmovqCPU).reg.regs 1 = rrmovqCPU.reg.regs 0
        ∧ (step rrmovqCPU).reg.regs 0 = rrmovqCPU.reg.regs 0
        ∧ (step rrmovqCPU).cc = rrmovqCPU.cc
        ∧ (step rrmovqCPU).PC = rrmovqCPU.PC + 2) :=
  ⟨by decide, by decide, rrmovq_copies_register rrmovqCPU 0 1 (by decide) (by decide)
    (by decide) (by decide) (by decide) (by decide) (by decide) (by decide)⟩

/-- C24: after a step on an immediate move (opcode `0x30`) to register `rB`
(in 0..14) with `PC + 9 <= 8191`: `rB` holds the value whose little-endian
bytes are `memory[PC+2 .. PC+9]`, the program counter has advanced by 10 and
the flags are unchanged. -/
theorem irmovq_loads_immediate (s : CPU) (ra rb : Nat) (hrun : s.stat = Stat.AOK)
    (hpc : s.PC + 9 ≤ 8191) (hop : s.mem.data s.PC = 0x30)
    (hreg : s.mem.data (s.PC + 1) = 16 * ra + rb) (hra : ra < 16) (hrb : rb ≤ 14)
    (hbytes : s.mem.bytesAt (s.PC + 2)) :
    (step s).reg.regs rb = s.mem.leWord (s.PC + 2)
      ∧ (step s).PC = s.PC + 10
      ∧ (step s).cc = s.cc := by
  have hm : MAX_SIZE = 8192 := rfl
  have hrb15 : rb ≠ Reg.NONE := by unfold Reg.NONE; omega
  obtain ⟨h1, h2, -, h4, -⟩ :=
    step_irmovq s 0 ra rb hrun (by omega) hop (by decide) hreg hra (by omega)
  have hT := readWord_eq_leWord s.mem (s.PC + 2) (by omega) hbytes
  have hlt := leWord_lt s.mem (s.PC + 2) hbytes
  have hE : execALU (s.mem.leWord (s.PC + 2)) 0 ALU.ADD = s.mem.leWord (s.PC + 2) := by
    simp only [execALU, if_true, Nat.zero_add]
    exact Nat.mod_eq_of_lt hlt
  rw [hT, hE] at h2
  exact ⟨by rw [h2]; exact setReg_regs_self _ _ _ hrb15, h1, h4⟩

theorem irmovq_loads_immediate_witness :
    (step irmovqCPU).reg.regs Reg.RBX = 0x1122334455667788
      ∧ (step irmovqCPU).PC = irmovqCPU.PC + 10
      ∧ (step irmovqCPU).cc = irmovqCPU.cc :=
  have h := irmovq_loads_immediate irmovqCPU 15 3 (by decide) (by decide) (by decide)
    (by decide) (by decide) (by decide) (by decide)
  ⟨by decide, h.2.1, h.2.2⟩

/-! ## The storage contract -/

/-- C25: storage word round trip.  For every address `addr <= 8184` and every
64-bit value `w`, `writeWord(addr, w)` reports success and a following
`readWord(addr)` reports success and returns exactly `w`. -/
theorem word_write_read_round_trip (m : Memory) (addr w : Nat)
    (haddr : addr ≤ 8184) (hw : w < 2 ^ 64) :
    (m.writeWord addr w).1 = false
      ∧ (m.writeWord addr w).2.readWord addr = (w, false) :=
  ⟨(writeWord_data m addr w 0 haddr).1, readWord_writeWord m addr w haddr hw⟩

theorem word_write_read_round_trip_witness :
    ((Memory.ofBytes 0 [1, 2, 3]).writeWord 8184 (2 ^ 64 - 1)).1 = false
      ∧ ((Memory.ofBytes 0 [1, 2, 3]).writeWord 8184 (2 ^ 64 - 1)).2.readWord 8184
          = (2 ^ 64 - 1, false) :=
  word_write_read_round_trip (Memory.ofBytes 0 [1, 2, 3]) 8184 (2 ^ 64 - 1) (by decide)
    (by decide)

/-- C26: words are stored little-endian.  For every `addr <= 8184` and every
value `w`, after `writeWord(addr, w)` the byte read at `addr + i` is bits
`8i..8i+7` of `w` for each `i` in 0..7, and every byte at an address outside
`[addr, addr + 8)` is unchanged. -/
theorem word_stored_little_endian (m : Memory) (addr w : Nat) (haddr : addr ≤ 8184) :
    (∀ i, i < 8 →
        (m.writeWord addr w).2.readByte (addr + i) = (w / 2 ^ (8 * i) % 256, false))
      ∧ (∀ a, a < addr ∨ addr + 8 ≤ a → (m.writeWord addr w).2.data a = m.data a) := by
  constructor
  · intro i hi
    have hb : ¬ addr + i ≥ MAX_SIZE := by unfold MAX_SIZE; omega
    have hd := (writeWord_data m addr w (addr + i) haddr).2
    rw [if_pos (by omega), Nat.add_sub_cancel_left] at hd
    simp only [Memory.readByte, if_neg hb, hd]
  · intro a ha
    exact writeWord_data_outside m addr w a haddr ha

theorem word_stored_little_endian_witness :
    ((Memory.ofBytes 0 [1, 2, 3]).writeWord 0x100 0x1122334455667788).2.readByte (0x100 + 1)
        = (0x77, false)
      ∧ ((Memory.ofBytes 0 [1, 2, 3]).writeWord 0x100 0x1122334455667788).2.data 1 = 2 :=
  have h := word_stored_little_endian (Memory.ofBytes 0 [1, 2, 3]) 0x100 0x1122334455667788
    (by decide)
  ⟨h.1 1 (by decide), h.2 1 (by decide)⟩

/-- C27: for every address, `readWord` and `writeWord` report out-of-bounds if
and only if `addr > 8184` (the address is never added to, so nothing wraps
around for addresses from `2^64 - 8` on); a rejected `writeWord` leaves the
memory unchanged. -/
theorem word_access_rejected_iff (m : Memory) (addr w : Nat) :
    ((m.readWord addr).2 = true ↔ addr > 8184)
      ∧ ((m.writeWord addr w).1 = true ↔ addr > 8184)
      ∧ (addr > 8184 → (m.writeWord addr w).2 = m)
      ∧ (m.readWord (2 ^ 64 - 8)).2 = true
      ∧ (m.writeWord (2 ^ 64 - 8) w).1 = true := by
  have hm : MAX_SIZE - 8 = 8184 := rfl
  have key : ∀ a : Nat, ((m.readWord a).2 = true ↔ a > 8184)
      ∧ ((m.writeWord a w).1 = true ↔ a > 8184)
      ∧ (a > 8184 → (m.writeWord a w).2 = m) := by
    intro a
    simp only [Memory.readWord, Memory.writeWord, hm]
    by_cases h : a > 8184
    · simp [h]
    · simp [h]
  exact ⟨(key addr).1, (key addr).2.1, (key addr).2.2,
    (key (2 ^ 64 - 8)).1.mpr (by norm_num), (key (2 ^ 64 - 8)).2.1.mpr (by norm_num)⟩

/-- C28: for every address, `readByte` and `writeByte` succeed if and only if
`addr < 8192`; a successful `writeByte(addr, b)` makes `readByte(addr)` return
`b` and leaves every other byte unchanged, and a rejected `writeByte` leaves
the memory unchanged. -/
theorem byte_access_contract (m : Memory) (addr b : Nat) :
    ((m.readByte addr).2 = false ↔ addr < 8192)
      ∧ ((m.writeByte addr b).1 = false ↔ addr < 8192)
      ∧ (addr < 8192 → (m.writeByte addr b).2.readByte addr = (b, false)
          ∧ ∀ a, a ≠ addr → (m.writeByte addr b).2.data a = m.data a)
      ∧ (¬ addr < 8192 → (m.writeByte addr b).2 = m) := by
  have hm : MAX_SIZE = 8192 := rfl
  simp only [Memory.readByte, Memory.writeByte, Memory.store, hm]
  by_cases h : addr < 8192
  · have h' : ¬ addr ≥ 8192 := by omega
    simp only [if_neg h', h, true_iff, true_implies, not_true_eq_false, false_implies,
      and_true, if_true, true_and]
    intro a ha
    simp [ha]
  · have h' : addr ≥ 8192 := by omega
    simp [h, h']

/-! ## The register file contract -/

/-- C29: `setReg` with the sentinel id 15 leaves every slot unchanged, whatever
the value, and `getReg` with the sentinel id returns 0 (before and after). -/
theorem sentinel_write_dropped_read_zero (r : Register) (v : Nat) :
    Reg.NONE = 15
      ∧ (∀ i, (r.setReg Reg.NONE v).regs i = r.regs i)
      ∧ r.getReg Reg.NONE = 0
      ∧ (r.setReg Reg.NONE v).getReg Reg.NONE = 0 := by
  simp [Register.setReg, Register.getReg, Reg.NONE]

/-- C30: for every register id in 0..14 and every value `v`, after
`setReg(id, v)` `getReg(id)` returns `v` and `getReg(j)` for every other id `j`
returns what it returned before; after `reset` every slot is 0. -/
theorem setReg_then_getReg_and_reset (r : Register) (id v : Nat) (hid : id ≤ 14) :
    (r.setReg id v).getReg id = v
      ∧ (∀ j, j ≠ id → (r.setReg id v).getReg j = r.getReg j)
      ∧ (∀ i, r.reset.regs i = 0) := by
  have hid15 : id ≠ Reg.NONE := by unfold Reg.NONE; omega
  refine ⟨?_, ?_, fun _ => rfl⟩
  · rw [getReg_eq_regs _ _ hid15]
    exact setReg_regs_self _ _ _ hid15
  · intro j hj
    unfold Register.getReg
    split_ifs
    · rfl
    · exact setReg_regs_other _ _ _ _ hj

theorem setReg_then_getReg_and_reset_witness :
    ((Register.ofList [1, 2, 3]).setReg 1 42).getReg 1 = 42
      ∧ (∀ j, j ≠ 1 → ((Register.ofList [1, 2, 3]).setReg 1 42).getReg j
          = (Register.ofList [1, 2, 3]).getReg j)
      ∧ (∀ i, (Register.ofList [1, 2, 3]).reset.regs i = 0) :=
  setReg_then_getReg_and_reset (Register.ofList [1, 2, 3]) 1 42 (by decide)

/-! ## Loader: text lemmas -/

theorem strFind_append_cons (c : Char) (pre rest : List Char) (h : c ∉ pre) :
    strFind c (pre ++ c :: rest) = some pre.length := by
  induction pre with
  | nil => simp [strFind]
  | cons x xs ih =>
    have hx : x ≠ c := fun e => h (by simp [e])
    have hxs : c ∉ xs := fun e => h (by simp [e])
    simp [strFind, hx, ih hxs]

theorem strFind_eq_none (c : Char) (l : List Char) (h : c ∉ l) : strFind c l = none := by
  induction l with
  | nil => rfl
  | cons x xs ih =>
    have hx : x ≠ c := fun e => h (by simp [e])
    have hxs : c ∉ xs := fun e => h (by simp [e])
    simp [strFind, hx, ih hxs]

theorem substr_zero_append (pre rest : List Char) :
    substr (pre ++ rest) 0 pre.length = pre := by
  simp [substr]

theorem substr_middle (pre mid rest : List Char) (c : Char) :
    substr (pre ++ c :: (mid ++ rest)) (pre.length + 1) mid.length = mid := by
  have h : List.drop (pre.length + 1) (pre ++ c :: (mid ++ rest)) = mid ++ rest := by
    rw [show pre ++ c :: (mid ++ rest) = (pre ++ [c]) ++ (mid ++ rest) by simp]
    exact List.drop_left' (by simp)
  simp [substr, h]

theorem dropWhile_all (p : Char → Bool) (sp l : List Char) (h : ∀ c ∈ sp, p c = true) :
    (sp ++ l).dropWhile p = l.dropWhile p := by
  induction sp with
  | nil => rfl
  | cons x xs ih =>
    have hx : p x = true := h x (by simp)
    simp only [List.cons_append, List.dropWhile_cons, hx, if_true]
    exact ih (fun c hc => h c (by simp [hc]))

theorem dropWhile_none (p : Char → Bool) (c : Char) (l : List Char) (h : p c = false) :
    (c :: l).dropWhile p = c :: l := by
  simp [List.dropWhile_cons, h]

/-- `trim` removes the blanks around a text that neither starts nor ends with
a blank. -/
theorem trim_padded (sp1 core sp2 : List Char)
    (h1 : ∀ c ∈ sp1, isBlank c = true) (h2 : ∀ c ∈ sp2, isBlank c = true)
    (hc : ∀ c ∈ core, isBlank c = false) :
    trim (sp1 ++ (core ++ sp2)) = core := by
  unfold trim
  rw [dropWhile_all isBlank sp1 _ h1]
  cases core with
  | nil =>
    have e : ([] ++ sp2).dropWhile isBlank = [] := by
      have := dropWhile_all isBlank sp2 [] h2
      simpa using this
    rw [e]
    rfl
  | cons x xs =>
    have hx : isBlank x = false := hc x (by simp)
    rw [List.cons_append, dropWhile_none isBlank x _ hx]
    have hrev : (x :: (xs ++ sp2)).reverse = sp2.reverse ++ (x :: xs).reverse := by simp
    rw [hrev, dropWhile_all isBlank sp2.reverse _ (fun c hc' => h2 c (by simpa using hc'))]
    have hne : (x :: xs).reverse ≠ [] := by simp
    obtain ⟨y, ys, hy⟩ := List.exists_cons_of_ne_nil hne
    have hymem : y ∈ x :: xs := by
      have : y ∈ (x :: xs).reverse := by rw [hy]; simp
      exact List.mem_reverse.mp this
    rw [hy, dropWhile_none isBlank y _ (hc y hymem), ← hy, List.reverse_reverse]

/-! ## Loader: conversions -/

theorem hexDigit_lt (c : Char) (d : Nat) (h : hexDigit c = some d) : d < 16 := by
  unfold hexDigit at h
  split_ifs at h <;> simp at h <;> omega

theorem hexDigit_toNat (c : Char) (hc : (hexDigit c).isSome = true) :
    (48 ≤ c.toNat ∧ c.toNat ≤ 57) ∨ (97 ≤ c.toNat ∧ c.toNat ≤ 102)
      ∨ (65 ≤ c.toNat ∧ c.toNat ≤ 70) := by
  unfold hexDigit at hc
  split_ifs at hc with h1 h2 h3
  · exact Or.inl h1
  · exact Or.inr (Or.inl h2)
  · exact Or.inr (Or.inr h3)
  · simp at hc

/-- A hexadecimal digit is not white space, not a sign, not a separator. -/
theorem hexDigit_plain (c : Char) (hc : (hexDigit c).isSome = true) :
    isSpaceC c = false ∧ isBlank c = false ∧ c ≠ '-' ∧ c ≠ '+' ∧ c ≠ '|' ∧ c ≠ ':'
      ∧ c ≠ '\n' := by
  have h := hexDigit_toNat c hc
  have ne : ∀ k : Char, (k.toNat < 48 ∨ (57 < k.toNat ∧ k.toNat < 65)
      ∨ (70 < k.toNat ∧ k.toNat < 97) ∨ 102 < k.toNat) → c ≠ k := by
    intro k hk e
    subst e
    omega
  have e1 := ne ' ' (by decide)
  have e2 := ne '\t' (by decide)
  have e3 := ne '\n' (by decide)
  have e4 := ne '\x0b' (by decide)
  have e5 := ne '\x0c' (by decide)
  have e6 := ne '\r' (by decide)
  refine ⟨?_, ?_, ne '-' (by decide), ne '+' (by decide), ne '|' (by decide),
    ne ':' (by decide), e3⟩
  · simp [isSpaceC, e1, e2, e3, e4, e5, e6]
  · simp [isBlank, e1, e2]

/-- `stoi` on a pair of hexadecimal digits gives the value of the pair. -/
theorem stoiByte16_pair (p : Char × Char) (hp : isHexPair p) :
    stoiByte16 [p.1, p.2] = some (pairValue p) := by
  obtain ⟨c1, c2⟩ := p
  obtain ⟨h1, h2⟩ := hp
  simp only at h1 h2
  obtain ⟨s1, -, m1, p1, -, -, -⟩ := hexDigit_plain c1 h1
  obtain ⟨d1, e1⟩ := Option.isSome_iff_exists.mp h1
  obtain ⟨d2, e2⟩ := Option.isSome_iff_exists.mp h2
  have l1 := hexDigit_lt c1 d1 e1
  have l2 := hexDigit_lt c2 d2 e2
  have hv : (16 * d1 + d2) % 256 = 16 * d1 + d2 := by omega
  simp [stoiByte16, strtoHex, List.dropWhile_cons, s1, m1, p1, hexRun, e1, e2, pairValue, hv]
  omega

/-! ## Loader: the byte loop and the line loop -/

theorem loadBytes_nil (m : Memory) (a : Nat) : loadBytes m a [] = (false, m) := rfl
theorem loadBytes_one (m : Memory) (a : Nat) (c : Char) : loadBytes m a [c] =
    match loadToken m a [c] with | none => (false, m) | some r => r := rfl
theorem loadBytes_pair (m : Memory) (a : Nat) (c1 c2 : Char) (rest : List Char) :
    loadBytes m a (c1 :: c2 :: rest) =
      match loadToken m a [c1, c2] with
      | none => (false, m)
      | some r => if r.1 then (true, r.2) else loadBytes r.2 ((a + 1) % 2 ^ 64) rest := rfl
theorem tokenBytes_nil : tokenBytes [] = [] := rfl
theorem tokenBytes_one (c : Char) : tokenBytes [c] =
    match stoiByte16 [c] with | none => [] | some b => [b] := rfl
theorem tokenBytes_pair (c1 c2 : Char) (rest : List Char) : tokenBytes (c1 :: c2 :: rest) =
    match stoiByte16 [c1, c2] with | none => [] | some b => b :: tokenBytes rest := rfl

/-- The byte loop stores the converted bytes one after the other from `addr`
on, as many as fit below the capacity, and reports failure exactly when they
do not all fit. -/
theorem loadBytes_eq : ∀ (hexStr : List Char) (m : Memory) (a : Nat), a < 2 ^ 64 →
    loadBytes m a hexStr
      = (decide (8192 - a < (tokenBytes hexStr).length),
          m.storeBytes a ((tokenBytes hexStr).take (8192 - a)))
  | [], m, a, _ => by simp [loadBytes_nil, tokenBytes_nil, Memory.storeBytes]
  | [c], m, a, _ => by
    cases hb : stoiByte16 [c] with
    | none => simp [loadBytes_one, loadToken, tokenBytes_one, hb, Memory.storeBytes]
    | some b =>
      by_cases ha : a ≥ 8192
      · have h0 : 8192 - a = 0 := by omega
        simp [loadBytes_one, loadToken, tokenBytes_one, hb, Memory.writeByte, MAX_SIZE, ha, h0,
          Memory.storeBytes]
      · have h1 : 8192 - a = (8191 - a) + 1 := by omega
        have h2 : ¬ 8192 ≤ a := by omega
        simp [loadBytes_one, loadToken, tokenBytes_one, hb, Memory.writeByte, MAX_SIZE, h2, h1,
          Memory.storeBytes]
  | c1 :: c2 :: rest, m, a, hlt => by
    cases hb : stoiByte16 [c1, c2] with
    | none => simp [loadBytes_pair, loadToken, tokenBytes_pair, hb, Memory.storeBytes]
    | some b =>
      by_cases ha : a ≥ 8192
      · have h0 : 8192 - a = 0 := by omega
        simp [loadBytes_pair, loadToken, tokenBytes_pair, hb, Memory.writeByte, MAX_SIZE, ha, h0,
          Memory.storeBytes]
      · have h1 : 8192 - a = (8192 - (a + 1)) + 1 := by omega
        have h2 : ¬ 8192 ≤ a := by omega
        have hmod : (a + 1) % 2 ^ 64 = a + 1 := by omega
        have ih := loadBytes_eq rest (m.store a b) (a + 1) (by omega)
        simp only [loadBytes_pair, loadToken, tokenBytes_pair, hb, Memory.writeByte, MAX_SIZE, ge_iff_le,
          if_neg h2, Bool.false_eq_true, if_false, hmod, ih, List.length_cons]
        rw [h1, List.take_succ_cons, Memory.storeBytes]
        congr 1
        simp only [decide_eq_decide]
        omega

theorem stoull16_lt (s : List Char) (a : Nat) (h : stoull16 s = some a) : a < 2 ^ 64 := by
  unfold stoull16 at h
  split at h
  · simp at h
  · split_ifs at h with h1 h2
    · simp at h
      rw [← h]
      exact Nat.mod_lt _ (by norm_num)
    · simp at h
      omega

/-- `loadLine` parses the line without looking at the memory, then stores the
bytes the line asks for, as many as fit, and fails exactly when they do not
all fit. -/
theorem loadLine_eq (m : Memory) (line : List Char) :
    loadLine m line =
      match lineTarget line with
      | none => (false, m)
      | some (a, bs) => (decide (8192 - a < bs.length), m.storeBytes a (bs.take (8192 - a))) := by
  unfold loadLine lineTarget
  cases strFind ':' line with
  | none => rfl
  | some colonPos =>
    simp only
    by_cases h1 : trim (substr line 0 colonPos) = []
    · simp only [if_pos h1]
    · simp only [if_neg h1]
      cases hs : stoull16 (trim (substr line 0 colonPos)) with
      | none => rfl
      | some addr =>
        simp only
        split_ifs with h2
        · rfl
        · exact loadBytes_eq _ m addr (stoull16_lt _ _ hs)

/-! ## Loader: a well-formed line -/

theorem hexRun_all (ds : List Char) (h : ∀ c ∈ ds, (hexDigit c).isSome = true) :
    ∀ acc n, hexRun acc n ds
      = (ds.foldl (fun acc c => 16 * acc + (hexDigit c).getD 0) acc, n + ds.length) := by
  induction ds with
  | nil => intro acc n; rfl
  | cons c cs ih =>
    intro acc n
    have hc := h c (List.mem_cons_self _ _)
    obtain ⟨d, hd⟩ := Option.isSome_iff_exists.mp hc
    rw [hexRun, hd]
    simp only
    rw [ih (fun x hx => h x (List.mem_cons_of_mem _ hx))]
    simp [hd]
    omega

theorem hexDigit_not_x (c : Char) (hc : (hexDigit c).isSome = true) : c ≠ 'x' ∧ c ≠ 'X' := by
  have h := hexDigit_toNat c hc
  have ne : ∀ k : Char, (k.toNat < 48 ∨ (57 < k.toNat ∧ k.toNat < 65)
      ∨ (70 < k.toNat ∧ k.toNat < 97) ∨ 102 < k.toNat) → c ≠ k := by
    intro k hk e
    subst e
    omega
  exact ⟨ne 'x' (by decide), ne 'X' (by decide)⟩

/-- `strtoull` on hexadecimal digits, with `0x` or `0X` in front or not, reads
all of them. -/
theorem strtoHex_hex (pfx ds : List Char)
    (hpfx : pfx = [] ∨ pfx = ['0', 'x'] ∨ pfx = ['0', 'X'])
    (hne : ds ≠ []) (h : ∀ c ∈ ds, (hexDigit c).isSome = true) :
    strtoHex (pfx ++ ds) = some (false, hexValue ds) := by
  cases ds with
  | nil => exact absurd rfl hne
  | cons d r =>
    have hd := h d (List.mem_cons_self _ _)
    have hr := hexRun_all (d :: r) h 0 0
    obtain ⟨sd, -, md, pd, -, -, -⟩ := hexDigit_plain d hd
    rcases hpfx with e | e | e
    · subst e
      cases r with
      | nil =>
        simp [strtoHex, List.dropWhile_cons, sd, md, pd, hr, hexValue]
      | cons x r2 =>
        have hx := hexDigit_not_x x (h x (by simp))
        cases r2 with
        | nil => simp [strtoHex, List.dropWhile_cons, sd, md, pd, hr, hexValue]
        | cons y r3 =>
          simp [strtoHex, List.dropWhile_cons, sd, md, pd, hr, hexValue, hx.1, hx.2]
    · subst e
      simp [strtoHex, List.dropWhile_cons, isSpaceC, hd, hr, hexValue]
    · subst e
      simp [strtoHex, List.dropWhile_cons, isSpaceC, hd, hr, hexValue]

/-- `stoull` on hexadecimal digits, with `0x` or `0X` in front or not, gives
their value. -/
theorem stoull16_hex (pfx ds : List Char)
    (hpfx : pfx = [] ∨ pfx = ['0', 'x'] ∨ pfx = ['0', 'X'])
    (hne : ds ≠ []) (h : ∀ c ∈ ds, (hexDigit c).isSome = true)
    (hv : hexValue ds < 2 ^ 64) : stoull16 (pfx ++ ds) = some (hexValue ds) := by
  have hv2 : ¬ hexValue ds ≥ 2 ^ 64 := by omega
  simp only [stoull16, strtoHex_hex pfx ds hpfx hne h, if_neg hv2]
  rfl

theorem pairText_hex (pairs : List (Char × Char)) (h : ∀ p ∈ pairs, isHexPair p) :
    ∀ c ∈ pairText pairs, (hexDigit c).isSome = true := by
  induction pairs with
  | nil => intro c hc; simp [pairText] at hc
  | cons p ps ih =>
    intro c hc
    have hp := h p (List.mem_cons_self _ _)
    simp only [pairText, List.mem_cons] at hc
    rcases hc with hc | hc | hc
    · rw [hc]; exact hp.1
    · rw [hc]; exact hp.2
    · exact ih (fun q hq => h q (List.mem_cons_of_mem _ hq)) c hc

theorem pairText_eq_nil (pairs : List (Char × Char)) : pairText pairs = [] ↔ pairs = [] := by
  cases pairs <;> simp [pairText]

/-- The bytes of a run of two-hex-digit pairs are the values of the pairs. -/
theorem tokenBytes_pairText (pairs : List (Char × Char)) (h : ∀ p ∈ pairs, isHexPair p) :
    tokenBytes (pairText pairs) = pairs.map pairValue := by
  induction pairs with
  | nil => rfl
  | cons p ps ih =>
    have hp := h p (List.mem_cons_self _ _)
    rw [pairText, tokenBytes_pair, stoiByte16_pair p hp]
    simp only [List.map_cons]
    rw [ih (fun q hq => h q (List.mem_cons_of_mem _ hq))]

theorem storeBytes_data (bs : List Nat) : ∀ (m : Memory) (a x : Nat),
    (m.storeBytes a bs).data x
      = if a ≤ x ∧ x < a + bs.length then bs.getD (x - a) 0 else m.data x := by
  induction bs with
  | nil =>
    intro m a x
    have h : ¬ (a ≤ x ∧ x < a + ([] : List Nat).length) := by simp
    rw [if_neg h]
    rfl
  | cons b bs ih =>
    intro m a x
    rw [Memory.storeBytes, ih]
    by_cases h1 : a + 1 ≤ x ∧ x < a + 1 + bs.length
    · have h2 : a ≤ x ∧ x < a + (b :: bs).length := by simp; omega
      rw [if_pos h1, if_pos h2]
      have h3 : x - a = (x - (a + 1)) + 1 := by omega
      rw [h3, List.getD_cons_succ]
    · rw [if_neg h1]
      by_cases h4 : x = a
      · subst h4
        simp [Memory.store]
      · have h2 : ¬ (a ≤ x ∧ x < a + (b :: bs).length) := by simp; omega
        rw [if_neg h2]
        simp [Memory.store, h4]

theorem loadLines_append (pre post : List (List Char)) : ∀ m : Memory,
    loadLines m (pre ++ post)
      = if (loadLines m pre).1 then loadLines (loadLines m pre).2 post else loadLines m pre := by
  induction pre with
  | nil => intro m; simp [loadLines]
  | cons l ls ih =>
    intro m
    simp only [List.cons_append, loadLines]
    split_ifs <;> simp_all

theorem blank_plain (c : Char) (h : isBlank c = true) : c ≠ ':' ∧ c ≠ '|' := by
  simp only [isBlank, Bool.or_eq_true, decide_eq_true_eq] at h
  rcases h with h | h <;> subst h <;> exact ⟨by decide, by decide⟩

/-- What a well-formed line asks for: the pair values, from the address on. -/
theorem lineTarget_listingLine (sp0 pfx ds spA sp1 : List Char) (pairs : List (Char × Char))
    (sp2 tail : List Char)
    (h0 : ∀ c ∈ sp0, isBlank c = true)
    (hpfx : pfx = [] ∨ pfx = ['0', 'x'] ∨ pfx = ['0', 'X'])
    (hne : ds ≠ []) (hds : ∀ c ∈ ds, (hexDigit c).isSome = true)
    (hA : ∀ c ∈ spA, isBlank c = true)
    (h1 : ∀ c ∈ sp1, isBlank c = true) (hp : ∀ p ∈ pairs, isHexPair p)
    (h2 : ∀ c ∈ sp2, isBlank c = true)
    (htail : tail = [] ∨ tail.head? = some '|')
    (hlen : (listingLine sp0 pfx ds spA sp1 pairs sp2 tail).length < 2 ^ 64)
    (hv : hexValue ds < 2 ^ 64) :
    lineTarget (listingLine sp0 pfx ds spA sp1 pairs sp2 tail)
      = if pairs = [] then none else some (hexValue ds, pairs.map pairValue) := by
  have hpt := pairText_hex pairs hp
  have hcore : ∀ c ∈ pfx ++ ds, isBlank c = false ∧ c ≠ ':' ∧ c ≠ '|' := by
    intro c hc
    rcases List.mem_append.mp hc with hc | hc
    · rcases hpfx with e | e | e <;> subst e <;> simp only [List.mem_cons, List.mem_nil_iff,
        or_false] at hc
      · rcases hc with hc | hc <;> subst hc <;> decide
      · rcases hc with hc | hc <;> subst hc <;> decide
    · have := hexDigit_plain c (hds c hc)
      exact ⟨this.2.1, this.2.2.2.2.2.1, this.2.2.2.2.1⟩
  have haddrTok : ∀ c ∈ sp0 ++ ((pfx ++ ds) ++ spA), c ≠ ':' ∧ c ≠ '|' := by
    intro c hc
    simp only [List.mem_append] at hc
    rcases hc with hc | (hc | hc) | hc
    · exact blank_plain _ (h0 _ hc)
    · exact (hcore c (List.mem_append.mpr (Or.inl hc))).2
    · exact (hcore c (List.mem_append.mpr (Or.inr hc))).2
    · exact blank_plain _ (hA _ hc)
  have hmid : ∀ c ∈ sp1 ++ (pairText pairs ++ sp2), c ≠ '|' := by
    intro c hc
    simp only [List.mem_append] at hc
    rcases hc with hc | hc | hc
    · exact (blank_plain _ (h1 _ hc)).2
    · exact (hexDigit_plain _ (hpt _ hc)).2.2.2.2.1
    · exact (blank_plain _ (h2 _ hc)).2
  have hcolon : strFind ':' (listingLine sp0 pfx ds spA sp1 pairs sp2 tail)
      = some (sp0 ++ ((pfx ++ ds) ++ spA)).length := by
    unfold listingLine
    apply strFind_append_cons
    intro hmem
    exact (haddrTok _ hmem).1 rfl
  have hl : (listingLine sp0 pfx ds spA sp1 pairs sp2 tail).length
      = (sp0 ++ ((pfx ++ ds) ++ spA)).length + 1 + (sp1 ++ (pairText pairs ++ sp2)).length
          + tail.length := by
    simp only [listingLine, List.length_append, List.length_cons]
    omega
  have hpipe : (match strFind '|' (listingLine sp0 pfx ds spA sp1 pairs sp2 tail) with
      | none => (listingLine sp0 pfx ds spA sp1 pairs sp2 tail).length
      | some pipePos => pipePos)
        = (sp0 ++ ((pfx ++ ds) ++ spA)).length + 1
            + (sp1 ++ (pairText pairs ++ sp2)).length := by
    have hfront : '|' ∉ (sp0 ++ ((pfx ++ ds) ++ spA)) ++ ':' :: (sp1 ++ (pairText pairs ++ sp2)) := by
      intro hmem
      rcases List.mem_append.mp hmem with hm | hm
      · exact (haddrTok _ hm).2 rfl
      · rcases List.mem_cons.mp hm with hm | hm
        · exact absurd hm (by decide)
        · exact hmid _ hm rfl
    rcases htail with e | e
    · subst e
      have hnone : strFind '|' (listingLine sp0 pfx ds spA sp1 pairs sp2 []) = none := by
        apply strFind_eq_none
        unfold listingLine
        rw [List.append_nil]
        exact hfront
      rw [hnone]
      simp only
      rw [hl]
      rfl
    · cases tail with
      | nil => simp at e
      | cons t comment =>
        simp only [List.head?_cons, Option.some.injEq] at e
        subst e
        have e2 : listingLine sp0 pfx ds spA sp1 pairs sp2 ('|' :: comment)
            = ((sp0 ++ ((pfx ++ ds) ++ spA)) ++ ':' :: (sp1 ++ (pairText pairs ++ sp2)))
                ++ '|' :: comment := by
          simp [listingLine]
        rw [e2, strFind_append_cons _ _ _ hfront]
        show ((sp0 ++ ((pfx ++ ds) ++ spA)) ++ ':' :: (sp1 ++ (pairText pairs ++ sp2))).length
          = _
        rw [List.length_append, List.length_cons]
        omega
  have haddr : trim (substr (listingLine sp0 pfx ds spA sp1 pairs sp2 tail) 0
      (sp0 ++ ((pfx ++ ds) ++ spA)).length) = pfx ++ ds := by
    unfold listingLine
    rw [substr_zero_append]
    exact trim_padded sp0 (pfx ++ ds) spA h0 hA (fun c hc => (hcore c hc).1)
  have hcount : ((sp0 ++ ((pfx ++ ds) ++ spA)).length + 1
      + (sp1 ++ (pairText pairs ++ sp2)).length
      + 2 ^ 64 - (sp0 ++ ((pfx ++ ds) ++ spA)).length - 1) % 2 ^ 64
        = (sp1 ++ (pairText pairs ++ sp2)).length := by
    omega
  have hhex : trim (substr (listingLine sp0 pfx ds spA sp1 pairs sp2 tail)
      ((sp0 ++ ((pfx ++ ds) ++ spA)).length + 1) (sp1 ++ (pairText pairs ++ sp2)).length)
        = pairText pairs := by
    unfold listingLine
    rw [substr_middle]
    exact trim_padded sp1 (pairText pairs) sp2 h1 h2
      (fun c hc => (hexDigit_plain c (hpt c hc)).2.1)
  have hcore_ne : pfx ++ ds ≠ [] := by
    intro e
    exact hne (List.append_eq_nil.mp e).2
  unfold lineTarget
  simp only [hcolon, hpipe, haddr, hcount, hhex, stoull16_hex pfx ds hpfx hne hds hv,
    pairText_eq_nil, tokenBytes_pairText pairs hp, if_neg hcore_ne]

/-- A line whose bytes fit loads without failure and leaves alone every
address range it is clear of. -/
theorem loadLine_of_fits (m : Memory) (line : List Char) (hfit : lineFits line) :
    (loadLine m line).1 = false
      ∧ ∀ a n, lineClearOf a n line → ∀ x, a ≤ x → x < a + n →
          (loadLine m line).2.data x = m.data x := by
  rw [loadLine_eq]
  unfold lineFits at hfit
  unfold lineClearOf
  cases ht : lineTarget line with
  | none => exact ⟨rfl, fun _ _ _ _ _ _ => rfl⟩
  | some p =>
    obtain ⟨b, bs⟩ := p
    rw [ht] at hfit
    simp only at hfit ⊢
    have hd : ¬ (8192 - b < bs.length) := by omega
    refine ⟨decide_eq_false hd, fun a n hclear x hax hxn => ?_⟩
    rw [List.take_of_length_le hfit, storeBytes_data]
    have hout : ¬ (b ≤ x ∧ x < b + bs.length) := by omega
    rw [if_neg hout]

/-- Lines whose bytes all fit load successfully, and leave alone every address
range they are all clear of. -/
theorem loadLines_of_fits (ls : List (List Char)) : ∀ m : Memory,
    (∀ l ∈ ls, lineFits l) →
    (loadLines m ls).1 = true
      ∧ ∀ a n, (∀ l ∈ ls, lineClearOf a n l) → ∀ x, a ≤ x → x < a + n →
          (loadLines m ls).2.data x = m.data x := by
  induction ls with
  | nil => intro m _; exact ⟨rfl, fun _ _ _ _ _ _ => rfl⟩
  | cons l rest ih =>
    intro m hfit
    obtain ⟨h1, h2⟩ := loadLine_of_fits m l (hfit l (List.mem_cons_self _ _))
    obtain ⟨h3, h4⟩ := ih (loadLine m l).2 (fun k hk => hfit k (List.mem_cons_of_mem _ hk))
    simp only [loadLines, h1, Bool.false_eq_true, if_false]
    refine ⟨h3, fun a n hclear x hax hxn => ?_⟩
    rw [h4 a n (fun k hk => hclear k (List.mem_cons_of_mem _ hk)) x hax hxn]
    exact h2 a n (hclear l (List.mem_cons_self _ _)) x hax hxn

/-! ## The loader -/

/-- C31: a listing line of the form
`<hex address>: <n two-hex-digit pairs> | <comment>` (the address written with
or without `0x`, blanks allowed around the parts, the comment optional) with
address `a` and `a + n ≤ 8192`, in a listing where the bytes of every other
line go below 8192 and no later line asks for a write in `[a, a + n)`: `load`
returns success and the byte at `a + i` is the value of the `i`-th pair for
every `i < n`. -/
theorem listing_line_bytes_loaded (content : List Char) (m0 : Memory)
    (pre post : List (List Char)) (sp0 pfx ds spA sp1 : List Char)
    (pairs : List (Char × Char)) (sp2 tail : List Char)
    (hlines : getlines content
      = pre ++ listingLine sp0 pfx ds spA sp1 pairs sp2 tail :: post)
    (hpre : ∀ l ∈ pre, lineFits l)
    (hpost : ∀ l ∈ post, lineFits l)
    (hclear : ∀ l ∈ post, lineClearOf (hexValue ds) pairs.length l)
    (h0 : ∀ c ∈ sp0, isBlank c = true)
    (hpfx : pfx = [] ∨ pfx = ['0', 'x'] ∨ pfx = ['0', 'X'])
    (hne : ds ≠ []) (hds : ∀ c ∈ ds, (hexDigit c).isSome = true)
    (hA : ∀ c ∈ spA, isBlank c = true)
    (h1 : ∀ c ∈ sp1, isBlank c = true) (hp : ∀ p ∈ pairs, isHexPair p)
    (h2 : ∀ c ∈ sp2, isBlank c = true)
    (htail : tail = [] ∨ tail.head? = some '|')
    (hlen : (listingLine sp0 pfx ds spA sp1 pairs sp2 tail).length < 2 ^ 64)
    (hfit : hexValue ds + pairs.length ≤ 8192) :
    (load content m0).1 = true
      ∧ (∀ i (h : i < pairs.length),
          (load content m0).2.data (hexValue ds + i) = pairValue (pairs.get ⟨i, h⟩)) := by
  have ht := lineTarget_listingLine sp0 pfx ds spA sp1 pairs sp2 tail h0 hpfx hne hds hA h1 hp
    h2 htail hlen (by omega)
  obtain ⟨hpre1, -⟩ := loadLines_of_fits pre m0.reset hpre
  have hline : loadLine (loadLines m0.reset pre).2
      (listingLine sp0 pfx ds spA sp1 pairs sp2 tail)
      = (false, (loadLines m0.reset pre).2.storeBytes (hexValue ds) (pairs.map pairValue)) := by
    rw [loadLine_eq, ht]
    by_cases hnil : pairs = []
    · subst hnil
      rfl
    · have hd : ¬ (8192 - hexValue ds < (pairs.map pairValue).length) := by
        rw [List.length_map]
        omega
      simp only [if_neg hnil, decide_eq_false hd]
      rw [List.take_of_length_le (by rw [List.length_map]; omega)]
  obtain ⟨hpost1, hpost2⟩ := loadLines_of_fits post
    ((loadLines m0.reset pre).2.storeBytes (hexValue ds) (pairs.map pairValue)) hpost
  have hload : load content m0
      = loadLines ((loadLines m0.reset pre).2.storeBytes (hexValue ds) (pairs.map pairValue))
          post := by
    unfold load
    rw [hlines, loadLines_append, if_pos hpre1]
    simp only [loadLines, hline, Bool.false_eq_true, if_false]
  rw [hload]
  refine ⟨hpost1, fun i h => ?_⟩
  rw [hpost2 (hexValue ds) pairs.length hclear (hexValue ds + i) (by omega) (by omega)]
  have hin : hexValue ds ≤ hexValue ds + i
      ∧ hexValue ds + i < hexValue ds + (pairs.map pairValue).length := by
    rw [List.length_map]
    omega
  simp only [storeBytes_data, if_pos hin, Nat.add_sub_cancel_left]
  simp [List.getD_eq_getElem?_getD, h]

theorem listing_line_bytes_loaded_witness :
    (load threeLineListing (Memory.ofBytes 0 [0xAA])).1 = true
      ∧ (load threeLineListing (Memory.ofBytes 0 [0xAA])).2.data (0x00a + 0) = 0x30
      ∧ (load threeLineListing (Memory.ofBytes 0 [0xAA])).2.data (0x00a + 1) = 0xf4 :=
  have h := listing_line_bytes_loaded threeLineListing (Memory.ofBytes 0 [0xAA])
    ["0x000: 00 | halt".toList] ["0X010: 11".toList] [] [] ['0', '0', 'a'] [] [' ']
    [('3', '0'), ('f', '4')] [' '] "| irmovq".toList
    (by decide) (by decide) (by decide) (by decide) (by decide) (by decide) (by decide)
    (by decide) (by decide) (by decide) (by decide) (by decide) (by decide) (by decide)
    (by decide)
  ⟨h.1, h.2 0 (by decide), h.2 1 (by decide)⟩

/-- C31, as stated, fails when a later line interferes: the first line of
`0x000: 30 | a` / `0x000: 40 | b` has the stated form with address 0 and one
pair of value `0x30`, yet after the load the byte at 0 is `0x40`; and with
`0x2000: 11 | b` as the second line the load returns failure. -/
theorem listing_line_overwritten_by_later_line :
    getlines overwriteListing
        = [listingLine [] ['0', 'x'] ['0', '0', '0'] [] [' '] [('3', '0')] [' '] "| a".toList,
           "0x000: 40 | b".toList]
      ∧ hexValue ['0', '0', '0'] + [('3', '0')].length ≤ 8192
      ∧ pairValue ('3', '0') = 0x30
      ∧ (load overwriteListing (Memory.ofBytes 0 [])).1 = true
      ∧ (load overwriteListing (Memory.ofBytes 0 [])).2.data (hexValue ['0', '0', '0'] + 0) = 0x40
      ∧ getlines laterFailListing
        = [listingLine [] ['0', 'x'] ['0', '0', '0'] [] [' '] [('3', '0')] [' '] "| a".toList,
           "0x2000: 11 | b".toList]
      ∧ (load laterFailListing (Memory.ofBytes 0 [])).1 = false := by
  decide

/-- C32: when the `j`-th byte a line asks to write (the line asking for the
bytes `bs` from address `a` on) targets an address at or beyond 8192, the
earlier lines having loaded: `load` returns failure, and the memory it leaves
holds the line's bytes that fit below 8192 and is elsewhere as the earlier
lines left it. -/
theorem out_of_bounds_write_fails_load (content : List Char) (m0 : Memory)
    (pre post : List (List Char)) (line : List Char) (a : Nat) (bs : List Nat) (j : Nat)
    (hlines : getlines content = pre ++ line :: post)
    (hpre : (loadLines m0.reset pre).1 = true)
    (htarget : lineTarget line = some (a, bs))
    (hj : j < bs.length) (hout : 8192 ≤ a + j) :
    (load content m0).1 = false
      ∧ (∀ x, (load content m0).2.data x
          = if a ≤ x ∧ x < 8192 then bs.getD (x - a) 0
            else (loadLines m0.reset pre).2.data x) := by
  have hd : 8192 - a < bs.length := by omega
  have hline : loadLine (loadLines m0.reset pre).2 line
      = (true, (loadLines m0.reset pre).2.storeBytes a (bs.take (8192 - a))) := by
    rw [loadLine_eq, htarget]
    simp only [decide_eq_true hd]
  have hload : load content m0
      = (false, (loadLines m0.reset pre).2.storeBytes a (bs.take (8192 - a))) := by
    unfold load
    rw [hlines, loadLines_append, if_pos hpre]
    simp only [loadLines, hline, if_true]
  rw [hload]
  refine ⟨rfl, fun x => ?_⟩
  rw [storeBytes_data]
  have hl : (bs.take (8192 - a)).length = 8192 - a := by
    rw [List.length_take]
    omega
  rw [hl]
  by_cases hx : a ≤ x ∧ x < 8192
  · have hx2 : a ≤ x ∧ x < a + (8192 - a) := by omega
    rw [if_pos hx, if_pos hx2]
    simp only [List.getD_eq_getElem?_getD]
    rw [List.getElem?_take_of_lt (by omega)]
  · have hx2 : ¬ (a ≤ x ∧ x < a + (8192 - a)) := by omega
    rw [if_neg hx, if_neg hx2]

theorem out_of_bounds_write_fails_load_witness :
    (load overflowListing (Memory.ofBytes 0 [0xAA])).1 = false
      ∧ (load overflowListing (Memory.ofBytes 0 [0xAA])).2.data 0x1fff = 0x11
      ∧ (load overflowListing (Memory.ofBytes 0 [0xAA])).2.data 0 = 0x30 :=
  have h := out_of_bounds_write_fails_load overflowListing (Memory.ofBytes 0 [0xAA])
    ["0x000: 30 | first".toList] [] "0x1fff: 1122 | crosses".toList 0x1fff [0x11, 0x22] 1
    (by decide) (by decide) (by decide) (by decide) (by decide)
  ⟨h.1, (h.2 0x1fff).trans (by decide), (h.2 0).trans (by decide)⟩

/-- C33: on the payload `303g11` the loader does not stop at the token `3g`:
it writes 3 for it and goes on to write `0x11`; on the payload `30f` it
writes `0x0f` for the single trailing digit.  (`std::stoi` converts the
leading hexadecimal digits of a token and ignores what follows them.) -/
theorem bad_token_still_written :
    (load badTokenListing (Memory.ofBytes 0 [])).1 = true
      ∧ (load badTokenListing (Memory.ofBytes 0 [])).2.data 0 = 0x30
      ∧ (load badTokenListing (Memory.ofBytes 0 [])).2.data 1 = 0x03
      ∧ (load badTokenListing (Memory.ofBytes 0 [])).2.data 2 = 0x11
      ∧ (load oddTokenListing (Memory.ofBytes 0 [])).1 = true
      ∧ (load oddTokenListing (Memory.ofBytes 0 [])).2.data 0 = 0x30
      ∧ (load oddTokenListing (Memory.ofBytes 0 [])).2.data 1 = 0x0f := by
  decide

/-- C34: on the line `12 | a: 30`, whose `|` comes before its first `:`, the
loader writes `0x30` at address `0x12`, while the same line cut off at the
`|` (the text `12 `) writes nothing.  (The address text is taken up to the
colon, not up to the `|`, and the payload length `endPos - colonPos - 1`
wraps around.) -/
theorem comment_text_written_when_pipe_precedes_colon :
    cutListing pipeFirstListing = "12 \n".toList
      ∧ (load pipeFirstListing (Memory.ofBytes 0 [])).1 = true
      ∧ (load pipeFirstListing (Memory.ofBytes 0 [])).2.data 0x12 = 0x30
      ∧ (load (cutListing pipeFirstListing) (Memory.ofBytes 0 [])).1 = true
      ∧ (load (cutListing pipeFirstListing) (Memory.ofBytes 0 [])).2.data 0x12 = 0 := by
  decide

/-! ## Function codes without a condition -/

/-- On function codes above 6 `CPU::cond` is false whatever the flags. -/
theorem cond_unknown (t : CPU) (h : 7 ≤ t.ifunc) : cond t = false := by
  have h0 : t.ifunc ≠ 0 := by omega
  have h1 : t.ifunc ≠ 1 := by omega
  have h2 : t.ifunc ≠ 2 := by omega
  have h3 : t.ifunc ≠ 3 := by omega
  have h4 : t.ifunc ≠ 4 := by omega
  have h5 : t.ifunc ≠ 5 := by omega
  have h6 : t.ifunc ≠ 6 := by omega
  simp only [cond, if_neg h0, if_neg h1, if_neg h2, if_neg h3, if_neg h4, if_neg h5, if_neg h6]

/-- C35: for a function code `fn` in 7..15, `CPU::cond` yields false on every
state with that function code, whatever its flags; a step on a register move
`0x2fn` (state `s`, register byte readable) leaves every register unchanged,
a step on a branch `0x7fn` (state `t`, target word readable) moves the program
counter to `PC + 9`, and in both cases the status stays running. -/
theorem unknown_condition_is_false (fn ra rb : Nat) (s t : CPU)
    (h7 : 7 ≤ fn) (h15 : fn ≤ 15)
    (hsrun : s.stat = Stat.AOK) (hspc : s.PC + 1 < MAX_SIZE)
    (hsop : s.mem.data s.PC = 0x20 + fn)
    (hsreg : s.mem.data (s.PC + 1) = 16 * ra + rb) (hra : ra < 16) (hrb : rb < 16)
    (htrun : t.stat = Stat.AOK) (htpc : t.PC + 8 < MAX_SIZE)
    (htop : t.mem.data t.PC = 0x70 + fn) :
    (∀ u : CPU, u.ifunc = fn → cond u = false)
      ∧ (∀ i, (step s).reg.regs i = s.reg.regs i) ∧ (step s).stat = Stat.AOK
      ∧ (step t).PC = t.PC + 9 ∧ (step t).stat = Stat.AOK := by
  have hc : ∀ u : CPU, u.ifunc = fn → cond u = false :=
    fun u hu => cond_unknown u (by omega)
  obtain ⟨hs1, -, -, hs4, -⟩ := step_cmov s fn ra rb hsrun hspc hsop (by omega) hsreg hra hrb
  obtain ⟨ht1, -, -, ht4, -⟩ := step_jxx t fn htrun htpc htop (by omega)
  rw [hc _ rfl] at hs1 ht1
  refine ⟨hc, fun i => ?_, hs4, ?_, ht4⟩
  · rw [hs1]
    rfl
  · rw [ht1]
    rfl

theorem unknown_condition_is_false_witness :
    (∀ u : CPU, u.ifunc = 7 → cond u = false)
      ∧ (∀ i, (step cmov7CPU).reg.regs i = cmov7CPU.reg.regs i)
      ∧ (step cmov7CPU).stat = Stat.AOK
      ∧ (step jxx7CPU).PC = jxx7CPU.PC + 9 ∧ (step jxx7CPU).stat = Stat.AOK :=
  unknown_condition_is_false 7 0 1 cmov7CPU jxx7CPU
    (by decide) (by decide) (by decide) (by decide) (by decide) (by decide) (by decide)
    (by decide) (by decide) (by decide) (by decide)

/-! ## The status after a step -/

theorem fetchValC_stat (s : CPU) :
    (fetchValC s).2.stat = s.stat ∨ (fetchValC s).2.stat = Stat.ADR := by
  simp only [fetchValC, setAddrError]
  split_ifs <;> first | exact Or.inl rfl | exact Or.inr rfl

theorem fetchRegs_stat (s : CPU) :
    (fetchRegs s).2.stat = s.stat ∨ (fetchRegs s).2.stat = Stat.ADR := by
  simp only [fetchRegs, setAddrError]
  split_ifs <;> first | exact Or.inl rfl | exact Or.inr rfl | exact fetchValC_stat _

theorem fetch_stat (s : CPU) :
    (fetch s).2.stat = s.stat ∨ (fetch s).2.stat = Stat.HLT ∨ (fetch s).2.stat = Stat.ADR := by
  simp only [fetch, setAddrError]
  split_ifs
  · exact Or.inr (Or.inr rfl)
  · exact Or.inr (Or.inl rfl)
  · rcases fetchRegs_stat
        { s with icode := ((s.mem.readByte s.PC).1 >>> 4) &&& 0xF,
                 ifunc := (s.mem.readByte s.PC).1 &&& 0xF,
                 valP := (s.PC + 1) % 2 ^ 64 } with h | h
    · exact Or.inl h
    · exact Or.inr (Or.inr h)

theorem updatePC_stat (s : CPU) : (updatePC s).stat = s.stat := by
  simp only [updatePC]
  split_ifs <;> rfl

/-- A step from a running state ends running, halted or with an address
error. -/
theorem step_stat (s : CPU) (hrun : s.stat = Stat.AOK) :
    (step s).stat = Stat.AOK ∨ (step s).stat = Stat.HLT ∨ (step s).stat = Stat.ADR := by
  unfold step
  rw [if_pos hrun, updatePC_stat, (writeback_stat_PC _).1]
  have hf := fetch_stat s
  rw [hrun] at hf
  have hx : (execute (decode (fetch s).2).2).2.stat = (fetch s).2.stat := by
    rw [(execute_stat_PC _).1, (decode_stat_PC _).1]
  rcases memory_stage_stat (execute (decode (fetch s).2).2).2 with hm | hm
  · rw [hm, hx]
    exact hf
  · exact Or.inr (Or.inr hm)

/-- One step on a byte of class 0xC..0xF. -/
theorem step_unused_class (s : CPU) (hrun : s.stat = Stat.AOK) (hpc : s.PC < MAX_SIZE)
    (hic : 12 ≤ (s.mem.data s.PC >>> 4) &&& 0xF) :
    (step s).stat = Stat.AOK ∧ (step s).PC = s.PC + 1 ∧ (step s).reg = s.reg
      ∧ (step s).cc = s.cc ∧ (step s).mem = s.mem := by
  have hm : MAX_SIZE = 8192 := rfl
  have hp0 : ¬ s.PC ≥ MAX_SIZE := by omega
  have hp1 : ¬ MAX_SIZE ≤ s.PC := by omega
  have hv1 : (s.PC + 1) % 18446744073709551616 = s.PC + 1 := by omega
  have hlt : (s.mem.data s.PC >>> 4) &&& 0xF < 16 :=
    Nat.lt_of_le_of_lt Nat.and_le_right (by decide)
  have hcases : (s.mem.data s.PC >>> 4) &&& 0xF = 12 ∨ (s.mem.data s.PC >>> 4) &&& 0xF = 13
      ∨ (s.mem.data s.PC >>> 4) &&& 0xF = 14 ∨ (s.mem.data s.PC >>> 4) &&& 0xF = 15 := by
    omega
  rcases hcases with h | h | h | h <;>
  simp [step, hrun, fetch, Memory.readByte, hp0, hp1, h, fetchRegs, needReg, fetchValC,
    needValC, decode, execute, setALU, memory_stage, writeback, updatePC, hv1,
    ICode.OPQ, ICode.HALT, ICode.NOP, ICode.RRMOVQ, ICode.IRMOVQ, ICode.RMMOVQ, ICode.MRMOVQ,
    ICode.JXX, ICode.CALL, ICode.RET, ICode.PUSHQ, ICode.POPQ]

/-- C36: a step never produces the invalid-instruction status: from a running
state `s` the status after `step` is running, halted or address-error; on a
readable opcode byte of class 0xC..0xF (state `t`) the status stays running
and the program counter advances by 1; on an arithmetic/logic instruction
`0x6fn` (state `u`, register byte readable) the status stays running and the
program counter advances by 2 whatever the function code `fn` is, above 3
included. -/
theorem invalid_instruction_status_never_set (s t u : CPU) (fn ra rb : Nat)
    (hsrun : s.stat = Stat.AOK)
    (htrun : t.stat = Stat.AOK) (htpc : t.PC < MAX_SIZE)
    (htic : 12 ≤ (t.mem.data t.PC >>> 4) &&& 0xF)
    (hurun : u.stat = Stat.AOK) (hupc : u.PC + 1 < MAX_SIZE)
    (huop : u.mem.data u.PC = 0x60 + fn) (hfn : fn < 16)
    (hureg : u.mem.data (u.PC + 1) = 16 * ra + rb) (hra : ra < 16) (hrb : rb < 16) :
    ((step s).stat = Stat.AOK ∨ (step s).stat = Stat.HLT ∨ (step s).stat = Stat.ADR)
      ∧ (step s).stat ≠ Stat.INS
      ∧ (step t).stat = Stat.AOK ∧ (step t).PC = t.PC + 1
      ∧ (step u).stat = Stat.AOK ∧ (step u).PC = u.PC + 2 := by
  have hs := step_stat s hsrun
  obtain ⟨ht1, ht2, -, -, -⟩ := step_unused_class t htrun htpc htic
  obtain ⟨-, -, -, hu4, hu5, -⟩ := step_opq u fn ra rb hurun hupc huop hfn hureg hra hrb
  refine ⟨hs, ?_, ht1, ht2, hu5, hu4⟩
  rcases hs with h | h | h <;> rw [h] <;> decide

theorem invalid_instruction_status_never_set_witness :
    ((step jlCPU).stat = Stat.AOK ∨ (step jlCPU).stat = Stat.HLT
        ∨ (step jlCPU).stat = Stat.ADR)
      ∧ (step jlCPU).stat ≠ Stat.INS
      ∧ (step classCCPU).stat = Stat.AOK ∧ (step classCCPU).PC = classCCPU.PC + 1
      ∧ (step opq4CPU).stat = Stat.AOK ∧ (step opq4CPU).PC = opq4CPU.PC + 2 :=
  invalid_instruction_status_never_set jlCPU classCCPU opq4CPU 4 0 1
    (by decide) (by decide) (by decide) (by decide) (by decide) (by decide) (by decide)
    (by decide) (by decide) (by decide) (by decide)

/-! ## The stack pointer as the operand of push and pop -/

/-- C37: a step on a push `0xA0` of the stack-pointer register, with the stack
pointer `sp` in `8..8192` (state `s`), stores the old value `sp` as the
little-endian word at `sp - 8` and leaves the stack pointer at `sp - 8`; a
step on a pop `0xB0` into the stack-pointer register, with the stack pointer
`sp` at most 8184 (state `t`), leaves the stack pointer equal to the word
read from address `sp`, which is the little-endian word stored there. -/
theorem push_pop_of_stack_pointer (s t : CPU) (rb rb2 : Nat)
    (hsrun : s.stat = Stat.AOK) (hspc : s.PC + 1 < MAX_SIZE)
    (hsop : s.mem.data s.PC = 0xA0)
    (hsreg : s.mem.data (s.PC + 1) = 16 * Reg.RSP + rb) (hrb : rb < 16)
    (h8 : 8 ≤ s.reg.regs Reg.RSP) (hs : s.reg.regs Reg.RSP ≤ 8192)
    (htrun : t.stat = Stat.AOK) (htpc : t.PC + 1 < MAX_SIZE)
    (htop : t.mem.data t.PC = 0xB0)
    (htreg : t.mem.data (t.PC + 1) = 16 * Reg.RSP + rb2) (hrb2 : rb2 < 16)
    (ht : t.reg.regs Reg.RSP ≤ 8184) (htbytes : t.mem.bytesAt (t.reg.regs Reg.RSP)) :
    (step s).mem.leWord (s.reg.regs Reg.RSP - 8) = s.reg.regs Reg.RSP
      ∧ (step s).reg.regs Reg.RSP = s.reg.regs Reg.RSP - 8
      ∧ (step t).reg.regs Reg.RSP = (t.mem.readWord (t.reg.regs Reg.RSP)).1
      ∧ (step t).reg.regs Reg.RSP = t.mem.leWord (t.reg.regs Reg.RSP) := by
  obtain ⟨-, hs2, hs3, -, -⟩ :=
    step_push s 0 Reg.RSP rb hsrun hspc hsop (by decide) hsreg (by decide) hrb h8 hs
  obtain ⟨-, ht2, -, -, -⟩ :=
    step_pop t 0 Reg.RSP rb2 htrun htpc htop (by decide) htreg (by decide) hrb2 ht
  rw [getReg_eq_regs _ _ (by decide)] at hs3
  have hpop : (step t).reg.regs Reg.RSP = (t.mem.readWord (t.reg.regs Reg.RSP)).1 := by
    rw [ht2]
    exact setReg_regs_self _ _ _ (by decide)
  refine ⟨?_, ?_, hpop, ?_⟩
  · rw [hs3]
    exact writeWord_leWord _ _ _ (by omega) (by omega)
  · rw [hs2]
    exact setReg_regs_self _ _ _ (by decide)
  · rw [hpop, readWord_eq_leWord t.mem _ ht htbytes]

theorem push_pop_of_stack_pointer_witness :
    (step pushRspCPU).mem.leWord (0x300 - 8) = 0x300
      ∧ (step pushRspCPU).reg.regs Reg.RSP = 0x300 - 8
      ∧ (step popRspCPU).reg.regs Reg.RSP = 0x0123 :=
  have h := push_pop_of_stack_pointer pushRspCPU popRspCPU 15 15
    (by decide) (by decide) (by decide) (by decide) (by decide) (by decide) (by decide)
    (by decide) (by decide) (by decide) (by decide) (by decide) (by decide) (by decide)
  ⟨h.1, h.2.1, h.2.2.2.trans (by decide)⟩

/-! ## Instructions that do not write memory -/

theorem fetchValC_mem (s : CPU) : (fetchValC s).2.mem = s.mem := by
  simp only [fetchValC, setAddrError]
  split_ifs <;> rfl

theorem fetchRegs_mem (s : CPU) : (fetchRegs s).2.mem = s.mem := by
  simp only [fetchRegs, setAddrError]
  split_ifs <;> first | rfl | exact fetchValC_mem _

theorem fetch_mem (s : CPU) : (fetch s).2.mem = s.mem := by
  simp only [fetch, setAddrError]
  split_ifs <;> first | rfl | exact fetchRegs_mem _

theorem execute_mem (s : CPU) : (execute s).2.mem = s.mem := by
  simp only [execute, setCC]
  split_ifs <;> rfl

/-- Only memory-store, push and call write memory in the memory stage. -/
theorem memory_stage_mem (s : CPU) (h4 : s.icode ≠ ICode.RMMOVQ) (hA : s.icode ≠ ICode.PUSHQ)
    (h8 : s.icode ≠ ICode.CALL) : (memory_stage s).2.mem = s.mem := by
  simp only [memory_stage, setAddrError, if_neg h4, if_neg hA, if_neg h8]
  split_ifs <;> rfl

theorem writeback_mem (s : CPU) : (writeback s).2.mem = s.mem := by
  simp only [writeback]
  split_ifs <;> rfl

theorem updatePC_mem (s : CPU) : (updatePC s).mem = s.mem := by
  simp only [updatePC]
  split_ifs <;> rfl

/-- C38: in a running state whose opcode byte at `PC` is readable and whose
instruction-class code is not 4 (memory-store), 8 (call) or 0xA (push),
`step` leaves every memory byte unchanged. -/
theorem memory_unchanged_unless_store_call_push (s : CPU) (hrun : s.stat = Stat.AOK)
    (hpc : s.PC < MAX_SIZE)
    (h4 : (s.mem.data s.PC >>> 4) &&& 0xF ≠ 4) (h8 : (s.mem.data s.PC >>> 4) &&& 0xF ≠ 8)
    (hA : (s.mem.data s.PC >>> 4) &&& 0xF ≠ 0xA) :
    ∀ a, (step s).mem.data a = s.mem.data a := by
  have hi : (execute (decode (fetch s).2).2).2.icode = (s.mem.data s.PC >>> 4) &&& 0xF := by
    rw [execute_icode]
    exact (fetch_icode_cc s hpc).1
  have hmem : (step s).mem = s.mem := by
    unfold step
    rw [if_pos hrun, updatePC_mem, writeback_mem,
      memory_stage_mem _ (by rw [hi]; exact h4) (by rw [hi]; exact hA) (by rw [hi]; exact h8),
      execute_mem]
    exact fetch_mem s
  intro a
  rw [hmem]

theorem memory_unchanged_unless_store_call_push_witness :
    (step popCPU).mem.data 0 = popCPU.mem.data 0
      ∧ (step popCPU).mem.data 0x10 = popCPU.mem.data 0x10 :=
  have h := memory_unchanged_unless_store_call_push popCPU (by decide) (by decide) (by decide)
    (by decide) (by decide)
  ⟨h 0, h 0x10⟩

end Y86
